import Mathlib

/-! A shallow embedding of `queue.c`.

The queue of `queue.c` is an intrusive circular doubly-linked list
(`struct list_head` embedded in `element_t`) hanging off a sentinel.

The embedding is a heap of typed allocations.  Every function of `queue.c` is
a function on heaps returning `Except Fault _`; a loop is a recursive function
on a fuel argument.  Nondeterminism of the C run time (what `malloc` answers,
what fresh memory contains) is an explicit argument.

Conventions
* `Ptr` is an address, `0` is `NULL`.  An `element_t *` and the address of its
  `list` member are the same `Ptr`: `list_entry` / `container_of` is the
  identity on addresses, and which fields may be read is decided by the
  `Kind` of the allocation.
* `size_t` is 64 bits wide, `int` is 32 bits wide (LP64).
* A `char` array is a `List Nat`; its length is the size of the array.
-/

namespace Queue

/-- Addresses.  `0` is `NULL`. -/
abbrev Ptr := Nat

/-- Ways in which an execution can go wrong. -/
inductive Fault where
  | nullDeref
  | badAccess
  | outOfBounds
  | badFree
  | intOverflow
  | outOfFuel
  deriving DecidableEq, Repr

/-- What an allocation holds: a bare `struct list_head` (the sentinel made by
`q_new`), an `element_t`, or an array of `char`. -/
inductive Kind where
  | listHead
  | element
  | chars
  deriving DecidableEq, Repr

/-- The heap.  `kind p = none` means that nothing is allocated at `p`. -/
structure Heap where
  kind : Ptr → Option Kind
  next : Ptr → Ptr
  prev : Ptr → Ptr
  value : Ptr → Ptr
  bytes : Ptr → List Nat

/-- Result type of every embedded function. -/
abbrev Exec (α : Type) := Except Fault α

/-- Modulus of `size_t` arithmetic. -/
def SIZE_MOD : Nat := 2 ^ 64

/-- Largest `int`. -/
def INT_MAX : Int := 2 ^ 31 - 1

/-- Conversion of a `size_t` to `int`: the value is reduced modulo `2^32` into
the range of `int` (the conversion of a value out of range is
implementation-defined in C; this is what GCC and Clang do). -/
@[irreducible]
def to_int (n : Nat) : Int := ((n : Int) + 2 ^ 31) % 2 ^ 32 - 2 ^ 31

/-- Conversion of an `int` to `size_t`. -/
@[irreducible]
def to_size (i : Int) : Nat := (i % (SIZE_MOD : Int)).toNat

/-- Subtraction of `size_t` values. -/
@[irreducible]
def size_sub (a b : Nat) : Nat := (a % SIZE_MOD + SIZE_MOD - b % SIZE_MOD) % SIZE_MOD

/-- Heap with `p->next` set to `v`. -/
def Heap.setNext (h : Heap) (p v : Ptr) : Heap := { h with next := Function.update h.next p v }

/-- Heap with `p->prev` set to `v`. -/
def Heap.setPrev (h : Heap) (p v : Ptr) : Heap := { h with prev := Function.update h.prev p v }

/-- Heap with `p->value` set to `v`. -/
def Heap.setValue (h : Heap) (p v : Ptr) : Heap := { h with value := Function.update h.value p v }

/-- Heap with the array at `p` replaced by `bs`. -/
def Heap.setBytes (h : Heap) (p : Ptr) (bs : List Nat) : Heap :=
  { h with bytes := Function.update h.bytes p bs }

/-- Heap with the allocation status of `p` set to `k`. -/
def Heap.setKind (h : Heap) (p : Ptr) (k : Option Kind) : Heap :=
  { h with kind := Function.update h.kind p k }

/-- The address holds a `struct list_head`: a sentinel or the `list` member of
an element. -/
def Heap.isNode (h : Heap) (p : Ptr) : Bool :=
  h.kind p == some Kind.listHead || h.kind p == some Kind.element

/-- Read `p->next`. -/
def load_next (h : Heap) (p : Ptr) : Exec Ptr :=
  if p = 0 then .error .nullDeref
  else if h.isNode p then .ok (h.next p) else .error .badAccess

/-- Read `p->prev`. -/
def load_prev (h : Heap) (p : Ptr) : Exec Ptr :=
  if p = 0 then .error .nullDeref
  else if h.isNode p then .ok (h.prev p) else .error .badAccess

/-- Write `p->next = v`. -/
def store_next (h : Heap) (p v : Ptr) : Exec Heap :=
  if p = 0 then .error .nullDeref
  else if h.isNode p then .ok (h.setNext p v) else .error .badAccess

/-- Write `p->prev = v`. -/
def store_prev (h : Heap) (p v : Ptr) : Exec Heap :=
  if p = 0 then .error .nullDeref
  else if h.isNode p then .ok (h.setPrev p v) else .error .badAccess

/-- Read `e->value` of an `element_t`. -/
def load_value (h : Heap) (e : Ptr) : Exec Ptr :=
  if e = 0 then .error .nullDeref
  else if h.kind e = some Kind.element then .ok (h.value e) else .error .badAccess

/-- Write `e->value = v` of an `element_t`. -/
def store_value (h : Heap) (e v : Ptr) : Exec Heap :=
  if e = 0 then .error .nullDeref
  else if h.kind e = some Kind.element then .ok (h.setValue e v) else .error .badAccess

/-- The `char` array a pointer points to. -/
def load_bytes (h : Heap) (p : Ptr) : Exec (List Nat) :=
  if p = 0 then .error .nullDeref
  else if h.kind p = some Kind.chars then .ok (h.bytes p) else .error .badAccess

/-- What the allocator answers to one `malloc`: the address (`0` when the
allocation fails) and the indeterminate initial content of the memory. -/
structure Alloc where
  addr : Ptr
  init : Nat → Nat

/-- The calls `malloc(sizeof(struct list_head))` and `malloc(sizeof(element_t))`:
on success the allocation is recorded; the fields keep indeterminate values. -/
def malloc_node (h : Heap) (k : Kind) (a : Alloc) : Heap × Ptr :=
  if a.addr = 0 then (h, 0) else (h.setKind a.addr (some k), a.addr)

/-- The library function `malloc(size)` for an array of `char`. -/
def malloc_chars (h : Heap) (size : Nat) (a : Alloc) : Heap × Ptr :=
  if a.addr = 0 then (h, 0)
  else ((h.setKind a.addr (some Kind.chars)).setBytes a.addr ((List.range size).map a.init), a.addr)

/-- The library function `free(p)`: nothing for `NULL`, a fault for an address
that is not allocated. -/
def free (h : Heap) (p : Ptr) : Exec Heap :=
  if p = 0 then .ok h
  else if h.kind p = none then .error .badFree
  else .ok (h.setKind p none)

/-- The library function `strlen` on the array `s`: the index of the first `0`; reading past the
end of an array without terminator is a fault. -/
def strlen (s : List Nat) : Exec Nat :=
  if 0 ∈ s then .ok (s.takeWhile (· ≠ 0)).length else .error .outOfBounds

/-- The C string held in an array: the bytes before the first `0`. -/
def cstr (s : List Nat) : List Nat := s.takeWhile (· ≠ 0)

/-- The library function `strncpy(dst, src, n)` on arrays: the first `n` bytes of `dst` become the
bytes of `src` up to its terminator (at most `n` of them) padded with `0`.
Writing past `dst` or reading past `src` is a fault. -/
def strncpy (dst src : List Nat) (n : Nat) : Exec (List Nat) :=
  let c := (src.take n).takeWhile (· ≠ 0)
  if dst.length < n then .error .outOfBounds
  else if c.length = src.length ∧ src.length < n then .error .outOfBounds
  else .ok (c ++ List.replicate (n - c.length) 0 ++ dst.drop n)

/-- The library function `strcmp` on arrays, bytes compared as unsigned values; running off either
array before a difference or a terminator is a fault. -/
def strcmp_bytes : List Nat → List Nat → Exec Int
  | a :: as, b :: bs =>
    if a ≠ b then .ok ((a : Int) - (b : Int))
    else if a = 0 then .ok 0
    else strcmp_bytes as bs
  | _, _ => .error .outOfBounds

/-- The library function `strcmp(p, q)` on pointers: a null operand is a fault. -/
def strcmp (h : Heap) (p q : Ptr) : Exec Int := do
  let a ← load_bytes h p
  let b ← load_bytes h q
  strcmp_bytes a b

/-- The assignment `a[i] = c` on an array, the index being an `int` or a `size_t`. -/
def store_byte (a : List Nat) (i : Int) (c : Nat) : Exec (List Nat) :=
  if i < 0 ∨ (a.length : Int) ≤ i then .error .outOfBounds
  else .ok (a.set i.toNat c)

/-! ## `list.h` -/

/-- Modelled from the spec: `INIT_LIST_HEAD` of `list.h` (not among the
sources); "sentinel links to itself". -/
def INIT_LIST_HEAD (h : Heap) (head : Ptr) : Exec Heap := do
  let h ← store_next h head head
  store_prev h head head

/-- Modelled from the spec: `list_add` of `list.h`; links `node` right after
`head`. -/
def list_add (h : Heap) (node head : Ptr) : Exec Heap := do
  let next ← load_next h head
  let h ← store_prev h next node
  let h ← store_next h node next
  let h ← store_prev h node head
  store_next h head node

/-- Modelled from the spec: `list_add_tail` of `list.h`; links `node` right
before `head`. -/
def list_add_tail (h : Heap) (node head : Ptr) : Exec Heap := do
  let prev ← load_prev h head
  let h ← store_next h prev node
  let h ← store_next h node head
  let h ← store_prev h node prev
  store_prev h head node

/-- Modelled from the spec: `list_del` of `list.h`; unlinks `node`, "restoring
the invariant over the two neighbors"; the links of `node` itself are kept. -/
def list_del (h : Heap) (node : Ptr) : Exec Heap := do
  let next ← load_next h node
  let prev ← load_prev h node
  let h ← store_prev h next prev
  store_next h prev next

/-- Modelled from the spec: `list_empty` of `list.h`; "the list is empty iff
the sentinel's next link points to itself". -/
def list_empty (h : Heap) (head : Ptr) : Exec Bool := do
  let next ← load_next h head
  pure (next == head)

/-- Modelled from the spec: `list_move` of `list.h`; `list_del` followed by
`list_add`. -/
def list_move (h : Heap) (node head : Ptr) : Exec Heap := do
  let h ← list_del h node
  list_add h node head

/-! ## `queue.c` -/

/-- The function `q_new`: the allocator's answer is `a`. -/
def q_new (h : Heap) (a : Alloc) : Exec (Heap × Ptr) :=
  let r := malloc_node h Kind.listHead a
  if r.2 = 0 then .ok (r.1, 0)
  else do
    let h ← INIT_LIST_HEAD r.1 r.2
    pure (h, r.2)

/-- Loop of `q_free` (`list_for_each_entry_safe`): `ele` is the current entry,
`tmp` the saved next one. -/
def q_free_loop : Nat → Heap → Ptr → Ptr → Ptr → Exec Heap
  | 0, _, _, _, _ => .error .outOfFuel
  | fuel + 1, h, l, ele, tmp =>
    if ele = l then .ok h
    else do
      let v ← load_value h ele
      let h ← free h v
      let h ← free h ele
      let nxt ← load_next h tmp
      q_free_loop fuel h l tmp nxt

/-- The function `q_free`. -/
def q_free (fuel : Nat) (h : Heap) (l : Ptr) : Exec Heap :=
  if l = 0 then .ok h
  else do
    let ele ← load_next h l
    let tmp ← load_next h ele
    let h ← q_free_loop fuel h l ele tmp
    free h l

/-- The function `q_insert_head`: `s` is the caller's array, `a1` and `a2` are the
allocator's answers to the two calls of `malloc`.  `int l = strlen(s)` converts
a `size_t` to `int`; `l + 1` is computed in `int` and converted to `size_t`
for `malloc`, `l` is converted to `size_t` for `strncpy`. -/
def q_insert_head (h : Heap) (head : Ptr) (s : List Nat) (a1 a2 : Alloc) : Exec (Heap × Bool) :=
  if head = 0 then .ok (h, false)
  else
    let r1 := malloc_node h Kind.element a1
    if r1.2 = 0 then .ok (r1.1, false)
    else do
      let n ← strlen s
      let l : Int := to_int n
      if INT_MAX < l + 1 then .error .intOverflow
      else do
        let r2 := malloc_chars r1.1 (to_size (l + 1)) a2
        let h ← store_value r2.1 r1.2 r2.2
        let v ← load_value h r1.2
        if v = 0 then do
          let h ← free h r1.2
          pure (h, false)
        else do
          let dst ← load_bytes h v
          let dst ← strncpy dst s (to_size l)
          let dst ← store_byte dst l 0
          let h ← list_add (h.setBytes v dst) r1.2 head
          pure (h, true)

/-- The function `q_insert_tail`: the text of `q_insert_head` with `list_add_tail` in the
place of `list_add`. -/
def q_insert_tail (h : Heap) (head : Ptr) (s : List Nat) (a1 a2 : Alloc) : Exec (Heap × Bool) :=
  if head = 0 then .ok (h, false)
  else
    let r1 := malloc_node h Kind.element a1
    if r1.2 = 0 then .ok (r1.1, false)
    else do
      let n ← strlen s
      let l : Int := to_int n
      if INT_MAX < l + 1 then .error .intOverflow
      else do
        let r2 := malloc_chars r1.1 (to_size (l + 1)) a2
        let h ← store_value r2.1 r1.2 r2.2
        let v ← load_value h r1.2
        if v = 0 then do
          let h ← free h r1.2
          pure (h, false)
        else do
          let dst ← load_bytes h v
          let dst ← strncpy dst s (to_size l)
          let dst ← store_byte dst l 0
          let h ← list_add_tail (h.setBytes v dst) r1.2 head
          pure (h, true)

/-- The text that `q_insert_head` and `q_insert_tail` have in common, the
linking function being left open; the two are this text with `list_add` and
with `list_add_tail` (`q_insert_head_eq`, `q_insert_tail_eq`). -/
def insert_with (link : Heap → Ptr → Ptr → Exec Heap) (h : Heap) (head : Ptr) (s : List Nat)
    (a1 a2 : Alloc) : Exec (Heap × Bool) :=
  if head = 0 then .ok (h, false)
  else
    let r1 := malloc_node h Kind.element a1
    if r1.2 = 0 then .ok (r1.1, false)
    else do
      let n ← strlen s
      let l : Int := to_int n
      if INT_MAX < l + 1 then .error .intOverflow
      else do
        let r2 := malloc_chars r1.1 (to_size (l + 1)) a2
        let h ← store_value r2.1 r1.2 r2.2
        let v ← load_value h r1.2
        if v = 0 then do
          let h ← free h r1.2
          pure (h, false)
        else do
          let dst ← load_bytes h v
          let dst ← strncpy dst s (to_size l)
          let dst ← store_byte dst l 0
          let h ← link (h.setBytes v dst) r1.2 head
          pure (h, true)

/-- The copy-out of `q_remove_head` and `q_remove_tail`: `sp` is the caller's
array (`none` for `NULL`), an array of its own outside the heap; `fptr` is the
removed element; `bufsize - 1` is computed in `size_t`. -/
def copy_out (h : Heap) (fptr : Ptr) (sp : Option (List Nat)) (bufsize : Nat) :
    Exec (Option (List Nat)) :=
  match sp with
  | none => .ok none
  | some buf => do
    let v ← load_value h fptr
    let src ← load_bytes h v
    let buf ← strncpy buf src (size_sub bufsize 1)
    let buf ← store_byte buf (size_sub bufsize 1 : Nat) 0
    pure (some buf)

/-- The function `q_remove_head`: returns the heap, the removed element (`0` for `NULL`)
and the caller's array after the call. -/
def q_remove_head (h : Heap) (head : Ptr) (sp : Option (List Nat)) (bufsize : Nat) :
    Exec (Heap × Ptr × Option (List Nat)) :=
  if head = 0 then .ok (h, 0, sp)
  else do
    let e ← list_empty h head
    if e then .ok (h, 0, sp)
    else do
      let fptr ← load_next h head
      let first ← load_next h head
      let h ← list_del h first
      let sp ← copy_out h fptr sp bufsize
      pure (h, fptr, sp)

/-- The function `q_remove_tail`. -/
def q_remove_tail (h : Heap) (head : Ptr) (sp : Option (List Nat)) (bufsize : Nat) :
    Exec (Heap × Ptr × Option (List Nat)) :=
  if head = 0 then .ok (h, 0, sp)
  else do
    let e ← list_empty h head
    if e then .ok (h, 0, sp)
    else do
      let fptr ← load_prev h head
      let last ← load_prev h head
      let h ← list_del h last
      let sp ← copy_out h fptr sp bufsize
      pure (h, fptr, sp)

/-- The function `q_release_element`. -/
def q_release_element (h : Heap) (e : Ptr) : Exec Heap := do
  let v ← load_value h e
  let h ← free h v
  free h e

/-- Loop of `q_size` (`list_for_each`); `len++` on an `int`. -/
def q_size_loop : Nat → Heap → Ptr → Ptr → Int → Exec Int
  | 0, _, _, _, _ => .error .outOfFuel
  | fuel + 1, h, head, li, len =>
    if li = head then .ok len
    else if INT_MAX < len + 1 then .error .intOverflow
    else do
      let nxt ← load_next h li
      q_size_loop fuel h head nxt (len + 1)

/-- The function `q_size`. -/
def q_size (fuel : Nat) (h : Heap) (head : Ptr) : Exec Int :=
  if head = 0 then .ok 0
  else do
    let li ← load_next h head
    q_size_loop fuel h head li 0

/-- Loop of `q_delete_mid`: returns the final `slow`. -/
def q_delete_mid_loop : Nat → Heap → Ptr → Ptr → Ptr → Exec Ptr
  | 0, _, _, _, _ => .error .outOfFuel
  | fuel + 1, h, head, fast, slow =>
    if fast = head then .ok slow
    else do
      let fn ← load_next h fast
      if fn = head then .ok slow
      else do
        let fn ← load_next h fast
        let fast ← load_next h fn
        let slow ← load_next h slow
        q_delete_mid_loop fuel h head fast slow

/-- The function `q_delete_mid`. -/
def q_delete_mid (fuel : Nat) (h : Heap) (head : Ptr) : Exec (Heap × Bool) :=
  if head = 0 then .ok (h, false)
  else do
    let e ← list_empty h head
    if e then .ok (h, false)
    else do
      let first ← load_next h head
      let fast ← load_next h first
      let slow ← load_next h head
      let slow ← q_delete_mid_loop fuel h head fast slow
      let h ← list_del h slow
      let h ← q_release_element h slow
      pure (h, true)

/-- Loop of `q_delete_dup` (`list_for_each_entry_safe`): `cmp` is the kept
string (`0` for `NULL`).  In `strcmp(cmp, ele->value) == 0 && cmp` the call of
`strcmp` is evaluated first. -/
def q_delete_dup_loop : Nat → Heap → Ptr → Ptr → Ptr → Ptr → Exec Heap
  | 0, _, _, _, _, _ => .error .outOfFuel
  | fuel + 1, h, head, cmp, ele, tmp =>
    if ele = head then .ok h
    else do
      let v ← load_value h ele
      let c ← strcmp h cmp v
      if c = 0 ∧ cmp ≠ 0 then do
        let h ← list_del h ele
        let v ← load_value h ele
        let h ← free h v
        let h ← free h ele
        let nxt ← load_next h tmp
        q_delete_dup_loop fuel h head cmp tmp nxt
      else do
        let cmp ← load_value h ele
        let nxt ← load_next h tmp
        q_delete_dup_loop fuel h head cmp tmp nxt

/-- The function `q_delete_dup`. -/
def q_delete_dup (fuel : Nat) (h : Heap) (head : Ptr) : Exec (Heap × Bool) :=
  if head = 0 then .ok (h, false)
  else do
    let e ← list_empty h head
    if e then .ok (h, false)
    else do
      let ele ← load_next h head
      let tmp ← load_next h ele
      let h ← q_delete_dup_loop fuel h head 0 ele tmp
      pure (h, true)

/-- Loop of `q_swap` (`list_for_each` with a `break`). -/
def q_swap_loop : Nat → Heap → Ptr → Ptr → Exec Heap
  | 0, _, _, _ => .error .outOfFuel
  | fuel + 1, h, head, i =>
    if i = head then .ok h
    else do
      let n ← load_next h i
      if n = head then .ok h
      else do
        let n ← load_next h i
        let h ← list_move h i n
        let i ← load_next h i
        q_swap_loop fuel h head i

/-- The function `q_swap`. -/
def q_swap (fuel : Nat) (h : Heap) (head : Ptr) : Exec Heap :=
  if head = 0 then .ok h
  else do
    let e ← list_empty h head
    if e then .ok h
    else do
      let i ← load_next h head
      q_swap_loop fuel h head i

/-- Loop of `q_reverse`. -/
def q_reverse_loop : Nat → Heap → Ptr → Ptr → Exec Heap
  | 0, _, _, _ => .error .outOfFuel
  | fuel + 1, h, head, i => do
    let n ← load_next h i
    let t ← load_prev h head
    if n = t then .ok h
    else do
      let t ← load_prev h head
      let h ← list_move h t i
      let i ← load_next h i
      q_reverse_loop fuel h head i

/-- The function `q_reverse`. -/
def q_reverse (fuel : Nat) (h : Heap) (head : Ptr) : Exec Heap :=
  if head = 0 then .ok h
  else do
    let e ← list_empty h head
    if e then .ok h
    else q_reverse_loop fuel h head head

/-- The function `q_sort`: the body is empty. -/
def q_sort (h : Heap) (_head : Ptr) : Exec Heap := .ok h

/-! ## The abstraction: which queue a heap holds -/

/-- The nodes `ps` are linked in both directions, in this order, between `a`
and `b`: `a.next` is the first of them, each one's `next` is the following
one, the last one's `next` is `b`, and `prev` links back the same way. -/
def chain (h : Heap) : Ptr → List Ptr → Ptr → Prop
  | a, [], b => h.next a = b ∧ h.prev b = a
  | a, p :: ps, b => h.next a = p ∧ h.prev p = a ∧ chain h p ps b

instance chain_decidable (h : Heap) : (a : Ptr) → (ps : List Ptr) → (b : Ptr) →
    Decidable (chain h a ps b)
  | a, [], b => inferInstanceAs (Decidable (h.next a = b ∧ h.prev b = a))
  | a, p :: ps, b =>
    have := chain_decidable h p ps b
    inferInstanceAs (Decidable (h.next a = p ∧ h.prev p = a ∧ chain h p ps b))

/-- The link structure of a queue: `head` is a live sentinel, `ps` are the
live elements, pairwise different, linked in a circle `head, ps, head`. -/
def Links (h : Heap) (head : Ptr) (ps : List Ptr) : Prop :=
  h.kind 0 = none ∧ h.kind head = some Kind.listHead ∧
  (∀ p ∈ ps, h.kind p = some Kind.element) ∧ ps.Nodup ∧ chain h head ps head

instance Links_decidable (h : Heap) (head : Ptr) (ps : List Ptr) :
    Decidable (Links h head ps) :=
  inferInstanceAs (Decidable (h.kind 0 = none ∧ h.kind head = some Kind.listHead ∧
    (∀ p ∈ ps, h.kind p = some Kind.element) ∧ ps.Nodup ∧ chain h head ps head))

/-- The payloads of a queue: every element of `ps` owns a live, terminated
array of `char`, and no two elements share one. -/
def Owned (h : Heap) (ps : List Ptr) : Prop :=
  (∀ p ∈ ps, h.kind (h.value p) = some Kind.chars ∧ 0 ∈ h.bytes (h.value p)) ∧
  (ps.map h.value).Nodup

instance Owned_decidable (h : Heap) (ps : List Ptr) : Decidable (Owned h ps) :=
  inferInstanceAs (Decidable
    ((∀ p ∈ ps, h.kind (h.value p) = some Kind.chars ∧ 0 ∈ h.bytes (h.value p)) ∧
      (ps.map h.value).Nodup))

/-- The heap `h` holds at `head` a well-formed queue whose elements are, from
head to tail, the nodes `ps`. -/
def WF (h : Heap) (head : Ptr) (ps : List Ptr) : Prop :=
  Links h head ps ∧ Owned h ps

instance WF_decidable (h : Heap) (head : Ptr) (ps : List Ptr) : Decidable (WF h head ps) :=
  inferInstanceAs (Decidable (Links h head ps ∧ Owned h ps))

/-- The string an element holds. -/
def payload (h : Heap) (p : Ptr) : List Nat := cstr (h.bytes (h.value p))

/-- The strings of the elements `ps`, in order. -/
def payloads (h : Heap) (ps : List Ptr) : List (List Nat) := ps.map (payload h)

/-- The heap after `list_del(x)` when no access faults. -/
def del_heap (h : Heap) (x : Ptr) : Heap :=
  (h.setPrev (h.next x) (h.prev x)).setNext (h.prev x) (h.next x)

/-- The heap after `list_add(node, p)` when no access faults. -/
def add_heap (h : Heap) (node p : Ptr) : Heap :=
  (((h.setPrev (h.next p) node).setNext node (h.next p)).setPrev node p).setNext p node

/-- The heap after `list_add_tail(node, p)` when no access faults. -/
def add_tail_heap (h : Heap) (node p : Ptr) : Heap :=
  (((h.setNext (h.prev p) node).setNext node p).setPrev node (h.prev p)).setPrev p node

/-- Both calls of `malloc` of an insertion succeed: the allocator answers two
different non-null addresses at which nothing is allocated. -/
def FreshPair (h : Heap) (a1 a2 : Alloc) : Prop :=
  a1.addr ≠ 0 ∧ h.kind a1.addr = none ∧ a2.addr ≠ 0 ∧ h.kind a2.addr = none ∧
  a2.addr ≠ a1.addr

instance FreshPair_decidable (h : Heap) (a1 a2 : Alloc) : Decidable (FreshPair h a1 a2) :=
  inferInstanceAs (Decidable (a1.addr ≠ 0 ∧ h.kind a1.addr = none ∧ a2.addr ≠ 0 ∧
    h.kind a2.addr = none ∧ a2.addr ≠ a1.addr))

/-- The heap in which the element `e` has been built and not yet linked, its
array `v` holding the bytes `c` and a terminator. -/
def elem_heap (h : Heap) (c : List Nat) (e v : Ptr) : Heap :=
  (((h.setKind e (some Kind.element)).setKind v (some Kind.chars)).setValue e v).setBytes v
    (c ++ [0])

/-- The call of a removal is in order as to its output buffer: `sp` is `NULL`,
or the array has at least `bufsize` bytes and `bufsize` is a positive
`size_t`. -/
def BufOK (sp : Option (List Nat)) (bufsize : Nat) : Prop :=
  match sp with
  | none => True
  | some buf => 1 ≤ bufsize ∧ bufsize ≤ buf.length ∧ bufsize < 2 ^ 64

instance BufOK_decidable : (sp : Option (List Nat)) → (bufsize : Nat) →
    Decidable (BufOK sp bufsize)
  | none, _ => inferInstanceAs (Decidable True)
  | some buf, b => inferInstanceAs (Decidable (1 ≤ b ∧ b ≤ buf.length ∧ b < 2 ^ 64))

/-- The caller's array after a bounded copy-out of the string `p` with
capacity `b`: the first `b - 1` bytes of `p` (all of `p` when it is shorter),
zero bytes up to and including index `b - 1`, and the rest of the array as it
was. -/
def buf_after (p buf : List Nat) (b : Nat) : List Nat :=
  p.take (b - 1) ++ List.replicate (b - (p.take (b - 1)).length) 0 ++ buf.drop b

/-- The heap after `q_release_element(x)` when no access faults: the array of
`x` and `x` itself are no longer allocated. -/
def release_heap (h : Heap) (x : Ptr) : Heap :=
  (h.setKind (h.value x) none).setKind x none

/-- The sequence in which the elements at the positions (0, 1), (2, 3), … are
exchanged; a last element without partner stays in place. -/
def swap_pairs {α : Type} : List α → List α
  | x :: y :: rest => y :: x :: swap_pairs rest
  | l => l

/-- The heap after an insertion whose second `malloc` fails: the element `e`
has been allocated, `e->value = NULL` written, and `e` freed again. -/
def fail_heap (h : Heap) (e : Ptr) : Heap :=
  ((h.setKind e (some Kind.element)).setValue e 0).setKind e none

/-- A call of one of the public operations that change a queue, with what the
environment supplies: the string and the allocator's answers for an insertion,
the output buffer for a removal, the fuel for a loop. -/
inductive Op where
  | insert_head (s : List Nat) (a1 a2 : Alloc)
  | insert_tail (s : List Nat) (a1 a2 : Alloc)
  | remove_head (sp : Option (List Nat)) (bufsize : Nat)
  | remove_tail (sp : Option (List Nat)) (bufsize : Nat)
  | delete_mid (fuel : Nat)
  | delete_dup (fuel : Nat)
  | swap (fuel : Nat)
  | reverse (fuel : Nat)
  | sort

/-- The heap after the call `op` on the queue `head`, when the call returns. -/
def Op.run (h : Heap) (head : Ptr) : Op → Exec Heap
  | .insert_head s a1 a2 => (q_insert_head h head s a1 a2).map (fun r => r.1)
  | .insert_tail s a1 a2 => (q_insert_tail h head s a1 a2).map (fun r => r.1)
  | .remove_head sp bufsize => (q_remove_head h head sp bufsize).map (fun r => r.1)
  | .remove_tail sp bufsize => (q_remove_tail h head sp bufsize).map (fun r => r.1)
  | .delete_mid fuel => (q_delete_mid fuel h head).map (fun r => r.1)
  | .delete_dup fuel => (q_delete_dup fuel h head).map (fun r => r.1)
  | .swap fuel => q_swap fuel h head
  | .reverse fuel => q_reverse fuel h head
  | .sort => q_sort h head

/-- What an allocator can answer to the two calls of `malloc` of an insertion:
each answer is a failure or an address at which nothing is allocated, and two
successful answers are different addresses. -/
def AllocOK (h : Heap) (a1 a2 : Alloc) : Prop :=
  (a1.addr = 0 ∨ h.kind a1.addr = none) ∧
  (a2.addr = 0 ∨ (h.kind a2.addr = none ∧ a2.addr ≠ a1.addr))

/-- The environment of the call `op` behaves: see `AllocOK`. -/
def Op.envOK (h : Heap) : Op → Prop
  | .insert_head _ a1 a2 => AllocOK h a1 a2
  | .insert_tail _ a1 a2 => AllocOK h a1 a2
  | _ => True

/-- The states a queue can be in: `q_new` has returned the queue `q` (not
`NULL`) in a heap whose null address is unallocated, and then any calls of the
operations `Op` have returned. -/
inductive Reach : Heap → Ptr → Prop where
  | new {h0 h : Heap} {a : Alloc} {q : Ptr} : h0.kind 0 = none → h0.kind a.addr = none →
      q ≠ 0 → q_new h0 a = .ok (h, q) → Reach h q
  | step {h h' : Heap} {q : Ptr} (op : Op) : Reach h q → op.envOK h → op.run h q = .ok h' →
      Reach h' q

instance AllocOK_decidable (h : Heap) (a1 a2 : Alloc) : Decidable (AllocOK h a1 a2) :=
  inferInstanceAs (Decidable ((a1.addr = 0 ∨ h.kind a1.addr = none) ∧
    (a2.addr = 0 ∨ (h.kind a2.addr = none ∧ a2.addr ≠ a1.addr))))

instance envOK_decidable (h : Heap) : (op : Op) → Decidable (op.envOK h)
  | .insert_head _ a1 a2 => inferInstanceAs (Decidable (AllocOK h a1 a2))
  | .insert_tail _ a1 a2 => inferInstanceAs (Decidable (AllocOK h a1 a2))
  | .remove_head _ _ => inferInstanceAs (Decidable True)
  | .remove_tail _ _ => inferInstanceAs (Decidable True)
  | .delete_mid _ => inferInstanceAs (Decidable True)
  | .delete_dup _ => inferInstanceAs (Decidable True)
  | .swap _ => inferInstanceAs (Decidable True)
  | .reverse _ => inferInstanceAs (Decidable True)
  | .sort => inferInstanceAs (Decidable True)

/-! ## Concrete heaps -/

/-- A heap holding one empty queue, its sentinel at address `1`. -/
def heap_empty_queue : Heap where
  kind := fun p => if p = 1 then some Kind.listHead else none
  next := fun _ => 1
  prev := fun _ => 1
  value := fun _ => 0
  bytes := fun _ => []

/-- A heap holding one queue of the strings `vals`: the sentinel is at address
`1`, the element of index `i` at `2 * i + 2`, and its array, holding the string
of index `i` and a terminator, at `2 * i + 3`. -/
def heap_of (vals : List (List Nat)) : Heap where
  kind := fun p =>
    if p = 1 then some Kind.listHead
    else if 2 ≤ p ∧ p < 2 * vals.length + 2 then
      (if p % 2 = 0 then some Kind.element else some Kind.chars)
    else none
  next := fun p =>
    if p = 1 then (if vals.length = 0 then 1 else 2)
    else if p = 2 * vals.length then 1 else p + 2
  prev := fun p =>
    if p = 1 then (if vals.length = 0 then 1 else 2 * vals.length)
    else if p = 2 then 1 else p - 2
  value := fun p => p + 1
  bytes := fun p => vals.getD ((p - 3) / 2) [] ++ [0]

/-- A heap in which nothing is allocated. -/
def heap_none : Heap where
  kind := fun _ => none
  next := fun _ => 0
  prev := fun _ => 0
  value := fun _ => 0
  bytes := fun _ => []

/-- The heap after `q_new` in `heap_none`, the allocator answering `1`. -/
def heap_new : Heap := ((heap_none.setKind 1 (some Kind.listHead)).setNext 1 1).setPrev 1 1

/-- The heap after `q_new` and the insertion of the string `a` at the tail, the
allocator answering `1`, `2` and `3`. -/
def heap_one : Heap := add_tail_heap (elem_heap heap_new [97] 2 3) 2 1

/-- A string of `2^32 + 1` letters `a` and its terminator. -/
def long_string : List Nat := List.replicate (2 ^ 32 + 1) 97 ++ [0]

/-- An allocator's answer: the address `p`, the memory there being zeroed. -/
def alloc_at (p : Ptr) : Alloc := ⟨p, fun _ => 0⟩

/-! ## Basic facts about the heap -/

section HeapFacts

variable (h : Heap) (p q v : Ptr)

@[simp] theorem setNext_kind : (h.setNext p v).kind = h.kind := rfl
@[simp] theorem setNext_prev : (h.setNext p v).prev = h.prev := rfl
@[simp] theorem setNext_value : (h.setNext p v).value = h.value := rfl
@[simp] theorem setNext_bytes : (h.setNext p v).bytes = h.bytes := rfl
@[simp] theorem setNext_next : (h.setNext p v).next = Function.update h.next p v := rfl
@[simp] theorem setPrev_kind : (h.setPrev p v).kind = h.kind := rfl
@[simp] theorem setPrev_next : (h.setPrev p v).next = h.next := rfl
@[simp] theorem setPrev_value : (h.setPrev p v).value = h.value := rfl
@[simp] theorem setPrev_bytes : (h.setPrev p v).bytes = h.bytes := rfl
@[simp] theorem setPrev_prev : (h.setPrev p v).prev = Function.update h.prev p v := rfl
@[simp] theorem setValue_kind : (h.setValue p v).kind = h.kind := rfl
@[simp] theorem setValue_next : (h.setValue p v).next = h.next := rfl
@[simp] theorem setValue_prev : (h.setValue p v).prev = h.prev := rfl
@[simp] theorem setValue_bytes : (h.setValue p v).bytes = h.bytes := rfl
@[simp] theorem setValue_value : (h.setValue p v).value = Function.update h.value p v := rfl
@[simp] theorem setBytes_kind (bs : List Nat) : (h.setBytes p bs).kind = h.kind := rfl
@[simp] theorem setBytes_next (bs : List Nat) : (h.setBytes p bs).next = h.next := rfl
@[simp] theorem setBytes_prev (bs : List Nat) : (h.setBytes p bs).prev = h.prev := rfl
@[simp] theorem setBytes_value (bs : List Nat) : (h.setBytes p bs).value = h.value := rfl
@[simp] theorem setBytes_bytes (bs : List Nat) :
    (h.setBytes p bs).bytes = Function.update h.bytes p bs := rfl
@[simp] theorem setKind_next (k : Option Kind) : (h.setKind p k).next = h.next := rfl
@[simp] theorem setKind_prev (k : Option Kind) : (h.setKind p k).prev = h.prev := rfl
@[simp] theorem setKind_value (k : Option Kind) : (h.setKind p k).value = h.value := rfl
@[simp] theorem setKind_bytes (k : Option Kind) : (h.setKind p k).bytes = h.bytes := rfl
@[simp] theorem setKind_kind (k : Option Kind) :
    (h.setKind p k).kind = Function.update h.kind p k := rfl

@[simp] theorem isNode_setNext : (h.setNext p v).isNode q = h.isNode q := rfl
@[simp] theorem isNode_setPrev : (h.setPrev p v).isNode q = h.isNode q := rfl

@[simp] theorem del_heap_kind : (del_heap h p).kind = h.kind := rfl
@[simp] theorem del_heap_value : (del_heap h p).value = h.value := rfl
@[simp] theorem del_heap_bytes : (del_heap h p).bytes = h.bytes := rfl
@[simp] theorem add_heap_kind : (add_heap h p q).kind = h.kind := rfl
@[simp] theorem add_heap_value : (add_heap h p q).value = h.value := rfl
@[simp] theorem add_heap_bytes : (add_heap h p q).bytes = h.bytes := rfl
@[simp] theorem add_tail_heap_kind : (add_tail_heap h p q).kind = h.kind := rfl
@[simp] theorem add_tail_heap_value : (add_tail_heap h p q).value = h.value := rfl
@[simp] theorem add_tail_heap_bytes : (add_tail_heap h p q).bytes = h.bytes := rfl

end HeapFacts

/- The three facts below are stated as rewriting steps proper (`Eq.trans`), so that
a simplification using them is checked step by step. -/
@[simp] theorem exec_bind_ok {α β : Type} (a : α) (f : α → Exec β) :
    (Except.ok a >>= f) = f a := Eq.trans rfl rfl

@[simp] theorem exec_bind_error {α β : Type} (e : Fault) (f : α → Exec β) :
    ((Except.error e : Exec α) >>= f) = Except.error e := Eq.trans rfl rfl

@[simp] theorem exec_pure {α : Type} (a : α) : (pure a : Exec α) = Except.ok a :=
  Eq.trans rfl rfl

theorem isNode_of_head {h : Heap} {p : Ptr} (hk : h.kind p = some Kind.listHead) :
    h.isNode p = true := by simp [Heap.isNode, hk]

theorem isNode_of_elem {h : Heap} {p : Ptr} (hk : h.kind p = some Kind.element) :
    h.isNode p = true := by simp [Heap.isNode, hk]

theorem ne_null_of_node {h : Heap} {p : Ptr} (h0 : h.kind 0 = none) (hp : h.isNode p = true) :
    p ≠ 0 := by
  rintro rfl
  simp [Heap.isNode, h0] at hp

theorem load_next_ok {h : Heap} {p : Ptr} (h0 : h.kind 0 = none) (hp : h.isNode p = true) :
    load_next h p = .ok (h.next p) := by
  simp [load_next, ne_null_of_node h0 hp, hp]

theorem load_prev_ok {h : Heap} {p : Ptr} (h0 : h.kind 0 = none) (hp : h.isNode p = true) :
    load_prev h p = .ok (h.prev p) := by
  simp [load_prev, ne_null_of_node h0 hp, hp]

theorem store_next_ok {h : Heap} {p : Ptr} (v : Ptr) (h0 : h.kind 0 = none)
    (hp : h.isNode p = true) : store_next h p v = .ok (h.setNext p v) := by
  simp [store_next, ne_null_of_node h0 hp, hp]

theorem store_prev_ok {h : Heap} {p : Ptr} (v : Ptr) (h0 : h.kind 0 = none)
    (hp : h.isNode p = true) : store_prev h p v = .ok (h.setPrev p v) := by
  simp [store_prev, ne_null_of_node h0 hp, hp]

theorem list_del_ok {h : Heap} {x : Ptr} (h0 : h.kind 0 = none) (hx : h.isNode x = true)
    (hn : h.isNode (h.next x) = true) (hp : h.isNode (h.prev x) = true) :
    list_del h x = .ok (del_heap h x) := by
  simp [list_del, load_next_ok h0 hx, load_prev_ok h0 hx, store_prev_ok _ h0 hn]
  rw [store_next_ok]
  · rfl
  · exact h0
  · exact hp

theorem list_add_ok {h : Heap} {node p : Ptr} (h0 : h.kind 0 = none) (hnode : h.isNode node = true)
    (hp : h.isNode p = true) (hn : h.isNode (h.next p) = true) :
    list_add h node p = .ok (add_heap h node p) := by
  simp only [list_add, load_next_ok h0 hp, store_prev_ok _ h0 hn, exec_bind_ok]
  rw [store_next_ok _ (by simpa using h0) (by simpa using hnode)]
  simp only [exec_bind_ok]
  rw [store_prev_ok _ (by simpa using h0) (by simpa using hnode)]
  simp only [exec_bind_ok]
  rw [store_next_ok _ (by simpa using h0) (by simpa using hp)]
  rfl

theorem list_add_tail_ok {h : Heap} {node p : Ptr} (h0 : h.kind 0 = none)
    (hnode : h.isNode node = true) (hp : h.isNode p = true) (hn : h.isNode (h.prev p) = true) :
    list_add_tail h node p = .ok (add_tail_heap h node p) := by
  simp only [list_add_tail, load_prev_ok h0 hp, store_next_ok _ h0 hn, exec_bind_ok]
  rw [store_next_ok _ (by simpa using h0) (by simpa using hnode)]
  simp only [exec_bind_ok]
  rw [store_prev_ok _ (by simpa using h0) (by simpa using hnode)]
  simp only [exec_bind_ok]
  rw [store_prev_ok _ (by simpa using h0) (by simpa using hp)]
  rfl

/-! ## Facts about `chain` -/

theorem chain_frame {h h' : Heap} {a b : Ptr} {ps : List Ptr}
    (hn : ∀ x ∈ a :: ps, h'.next x = h.next x) (hp : ∀ x ∈ ps ++ [b], h'.prev x = h.prev x)
    (hc : chain h a ps b) : chain h' a ps b := by
  induction ps generalizing a with
  | nil =>
    simp only [chain] at hc ⊢
    rw [hn a (by simp), hp b (by simp)]
    exact hc
  | cons p ps ih =>
    simp only [chain] at hc ⊢
    refine ⟨?_, ?_, ih ?_ ?_ hc.2.2⟩
    · rw [hn a (by simp)]; exact hc.1
    · rw [hp p (by simp)]; exact hc.2.1
    · intro x hx; exact hn x (List.mem_cons_of_mem _ hx)
    · intro x hx; exact hp x (by simp at hx ⊢; tauto)

theorem chain_append {h : Heap} {a b x : Ptr} {A B : List Ptr} :
    chain h a (A ++ x :: B) b ↔ chain h a A x ∧ chain h x B b := by
  induction A generalizing a with
  | nil => simp [chain, and_assoc]
  | cons p A ih => simp [chain, ih, and_assoc]

/-- In a chain the `next` of a node is the node after it. -/
theorem chain_next_mid {h : Heap} {a b x : Ptr} {A B : List Ptr}
    (hc : chain h a (A ++ x :: B) b) : h.next x = (B ++ [b]).head (by simp) := by
  have h2 := (chain_append.1 hc).2
  cases B with
  | nil => simpa [chain] using h2.1
  | cons v B => simpa [chain] using h2.1

/-- In a chain the `prev` of a node is the node before it. -/
theorem chain_prev_mid {h : Heap} {a b x : Ptr} {A B : List Ptr}
    (hc : chain h a (A ++ x :: B) b) : h.prev x = (a :: A).getLast (by simp) := by
  induction A generalizing a with
  | nil => simpa [chain] using hc.2.1
  | cons p A ih =>
    simp only [List.cons_append, chain] at hc
    rw [ih hc.2.2]
    simp [List.getLast_cons]

theorem chain_next_first {h : Heap} {a b : Ptr} {ps : List Ptr} (hc : chain h a ps b) :
    h.next a = (ps ++ [b]).head (by simp) := by
  cases ps with
  | nil => simpa [chain] using hc.1
  | cons v B => simpa [chain] using hc.1

theorem chain_prev_last {h : Heap} {a b : Ptr} {ps : List Ptr} (hc : chain h a ps b) :
    h.prev b = (a :: ps).getLast (by simp) := by
  induction ps generalizing a with
  | nil => simpa [chain] using hc.2
  | cons p A ih =>
    simp only [chain] at hc
    rw [ih hc.2.2]
    simp [List.getLast_cons]

theorem chain_del {h : Heap} {a b x : Ptr} {A B : List Ptr}
    (hc : chain h a (A ++ x :: B) b) (nd1 : (a :: (A ++ x :: B)).Nodup)
    (nd2 : (A ++ x :: B ++ [b]).Nodup) : chain (del_heap h x) a (A ++ B) b := by
  induction A generalizing a with
  | nil =>
    simp only [List.nil_append, chain] at hc
    obtain ⟨h1, h2, h3⟩ := hc
    cases B with
    | nil =>
      simp only [chain] at h3
      simp [chain, del_heap, h2, h3.1]
    | cons v B =>
      simp only [chain] at h3
      simp only [List.nil_append, chain]
      refine ⟨by simp [del_heap, h2, h3.1], by simp [del_heap, h2, h3.1], ?_⟩
      apply chain_frame _ _ h3.2.2
      · intro y hy
        have : y ≠ a := by
          rintro rfl
          simp only [List.nil_append, List.nodup_cons, List.mem_cons] at nd1 hy
          tauto
        simp [del_heap, h2, Function.update_noteq this]
      · intro y hy
        have : y ≠ v := by
          rintro rfl
          simp only [List.nil_append, List.cons_append, List.nodup_cons] at nd2
          exact nd2.2.1 hy
        simp [del_heap, h3.1, Function.update_noteq this]
  | cons p A ih =>
    have hpm := chain_prev_mid hc
    have hnm := chain_next_mid hc
    simp only [List.cons_append, chain] at hc
    obtain ⟨h1, h2, h3⟩ := hc
    simp only [List.cons_append, chain]
    have nd1' : (p :: (A ++ x :: B)).Nodup := (List.nodup_cons.1 nd1).2
    have nd2' : (A ++ x :: B ++ [b]).Nodup := by
      simp only [List.cons_append, List.nodup_cons] at nd2
      exact nd2.2
    refine ⟨?_, ?_, ih h3 nd1' nd2'⟩
    · have : a ≠ h.prev x := by
        rw [hpm]
        intro e
        have hm : (a :: p :: A).getLast (by simp) ∈ p :: A := by
          rw [List.getLast_cons (by simp)]
          exact List.getLast_mem _
        rw [← e] at hm
        simp only [List.cons_append, List.nodup_cons, List.mem_cons, List.mem_append] at nd1 hm
        tauto
      simp [del_heap, Function.update_noteq this, h1]
    · have : p ≠ h.next x := by
        rw [hnm]
        intro e
        have hm : (B ++ [b]).head (by simp) ∈ B ++ [b] := List.head_mem _
        rw [← e] at hm
        simp only [List.cons_append, List.nodup_cons, List.mem_cons, List.mem_append,
          List.append_assoc] at nd2 hm
        simp at nd2 hm
        tauto
      simp [del_heap, Function.update_noteq this, h2]

theorem chain_add {h : Heap} {a b node : Ptr} {A B : List Ptr}
    (hc : chain h a (A ++ B) b) (nd1 : (a :: (A ++ B)).Nodup) (nd2 : (A ++ B ++ [b]).Nodup)
    (hnode : node ∉ a :: (A ++ B ++ [b])) :
    chain (add_heap h node ((a :: A).getLast (by simp))) a (A ++ node :: B) b := by
  induction A generalizing a with
  | nil =>
    simp only [List.nil_append] at hc nd1 nd2 hnode
    simp only [List.getLast_singleton, List.nil_append, chain]
    have hna : node ≠ a := fun e => hnode (by simp [e])
    refine ⟨by simp [add_heap], by simp [add_heap], ?_⟩
    cases B with
    | nil =>
      simp only [chain] at hc
      have hnb : b ≠ node := fun e => hnode (by simp [e])
      simp [chain, add_heap, hc.1, Function.update_noteq hna, Function.update_noteq hnb]
    | cons v B =>
      simp only [chain] at hc
      have hnv : v ≠ node := fun e => hnode (by simp [e])
      simp only [chain]
      refine ⟨by simp [add_heap, hc.1, Function.update_noteq hna],
        by simp [add_heap, hc.1, Function.update_noteq hnv], ?_⟩
      apply chain_frame _ _ hc.2.2
      · intro y hy
        have h1 : y ≠ a := by
          rintro rfl
          exact (List.nodup_cons.1 nd1).1 hy
        have h2 : y ≠ node := by
          rintro rfl
          exact hnode (by simp at hy ⊢; tauto)
        simp [add_heap, Function.update_noteq h1, Function.update_noteq h2]
      · intro y hy
        have h1 : y ≠ v := by
          rintro rfl
          simp only [List.cons_append, List.nodup_cons] at nd2
          exact nd2.1 hy
        have h2 : y ≠ node := by
          rintro rfl
          exact hnode (by simp at hy ⊢; tauto)
        simp [add_heap, hc.1, Function.update_noteq h1, Function.update_noteq h2]
  | cons p A ih =>
    have hlast : (a :: p :: A).getLast (by simp) = (p :: A).getLast (by simp) :=
      List.getLast_cons (by simp)
    have hmem : (p :: A).getLast (by simp) ∈ p :: A := List.getLast_mem _
    have hnx : h.next ((p :: A).getLast (by simp)) = (B ++ [b]).head (by simp) := by
      rcases List.eq_nil_or_concat (p :: A) with e | ⟨L, z, e⟩
      · simp at e
      · have e2 : (p :: A).getLast (by simp) = z := by simp [e]
        rw [e2]
        have hc2 : chain h a (L ++ z :: B) b := by
          have : p :: A ++ B = L ++ z :: B := by rw [e]; simp
          rw [← this]; exact hc
        exact chain_next_mid hc2
    simp only [List.cons_append, chain] at hc
    obtain ⟨h1, h2, h3⟩ := hc
    have nd1' : (p :: (A ++ B)).Nodup := (List.nodup_cons.1 nd1).2
    have nd2' : (A ++ B ++ [b]).Nodup := by
      simp only [List.cons_append, List.nodup_cons] at nd2
      exact nd2.2
    have hnode' : node ∉ p :: (A ++ B ++ [b]) := by
      intro hm; exact hnode (List.mem_cons_of_mem _ (by simpa using hm))
    have key := ih h3 nd1' nd2' hnode'
    simp only [List.cons_append, chain]
    rw [hlast]
    refine ⟨?_, ?_, key⟩
    · have e1 : a ≠ (p :: A).getLast (by simp) := by
        intro e
        rw [← e] at hmem
        simp only [List.cons_append, List.nodup_cons, List.mem_cons, List.mem_append] at nd1 hmem
        tauto
      have e2 : a ≠ node := fun e => hnode (by simp [e])
      simp [add_heap, Function.update_noteq e1, Function.update_noteq e2, h1]
    · have e1 : p ≠ node := fun e => hnode (by simp [e])
      have e2 : p ≠ h.next ((p :: A).getLast (by simp)) := by
        rw [hnx]
        intro e
        have hm : (B ++ [b]).head (by simp) ∈ B ++ [b] := List.head_mem _
        rw [← e] at hm
        simp at nd2 hm
        tauto
      simp [add_heap, Function.update_noteq e1, Function.update_noteq e2, h2]

theorem chain_add_tail {h : Heap} {a b node : Ptr} {ps : List Ptr}
    (hc : chain h a ps b) (nd1 : (a :: ps).Nodup) (nd2 : (ps ++ [b]).Nodup)
    (hnode : node ∉ a :: (ps ++ [b])) :
    chain (add_tail_heap h node b) a (ps ++ [node]) b := by
  have hpl := chain_prev_last hc
  induction ps generalizing a with
  | nil =>
    simp only [chain] at hc
    have hna : node ≠ a := fun e => hnode (by simp [e])
    have hnb : b ≠ node := fun e => hnode (by simp [e])
    have hna' : a ≠ node := fun e => hna e.symm
    simp [chain, add_tail_heap, hc.2, Function.update_noteq hna', Function.update_noteq hnb.symm]
  | cons p A ih =>
    have hmem : (p :: A).getLast (by simp) ∈ p :: A := List.getLast_mem _
    rw [List.getLast_cons (by simp)] at hpl
    simp only [chain] at hc
    obtain ⟨h1, h2, h3⟩ := hc
    have nd1' : (p :: A).Nodup := (List.nodup_cons.1 nd1).2
    have nd2' : (A ++ [b]).Nodup := by
      simp only [List.cons_append, List.nodup_cons] at nd2
      exact nd2.2
    have hnode' : node ∉ p :: (A ++ [b]) := by
      intro hm; exact hnode (List.mem_cons_of_mem _ (by simpa using hm))
    have key := ih h3 nd1' nd2' hnode' (chain_prev_last h3)
    simp only [List.cons_append, chain]
    refine ⟨?_, ?_, key⟩
    · have e1 : a ≠ h.prev b := by
        rw [hpl]
        intro e
        rw [← e] at hmem
        exact (List.nodup_cons.1 nd1).1 hmem
      have e2 : a ≠ node := fun e => hnode (by simp [e])
      simp [add_tail_heap, Function.update_noteq e1, Function.update_noteq e2, h1]
    · have e1 : p ≠ node := fun e => hnode (by simp [e])
      have e2 : p ≠ b := by
        intro e
        simp [e] at nd2
      simp [add_tail_heap, Function.update_noteq e1, Function.update_noteq e2, h2]

theorem chain_next_mem {h : Heap} {a b : Ptr} {ps : List Ptr} (hc : chain h a ps b) :
    ∀ x ∈ a :: ps, h.next x ∈ ps ++ [b] := by
  induction ps generalizing a with
  | nil =>
    intro x hx
    simp only [List.mem_singleton] at hx
    simp only [chain] at hc
    simp [hx, hc.1]
  | cons p ps ih =>
    intro x hx
    simp only [chain] at hc
    rcases List.mem_cons.1 hx with rfl | hx
    · simp [hc.1]
    · exact List.mem_cons_of_mem _ (ih hc.2.2 x hx)

theorem chain_prev_mem {h : Heap} {a b : Ptr} {ps : List Ptr} (hc : chain h a ps b) :
    ∀ x ∈ ps ++ [b], h.prev x ∈ a :: ps := by
  induction ps generalizing a with
  | nil =>
    intro x hx
    simp only [List.nil_append, List.mem_singleton] at hx
    simp only [chain] at hc
    simp [hx, hc.2]
  | cons p ps ih =>
    intro x hx
    simp only [chain] at hc
    rcases List.mem_cons.1 hx with rfl | hx
    · simp [hc.2.1]
    · exact List.mem_cons_of_mem _ (ih hc.2.2 x hx)

/-! ## Facts about `Links` -/

theorem Links.head_not_mem {h : Heap} {head : Ptr} {ps : List Ptr} (hl : Links h head ps) :
    head ∉ ps := by
  intro hm
  have := hl.2.2.1 head hm
  rw [hl.2.1] at this
  cases this

theorem Links.isNode {h : Heap} {head : Ptr} {ps : List Ptr} (hl : Links h head ps) :
    ∀ x ∈ head :: ps, h.isNode x = true := by
  intro x hx
  rcases List.mem_cons.1 hx with rfl | hx
  · exact isNode_of_head hl.2.1
  · exact isNode_of_elem (hl.2.2.1 x hx)

theorem Links.isNode_next {h : Heap} {head : Ptr} {ps : List Ptr} (hl : Links h head ps) :
    ∀ x ∈ head :: ps, h.isNode (h.next x) = true := by
  intro x hx
  have := chain_next_mem hl.2.2.2.2 x hx
  apply hl.isNode
  simp at this ⊢
  tauto

theorem Links.isNode_prev {h : Heap} {head : Ptr} {ps : List Ptr} (hl : Links h head ps) :
    ∀ x ∈ head :: ps, h.isNode (h.prev x) = true := by
  intro x hx
  have := chain_prev_mem hl.2.2.2.2 x (by simp at hx ⊢; tauto)
  exact hl.isNode _ this

theorem Links.nodup_cons {h : Heap} {head : Ptr} {ps : List Ptr} (hl : Links h head ps) :
    (head :: ps).Nodup := List.nodup_cons.2 ⟨hl.head_not_mem, hl.2.2.2.1⟩

theorem Links.nodup_concat {h : Heap} {head : Ptr} {ps : List Ptr} (hl : Links h head ps) :
    (ps ++ [head]).Nodup :=
  (List.perm_append_singleton head ps).nodup_iff.2 hl.nodup_cons

/-- Unlinking an element of a well-linked queue succeeds and leaves the other
elements linked in their order. -/
theorem Links.del {h : Heap} {head x : Ptr} {A B : List Ptr} (hl : Links h head (A ++ x :: B)) :
    list_del h x = .ok (del_heap h x) ∧ Links (del_heap h x) head (A ++ B) := by
  have hx : x ∈ head :: (A ++ x :: B) := by simp
  refine ⟨list_del_ok hl.1 (hl.isNode x hx) (hl.isNode_next x hx) (hl.isNode_prev x hx), ?_⟩
  refine ⟨hl.1, hl.2.1, ?_, ?_, ?_⟩
  · intro p hp
    exact hl.2.2.1 p (by simp at hp ⊢; tauto)
  · have := hl.2.2.2.1
    exact this.sublist (by simp)
  · exact chain_del hl.2.2.2.2 hl.nodup_cons (by simpa using hl.nodup_concat)

/-- Linking a fresh element after a node of a well-linked queue succeeds and
puts it right after that node. -/
theorem Links.add {h : Heap} {head node : Ptr} {A B : List Ptr} (hl : Links h head (A ++ B))
    (hk : h.kind node = some Kind.element) (hnode : node ∉ A ++ B) :
    list_add h node ((head :: A).getLast (by simp))
      = .ok (add_heap h node ((head :: A).getLast (by simp))) ∧
    Links (add_heap h node ((head :: A).getLast (by simp))) head (A ++ node :: B) := by
  have hp : (head :: A).getLast (by simp) ∈ head :: (A ++ B) := by
    have hm := List.getLast_mem (l := head :: A) (by simp)
    have hsub : ∀ y, y ∈ head :: A → y ∈ head :: (A ++ B) := by
      intro y hy
      simp only [List.mem_cons, List.mem_append] at hy ⊢
      tauto
    exact hsub _ hm
  have hne : node ≠ head := by
    rintro rfl
    rw [hl.2.1] at hk
    cases hk
  refine ⟨list_add_ok hl.1 (isNode_of_elem hk) (hl.isNode _ hp) (hl.isNode_next _ hp), ?_⟩
  refine ⟨hl.1, hl.2.1, ?_, ?_, ?_⟩
  · intro p hp
    simp only [List.mem_append, List.mem_cons] at hp
    rcases hp with hp | rfl | hp
    · exact hl.2.2.1 p (by simp [hp])
    · exact hk
    · exact hl.2.2.1 p (by simp [hp])
  · have := hl.2.2.2.1
    have hperm : (A ++ node :: B).Perm (node :: (A ++ B)) := List.perm_middle
    exact hperm.nodup_iff.2 (List.nodup_cons.2 ⟨hnode, this⟩)
  · apply chain_add hl.2.2.2.2 hl.nodup_cons hl.nodup_concat
    intro hm
    simp only [List.mem_cons, List.mem_append, List.mem_singleton] at hm
    simp only [List.mem_append] at hnode
    tauto

/-- Linking a fresh element before the sentinel succeeds and makes it the
last element. -/
theorem Links.add_tail {h : Heap} {head node : Ptr} {ps : List Ptr} (hl : Links h head ps)
    (hk : h.kind node = some Kind.element) (hnode : node ∉ ps) :
    list_add_tail h node head = .ok (add_tail_heap h node head) ∧
    Links (add_tail_heap h node head) head (ps ++ [node]) := by
  have hp : head ∈ head :: ps := by simp
  have hne : node ≠ head := by
    rintro rfl
    rw [hl.2.1] at hk
    cases hk
  refine ⟨list_add_tail_ok hl.1 (isNode_of_elem hk) (hl.isNode _ hp) (hl.isNode_prev _ hp), ?_⟩
  refine ⟨hl.1, hl.2.1, ?_, ?_, ?_⟩
  · intro p hp
    simp only [List.mem_append, List.mem_singleton] at hp
    rcases hp with hp | rfl
    · exact hl.2.2.1 p hp
    · exact hk
  · have := hl.2.2.2.1
    exact (List.perm_append_singleton node ps).nodup_iff.2 (List.nodup_cons.2 ⟨hnode, this⟩)
  · apply chain_add_tail hl.2.2.2.2 hl.nodup_cons hl.nodup_concat
    intro hm
    simp only [List.mem_cons, List.mem_append, List.mem_singleton] at hm
    tauto

/-- A heap that agrees with `h` on the nodes of a queue holds the same links. -/
theorem Links.links_congr {h h' : Heap} {head : Ptr} {ps : List Ptr} (hl : Links h head ps)
    (h0 : h'.kind 0 = none)
    (hs : ∀ p ∈ head :: ps, h'.kind p = h.kind p ∧ h'.next p = h.next p ∧ h'.prev p = h.prev p) :
    Links h' head ps := by
  refine ⟨h0, ?_, ?_, hl.2.2.2.1, ?_⟩
  · rw [(hs head (by simp)).1]; exact hl.2.1
  · intro p hp
    rw [(hs p (by simp [hp])).1]; exact hl.2.2.1 p hp
  · apply chain_frame _ _ hl.2.2.2.2
    · intro x hx; exact (hs x hx).2.1
    · intro x hx
      exact (hs x (by simp at hx ⊢; tauto)).2.2

/-- A heap that agrees with `h` on the payloads of a queue owns the same
payloads. -/
theorem Owned.owned_congr {h h' : Heap} {ps : List Ptr} (ho : Owned h ps)
    (hs : ∀ p ∈ ps, h'.value p = h.value p ∧ h'.kind (h.value p) = h.kind (h.value p) ∧
      h'.bytes (h.value p) = h.bytes (h.value p)) :
    Owned h' ps := by
  refine ⟨?_, ?_⟩
  · intro p hp
    obtain ⟨e1, e2, e3⟩ := hs p hp
    rw [e1, e2, e3]
    exact ho.1 p hp
  · have : ps.map h'.value = ps.map h.value := List.map_congr_left (fun p hp => (hs p hp).1)
    rw [this]; exact ho.2

theorem Owned.sublist {h : Heap} {ps qs : List Ptr} (ho : Owned h ps) (hs : qs.Sublist ps) :
    Owned h qs :=
  ⟨fun p hp => ho.1 p (hs.subset hp), ho.2.sublist (hs.map _)⟩

theorem Owned.perm {h : Heap} {ps qs : List Ptr} (ho : Owned h ps) (hs : qs.Perm ps) :
    Owned h qs :=
  ⟨fun p hp => ho.1 p (hs.subset hp), (hs.map _).nodup_iff.2 ho.2⟩

theorem payloads_congr {h h' : Heap} {ps : List Ptr}
    (hs : ∀ p ∈ ps, h'.value p = h.value p ∧ h'.bytes (h.value p) = h.bytes (h.value p)) :
    payloads h' ps = payloads h ps := by
  apply List.map_congr_left
  intro p hp
  simp only [payload]
  rw [(hs p hp).1, (hs p hp).2]

/-! ## Strings and machine integers -/

theorem to_int_small {n : Nat} (hn : n < 2 ^ 31) : to_int n = (n : Int) := by
  unfold to_int
  norm_num at hn ⊢
  omega

theorem to_size_small {n : Nat} (hn : n < 2 ^ 64) : to_size (n : Int) = n := by
  unfold to_size SIZE_MOD
  norm_num at hn ⊢
  omega

theorem cstr_length_lt {s : List Nat} (hs : 0 ∈ s) : (cstr s).length < s.length := by
  induction s with
  | nil => simp at hs
  | cons a s ih =>
    by_cases ha : a = 0
    · simp [cstr, List.takeWhile, ha]
    · have : 0 ∈ s := by
        rcases List.mem_cons.1 hs with e | e
        · exact absurd e.symm ha
        · exact e
      have := ih this
      simp only [cstr] at this
      simpa [cstr, List.takeWhile, ha] using this

theorem take_cstr (s : List Nat) : s.take (cstr s).length = cstr s := by
  have : cstr s <+: s := List.takeWhile_prefix _
  exact (List.prefix_iff_eq_take.1 this).symm

theorem cstr_no_null (s : List Nat) : (cstr s).takeWhile (· ≠ 0) = cstr s := by
  unfold cstr
  induction s with
  | nil => simp
  | cons a s ih =>
    by_cases ha : a = 0
    · simp [List.takeWhile, ha]
    · simpa [List.takeWhile, ha] using ih

theorem cstr_append_null (c t : List Nat) (hc : ∀ x ∈ c, x ≠ 0) : cstr (c ++ 0 :: t) = c := by
  unfold cstr
  induction c with
  | nil => simp [List.takeWhile]
  | cons a c ih =>
    have ha : a ≠ 0 := hc a (by simp)
    have := ih (fun x hx => hc x (by simp [hx]))
    simpa [List.takeWhile, ha] using this

theorem cstr_ne_null (s : List Nat) : ∀ x ∈ cstr s, x ≠ 0 := by
  intro x hx
  have := List.mem_takeWhile_imp hx
  simpa using this

theorem take_no_null (s : List Nat) {l : Nat} (hl : l ≤ (cstr s).length) :
    (s.take l).takeWhile (· ≠ 0) = s.take l := by
  have h1 : s.take l = (cstr s).take l := by
    rw [← take_cstr s, List.take_take, Nat.min_eq_left hl]
  rw [h1]
  apply List.takeWhile_eq_self_iff.2
  intro x hx
  have := cstr_ne_null s x (List.mem_of_mem_take hx)
  simpa using this

theorem take_ne_null (s : List Nat) {l : Nat} (hl : l ≤ (cstr s).length) :
    ∀ x ∈ s.take l, x ≠ 0 := by
  intro x hx
  have h1 : s.take l = (cstr s).take l := by
    rw [← take_cstr s, List.take_take, Nat.min_eq_left hl]
  rw [h1] at hx
  exact cstr_ne_null s x (List.mem_of_mem_take hx)

/-- The copy-in of `q_insert_head` and `q_insert_tail` with `l` at most
`strlen(s)`, on a fresh array of `l + 1` bytes: `strncpy` and the write of the
terminator leave exactly the first `l` bytes of the string and one terminator. -/
theorem copy_in (s junk : List Nat) (l : Nat) (hs : 0 ∈ s) (hl : l ≤ (cstr s).length)
    (hj : junk.length = l + 1) :
    (strncpy junk s l >>= fun d => store_byte d (l : Int) 0) = .ok (s.take l ++ [0]) := by
  have hlt := cstr_length_lt hs
  have h1 : ¬ junk.length < l := by omega
  have h2 : (List.takeWhile (fun x => decide (x ≠ 0)) (List.take l s)) = s.take l :=
    take_no_null s hl
  have hlen : (s.take l).length = l := by
    rw [List.length_take]; omega
  have h3 : ¬ (l = s.length ∧ s.length < l) := by omega
  simp only [strncpy, h1, h2, h3, if_false, exec_bind_ok, hlen, Nat.sub_self,
    List.replicate_zero, List.append_nil]
  have hd : (junk.drop l).length = 1 := by simp [hj]
  obtain ⟨z, hz⟩ := List.length_eq_one.1 hd
  rw [hz]
  have h4 : ¬ ((l : Int) < 0 ∨ (((s.take l ++ [z]).length : Nat) : Int) ≤ (l : Int)) := by
    simp only [List.length_append, hlen, List.length_singleton]
    omega
  simp only [store_byte, if_neg h4]
  congr 1
  rw [Int.toNat_ofNat, List.set_append_right _ _ (by omega)]
  simp [hlen]

/-! ## Insertion -/

theorem q_insert_head_eq (h : Heap) (head : Ptr) (s : List Nat) (a1 a2 : Alloc) :
    q_insert_head h head s a1 a2 = insert_with list_add h head s a1 a2 := rfl

theorem q_insert_tail_eq (h : Heap) (head : Ptr) (s : List Nat) (a1 a2 : Alloc) :
    q_insert_tail h head s a1 a2 = insert_with list_add_tail h head s a1 a2 := rfl
/-- Up to the linking, an insertion builds the element described by
`elem_heap`; it holds the first `l` bytes of the string, `l` being the length
of the string converted to `int`. -/
theorem insert_with_ok (link : Heap → Ptr → Ptr → Exec Heap) (h : Heap) (head : Ptr)
    (s : List Nat) (a1 a2 : Alloc) (l : Nat) (hh : head ≠ 0)
    (hs : 0 ∈ s) (hti : to_int (cstr s).length = (l : Int)) (hlen : l < 2 ^ 31 - 1)
    (hle : l ≤ (cstr s).length) (hf : FreshPair h a1 a2) :
    insert_with link h head s a1 a2
      = (link (elem_heap h (s.take l) a1.addr a2.addr) a1.addr head >>= fun h' => .ok (h', true)) := by
  obtain ⟨h1, h2, h3, h4, h5⟩ := hf
  have hn64 : l < 2 ^ 64 := by omega
  have hn64' : l + 1 < 2 ^ 64 := by omega
  have hov : ¬ (INT_MAX < (l : Int) + 1) := by
    unfold INT_MAX; omega
  have hsz1 : to_size ((l : Int) + 1) = l + 1 := by
    have := to_size_small hn64'
    push_cast at this
    exact this
  have hsz : to_size (l : Int) = l := to_size_small hn64
  have h51 : a1.addr ≠ a2.addr := fun e => h5 e.symm
  have hci := copy_in s ((List.range (l + 1)).map a2.init) l hs hle (by simp)
  have hstrlen : strlen s = .ok (cstr s).length := by
    unfold strlen cstr
    rw [if_pos hs]
  unfold insert_with
  rw [if_neg hh]
  simp only [malloc_node, if_neg h1, hstrlen, exec_bind_ok, hti, if_neg hov, hsz1, hsz,
    malloc_chars, if_neg h3, store_value, load_value, load_bytes,
    setBytes_kind, setKind_kind, Function.update_noteq h51, Function.update_same,
    if_true, exec_bind_ok, setValue_value, setValue_kind, setBytes_value, setBytes_bytes,
    setValue_bytes, h3, if_false]
  rw [← bind_assoc, hci, exec_bind_ok]
  have hheap : (((((h.setKind a1.addr (some Kind.element)).setKind a2.addr (some Kind.chars)).setBytes
      a2.addr (List.map a2.init (List.range (l + 1)))).setValue a1.addr
      a2.addr).setBytes a2.addr (s.take l ++ [0])) = elem_heap h (s.take l) a1.addr a2.addr := by
    simp [elem_heap, Heap.setBytes, Heap.setValue, Heap.setKind]
  rw [hheap]
  rfl

theorem WF.not_fresh {h : Heap} {head : Ptr} {ps : List Ptr} (hwf : WF h head ps) {e : Ptr}
    (he : h.kind e = none) : e ≠ head ∧ e ∉ ps ∧ e ∉ ps.map h.value := by
  refine ⟨?_, ?_, ?_⟩
  · rintro rfl
    rw [hwf.1.2.1] at he; cases he
  · intro hm
    rw [hwf.1.2.2.1 e hm] at he; cases he
  · intro hm
    obtain ⟨p, hp, rfl⟩ := List.mem_map.1 hm
    rw [(hwf.2.1 p hp).1] at he; cases he

/-- Building a new element at fresh addresses leaves the queue as it is. -/
theorem elem_heap_WF {h : Heap} {head : Ptr} {ps : List Ptr} (hwf : WF h head ps) (s : List Nat)
    {e v : Ptr} (he0 : e ≠ 0) (he : h.kind e = none) (hv0 : v ≠ 0) (hv : h.kind v = none) :
    WF (elem_heap h s e v) head ps ∧ payloads (elem_heap h s e v) ps = payloads h ps := by
  obtain ⟨e1, e2, e3⟩ := hwf.not_fresh he
  obtain ⟨v1, v2, v3⟩ := hwf.not_fresh hv
  have hne : ∀ p ∈ head :: ps, p ≠ e ∧ p ≠ v := by
    intro p hp
    rcases List.mem_cons.1 hp with rfl | hp
    · exact ⟨fun x => e1 x.symm, fun x => v1 x.symm⟩
    · exact ⟨fun x => e2 (x ▸ hp), fun x => v2 (x ▸ hp)⟩
  have hnv : ∀ p ∈ ps, h.value p ≠ e ∧ h.value p ≠ v := by
    intro p hp
    exact ⟨fun x => e3 (x ▸ List.mem_map_of_mem _ hp), fun x => v3 (x ▸ List.mem_map_of_mem _ hp)⟩
  have h0 : (elem_heap h s e v).kind 0 = none := by
    simp [elem_heap, Function.update_noteq hv0.symm, Function.update_noteq he0.symm, hwf.1.1]
  refine ⟨⟨hwf.1.links_congr h0 ?_, hwf.2.owned_congr ?_⟩, payloads_congr ?_⟩
  · intro p hp
    obtain ⟨n1, n2⟩ := hne p hp
    simp [elem_heap, Function.update_noteq n1, Function.update_noteq n2]
  · intro p hp
    obtain ⟨n1, n2⟩ := hne p (List.mem_cons_of_mem _ hp)
    obtain ⟨m1, m2⟩ := hnv p hp
    simp [elem_heap, Function.update_noteq n1, Function.update_noteq m1,
      Function.update_noteq m2]
  · intro p hp
    obtain ⟨n1, n2⟩ := hne p (List.mem_cons_of_mem _ hp)
    obtain ⟨m1, m2⟩ := hnv p hp
    simp [elem_heap, Function.update_noteq n1, Function.update_noteq m2]

theorem elem_heap_new (h : Heap) (s : List Nat) {e v : Ptr} (hve : v ≠ e) :
    (elem_heap h s e v).kind e = some Kind.element ∧ (elem_heap h s e v).value e = v ∧
    (elem_heap h s e v).kind v = some Kind.chars ∧
    (elem_heap h s e v).bytes v = s ++ [0] := by
  have : e ≠ v := fun x => hve x.symm
  simp [elem_heap, Function.update_noteq this]

/-- A queue with one more element, linked anywhere, whose payload is fresh. -/
theorem Owned.insert {h h' : Heap} {ps qs : List Ptr} {e : Ptr} (ho : Owned h ps)
    (hk : h'.kind = h.kind) (hv : h'.value = h.value) (hb : h'.bytes = h.bytes)
    (hperm : qs.Perm (e :: ps)) (hek : h.kind (h.value e) = some Kind.chars)
    (het : 0 ∈ h.bytes (h.value e)) (hen : h.value e ∉ ps.map h.value) : Owned h' qs := by
  have : Owned h (e :: ps) := by
    refine ⟨?_, ?_⟩
    · intro p hp
      rcases List.mem_cons.1 hp with rfl | hp
      · exact ⟨hek, het⟩
      · exact ho.1 p hp
    · simp only [List.map_cons, List.nodup_cons]
      exact ⟨hen, ho.2⟩
  have h2 := this.perm hperm
  exact h2.owned_congr (fun p _ => by simp [hk, hv, hb])

/-- The function `q_insert_head` when the allocator succeeds and the length of the string
converts to the `int` `l`, at most the length: the new element is the first one and
holds the first `l` bytes of the string. -/
theorem q_insert_head_gen {h : Heap} {head : Ptr} {ps : List Ptr} (hwf : WF h head ps)
    (s : List Nat) (a1 a2 : Alloc) (l : Nat) (hs : 0 ∈ s)
    (hti : to_int (cstr s).length = (l : Int)) (hlen : l < 2 ^ 31 - 1)
    (hle : l ≤ (cstr s).length) (hf : FreshPair h a1 a2) :
    q_insert_head h head s a1 a2
      = .ok (add_heap (elem_heap h (s.take l) a1.addr a2.addr) a1.addr head, true) ∧
    WF (add_heap (elem_heap h (s.take l) a1.addr a2.addr) a1.addr head) head (a1.addr :: ps) ∧
    payloads (add_heap (elem_heap h (s.take l) a1.addr a2.addr) a1.addr head) (a1.addr :: ps)
      = s.take l :: payloads h ps ∧
    (add_heap (elem_heap h (s.take l) a1.addr a2.addr) a1.addr head).value a1.addr = a2.addr ∧
    (add_heap (elem_heap h (s.take l) a1.addr a2.addr) a1.addr head).bytes a2.addr = s.take l ++ [0] := by
  have hh : head ≠ 0 := ne_null_of_node hwf.1.1 (isNode_of_head hwf.1.2.1)
  obtain ⟨f1, f2, f3, f4, f5⟩ := hf
  obtain ⟨hwf4, hpay4⟩ := elem_heap_WF hwf (s.take l) f1 f2 f3 f4
  obtain ⟨n1, n2, n3, n4⟩ := elem_heap_new h (s.take l) f5
  obtain ⟨e1, e2, e3⟩ := hwf.not_fresh f2
  obtain ⟨v1, v2, v3⟩ := hwf.not_fresh f4
  have hval : ∀ p ∈ ps, (elem_heap h (s.take l) a1.addr a2.addr).value p = h.value p := by
    intro p hp
    have : p ≠ a1.addr := fun x => e2 (x ▸ hp)
    simp [elem_heap, Function.update_noteq this]
  have hadd := Links.add (A := []) (B := ps) hwf4.1 n1 e2
  simp only [List.getLast_singleton, List.nil_append] at hadd
  refine ⟨?_, ⟨hadd.2, ?_⟩, ?_, ?_, ?_⟩
  · rw [q_insert_head_eq, insert_with_ok list_add h head s a1 a2 l hh hs hti hlen hle ⟨f1, f2, f3, f4, f5⟩,
      hadd.1]
    rfl
  · apply Owned.insert hwf4.2 rfl rfl rfl (List.Perm.refl _)
    · rw [n2]; exact n3
    · rw [n2, n4]; simp
    · rw [n2]
      intro hm
      obtain ⟨p, hp, hpv⟩ := List.mem_map.1 hm
      rw [hval p hp] at hpv
      exact v3 (hpv ▸ List.mem_map_of_mem _ hp)
  · have hp1 : payload (add_heap (elem_heap h (s.take l) a1.addr a2.addr) a1.addr head) a1.addr
        = s.take l := by
      simp only [payload, add_heap_value, add_heap_bytes, n2, n4]
      exact cstr_append_null _ _ (take_ne_null s hle)
    have hp2 : ps.map (payload (add_heap (elem_heap h (s.take l) a1.addr a2.addr) a1.addr head))
        = payloads h ps := hpay4
    simp only [payloads, List.map_append, List.map_cons, List.map_nil, hp1]
    rw [hp2]
    rfl
  · simp [n2]
  · simp [n4]

/-- The function `q_insert_head` with a string shorter than `INT_MAX` and a successful
allocator: the new element is the first one and holds a copy of the string. -/
theorem q_insert_head_ok {h : Heap} {head : Ptr} {ps : List Ptr} (hwf : WF h head ps)
    (s : List Nat) (a1 a2 : Alloc) (hs : 0 ∈ s) (hlen : (cstr s).length < 2 ^ 31 - 1)
    (hf : FreshPair h a1 a2) :
    q_insert_head h head s a1 a2
      = .ok (add_heap (elem_heap h (cstr s) a1.addr a2.addr) a1.addr head, true) ∧
    WF (add_heap (elem_heap h (cstr s) a1.addr a2.addr) a1.addr head) head (a1.addr :: ps) ∧
    payloads (add_heap (elem_heap h (cstr s) a1.addr a2.addr) a1.addr head) (a1.addr :: ps)
      = cstr s :: payloads h ps ∧
    (add_heap (elem_heap h (cstr s) a1.addr a2.addr) a1.addr head).value a1.addr = a2.addr ∧
    (add_heap (elem_heap h (cstr s) a1.addr a2.addr) a1.addr head).bytes a2.addr = cstr s ++ [0] := by
  have := q_insert_head_gen hwf s a1 a2 (cstr s).length hs (to_int_small (by omega)) hlen
    (Nat.le_refl _) hf
  rw [take_cstr] at this
  exact this

/-- The function `q_insert_tail` when the allocator succeeds and the length of the string
converts to the `int` `l`, at most the length: the new element is the last one and
holds the first `l` bytes of the string. -/
theorem q_insert_tail_gen {h : Heap} {head : Ptr} {ps : List Ptr} (hwf : WF h head ps)
    (s : List Nat) (a1 a2 : Alloc) (l : Nat) (hs : 0 ∈ s)
    (hti : to_int (cstr s).length = (l : Int)) (hlen : l < 2 ^ 31 - 1)
    (hle : l ≤ (cstr s).length) (hf : FreshPair h a1 a2) :
    q_insert_tail h head s a1 a2
      = .ok (add_tail_heap (elem_heap h (s.take l) a1.addr a2.addr) a1.addr head, true) ∧
    WF (add_tail_heap (elem_heap h (s.take l) a1.addr a2.addr) a1.addr head) head (ps ++ [a1.addr]) ∧
    payloads (add_tail_heap (elem_heap h (s.take l) a1.addr a2.addr) a1.addr head) (ps ++ [a1.addr])
      = payloads h ps ++ [s.take l] ∧
    (add_tail_heap (elem_heap h (s.take l) a1.addr a2.addr) a1.addr head).value a1.addr = a2.addr ∧
    (add_tail_heap (elem_heap h (s.take l) a1.addr a2.addr) a1.addr head).bytes a2.addr = s.take l ++ [0] := by
  have hh : head ≠ 0 := ne_null_of_node hwf.1.1 (isNode_of_head hwf.1.2.1)
  obtain ⟨f1, f2, f3, f4, f5⟩ := hf
  obtain ⟨hwf4, hpay4⟩ := elem_heap_WF hwf (s.take l) f1 f2 f3 f4
  obtain ⟨n1, n2, n3, n4⟩ := elem_heap_new h (s.take l) f5
  obtain ⟨e1, e2, e3⟩ := hwf.not_fresh f2
  obtain ⟨v1, v2, v3⟩ := hwf.not_fresh f4
  have hval : ∀ p ∈ ps, (elem_heap h (s.take l) a1.addr a2.addr).value p = h.value p := by
    intro p hp
    have : p ≠ a1.addr := fun x => e2 (x ▸ hp)
    simp [elem_heap, Function.update_noteq this]
  have hadd := Links.add_tail hwf4.1 n1 e2
  refine ⟨?_, ⟨hadd.2, ?_⟩, ?_, ?_, ?_⟩
  · rw [q_insert_tail_eq, insert_with_ok list_add_tail h head s a1 a2 l hh hs hti hlen hle ⟨f1, f2, f3, f4, f5⟩,
      hadd.1]
    rfl
  · apply Owned.insert hwf4.2 rfl rfl rfl (List.perm_append_singleton _ _)
    · rw [n2]; exact n3
    · rw [n2, n4]; simp
    · rw [n2]
      intro hm
      obtain ⟨p, hp, hpv⟩ := List.mem_map.1 hm
      rw [hval p hp] at hpv
      exact v3 (hpv ▸ List.mem_map_of_mem _ hp)
  · have hp1 : payload (add_tail_heap (elem_heap h (s.take l) a1.addr a2.addr) a1.addr head) a1.addr
        = s.take l := by
      simp only [payload, add_tail_heap_value, add_tail_heap_bytes, n2, n4]
      exact cstr_append_null _ _ (take_ne_null s hle)
    have hp2 : ps.map (payload (add_tail_heap (elem_heap h (s.take l) a1.addr a2.addr) a1.addr head))
        = payloads h ps := hpay4
    simp only [payloads, List.map_append, List.map_cons, List.map_nil, hp1]
    rw [hp2]
    rfl
  · simp [n2]
  · simp [n4]

/-- The function `q_insert_tail` with a string shorter than `INT_MAX` and a successful
allocator: the new element is the last one and holds a copy of the string. -/
theorem q_insert_tail_ok {h : Heap} {head : Ptr} {ps : List Ptr} (hwf : WF h head ps)
    (s : List Nat) (a1 a2 : Alloc) (hs : 0 ∈ s) (hlen : (cstr s).length < 2 ^ 31 - 1)
    (hf : FreshPair h a1 a2) :
    q_insert_tail h head s a1 a2
      = .ok (add_tail_heap (elem_heap h (cstr s) a1.addr a2.addr) a1.addr head, true) ∧
    WF (add_tail_heap (elem_heap h (cstr s) a1.addr a2.addr) a1.addr head) head (ps ++ [a1.addr]) ∧
    payloads (add_tail_heap (elem_heap h (cstr s) a1.addr a2.addr) a1.addr head) (ps ++ [a1.addr])
      = payloads h ps ++ [cstr s] ∧
    (add_tail_heap (elem_heap h (cstr s) a1.addr a2.addr) a1.addr head).value a1.addr = a2.addr ∧
    (add_tail_heap (elem_heap h (cstr s) a1.addr a2.addr) a1.addr head).bytes a2.addr = cstr s ++ [0] := by
  have := q_insert_tail_gen hwf s a1 a2 (cstr s).length hs (to_int_small (by omega)) hlen
    (Nat.le_refl _) hf
  rw [take_cstr] at this
  exact this

theorem cstr_letters (n : Nat) : cstr (List.replicate n 97 ++ [0]) = List.replicate n 97 :=
  cstr_append_null _ _ (fun x hx => by rw [List.eq_of_mem_replicate hx]; decide)

theorem to_int_wraps : to_int (2 ^ 32 + 1) = ((1 : Nat) : Int) := by
  unfold to_int
  norm_num

/-- C2, the code at the failing input: on the empty queue `q_insert_head` with
a string of `2^32 + 1` letters succeeds and stores a string of one letter. -/
theorem q_insert_head_truncates :
    ∃ h', q_insert_head heap_empty_queue 1 long_string (alloc_at 2) (alloc_at 3) = .ok (h', true) ∧
      WF h' 1 [2] ∧ payloads h' [2] = [[97]] ∧ (cstr long_string).length = 2 ^ 32 + 1 := by
  have hc : cstr long_string = List.replicate (2 ^ 32 + 1) 97 := cstr_letters _
  have hlen : (cstr long_string).length = 2 ^ 32 + 1 := by rw [hc, List.length_replicate]
  have hs : (0 : Nat) ∈ long_string := List.mem_append_right _ (List.mem_singleton.2 rfl)
  have hti : to_int (cstr long_string).length = ((1 : Nat) : Int) := by rw [hlen]; exact to_int_wraps
  have htake : long_string.take 1 = [97] := by
    unfold long_string
    rw [List.replicate_succ]
    rfl
  obtain ⟨h1, h2, h3, -⟩ := @q_insert_head_gen heap_empty_queue 1 []
    (by decide) long_string (alloc_at 2) (alloc_at 3) 1 hs hti (by norm_num) (by rw [hlen]; omega)
    (by decide)
  refine ⟨_, h1, h2, ?_, hlen⟩
  rw [htake] at h3
  exact h3

/-! ## Removal -/

theorem takeWhile_take_cstr (src : List Nat) (n : Nat) :
    (src.take n).takeWhile (· ≠ 0) = (cstr src).take n := by
  induction src generalizing n with
  | nil => simp [cstr]
  | cons a src ih =>
    cases n with
    | zero => simp
    | succ n =>
      by_cases ha : a = 0
      · simp [cstr, List.takeWhile, ha]
      · have := ih n
        simp only [cstr] at this ⊢
        simpa [List.takeWhile, ha] using this

theorem size_sub_one {b : Nat} (h1 : 1 ≤ b) (h2 : b < 2 ^ 64) : size_sub b 1 = b - 1 := by
  unfold size_sub SIZE_MOD
  norm_num at h2 ⊢
  omega

/-- The copy-out with a positive capacity within the array: no fault, and the
array afterwards is `buf_after`. -/
theorem copy_out_ok {h : Heap} {x : Ptr} (h0 : h.kind 0 = none)
    (hx : h.kind x = some Kind.element) (hv : h.kind (h.value x) = some Kind.chars)
    (ht : 0 ∈ h.bytes (h.value x)) (buf : List Nat) (b : Nat) (hb : BufOK (some buf) b) :
    copy_out h x (some buf) b = .ok (some (buf_after (payload h x) buf b)) := by
  obtain ⟨b1, b2, b3⟩ := hb
  have hx0 : x ≠ 0 := by
    rintro rfl; rw [h0] at hx; cases hx
  have hv0 : h.value x ≠ 0 := by
    intro e; rw [e, h0] at hv; cases hv
  have hlt := cstr_length_lt ht
  have hc := takeWhile_take_cstr (h.bytes (h.value x)) (b - 1)
  have hcl : ((cstr (h.bytes (h.value x))).take (b - 1)).length ≤ (cstr (h.bytes (h.value x))).length := by
    rw [List.length_take]; omega
  have hcl2 : ((cstr (h.bytes (h.value x))).take (b - 1)).length ≤ b - 1 := by
    rw [List.length_take]; omega
  have f1 : ¬ buf.length < b - 1 := by omega
  have f2 : ¬ (((cstr (h.bytes (h.value x))).take (b - 1)).length = (h.bytes (h.value x)).length ∧
      (h.bytes (h.value x)).length < b - 1) := by omega
  simp only [copy_out, load_value, if_neg hx0, hx, if_true, exec_bind_ok, load_bytes, if_neg hv0,
    hv, size_sub_one b1 b3, strncpy, hc, if_neg f1, if_neg f2, exec_pure]
  set c := (cstr (h.bytes (h.value x))).take (b - 1) with hcdef
  obtain ⟨z, hsplit⟩ : ∃ z, buf.drop (b - 1) = z :: buf.drop b := by
    have hlen : b - 1 < buf.length := by omega
    refine ⟨buf[b - 1], ?_⟩
    rw [List.drop_eq_getElem_cons hlen]
    have : b - 1 + 1 = b := by omega
    rw [this]
  have hlen1 : (c ++ List.replicate (b - 1 - c.length) 0).length = b - 1 := by
    simp only [List.length_append, List.length_replicate]; omega
  have f3 : ¬ ((((b - 1 : Nat) : Int)) < 0 ∨
      (((c ++ List.replicate (b - 1 - c.length) 0 ++ buf.drop (b - 1)).length : Nat) : Int)
        ≤ ((b - 1 : Nat) : Int)) := by
    rw [List.length_append, hlen1, List.length_drop]
    omega
  simp only [store_byte, if_neg f3]
  rw [Int.toNat_ofNat, List.set_append_right _ _ (by omega), hlen1, Nat.sub_self, hsplit,
    List.set_cons_zero]
  simp only [buf_after, payload, ← hcdef]
  have hrep : List.replicate (b - c.length) 0 = List.replicate (b - 1 - c.length) 0 ++ [0] := by
    have : b - c.length = (b - 1 - c.length) + 1 := by omega
    rw [this, List.replicate_succ']
  rw [hrep]
  simp

theorem list_empty_ok {h : Heap} {head : Ptr} {ps : List Ptr} (hl : Links h head ps) :
    list_empty h head = .ok (h.next head == head) := by
  simp only [list_empty, load_next_ok hl.1 (isNode_of_head hl.2.1), exec_bind_ok, exec_pure]

theorem Links.next_head {h : Heap} {head x : Ptr} {rest : List Ptr}
    (hl : Links h head (x :: rest)) : h.next head = x := hl.2.2.2.2.1

theorem Links.prev_head {h : Heap} {head y : Ptr} {init : List Ptr}
    (hl : Links h head (init ++ [y])) : h.prev head = y := by
  rw [chain_prev_last hl.2.2.2.2]
  simp [List.getLast_cons]

theorem Links.next_head_mem {h : Heap} {head : Ptr} {ps : List Ptr} (hl : Links h head ps)
    (hne : ps ≠ []) : h.next head ∈ ps := by
  cases ps with
  | nil => exact absurd rfl hne
  | cons x rest => rw [hl.next_head]; simp

theorem Links.ne_head {h : Heap} {head : Ptr} {ps : List Ptr} (hl : Links h head ps) {x : Ptr}
    (hx : x ∈ ps) : x ≠ head := by
  rintro rfl
  exact hl.head_not_mem hx

/-- Unlinking an element of a well-formed queue leaves a well-formed queue of
the other elements, each with the payload it had. -/
theorem WF.unlink {h : Heap} {head x : Ptr} {A B : List Ptr} (hwf : WF h head (A ++ x :: B)) :
    list_del h x = .ok (del_heap h x) ∧ WF (del_heap h x) head (A ++ B) ∧
    payloads (del_heap h x) (A ++ B) = payloads h (A ++ B) := by
  obtain ⟨h1, h2⟩ := hwf.1.del
  refine ⟨h1, ⟨h2, ?_⟩, rfl⟩
  have : Owned h (A ++ B) := hwf.2.sublist (by simp)
  exact this.owned_congr (fun p _ => ⟨rfl, rfl, rfl⟩)

/-- The copy-out of a removal whose buffer arguments are in order. -/
theorem copy_out_removed {h : Heap} {x : Ptr} (h0 : h.kind 0 = none)
    (hx : h.kind x = some Kind.element) (hv : h.kind (h.value x) = some Kind.chars)
    (ht : 0 ∈ h.bytes (h.value x)) (sp : Option (List Nat)) (b : Nat) (hb : BufOK sp b) :
    copy_out h x sp b = .ok (sp.map (fun buf => buf_after (payload h x) buf b)) := by
  cases sp with
  | none => rfl
  | some buf => exact copy_out_ok h0 hx hv ht buf b hb

/-- The function `q_remove_head` on a non-empty queue, the buffer arguments being in
order. -/
theorem q_remove_head_ok {h : Heap} {head x : Ptr} {rest : List Ptr}
    (hwf : WF h head (x :: rest)) (sp : Option (List Nat)) (b : Nat) (hb : BufOK sp b) :
    q_remove_head h head sp b
      = .ok (del_heap h x, x, sp.map (fun buf => buf_after (payload h x) buf b)) ∧
    WF (del_heap h x) head rest := by
  have hh : head ≠ 0 := ne_null_of_node hwf.1.1 (isNode_of_head hwf.1.2.1)
  have hnx := hwf.1.next_head
  have hxh : x ≠ head := hwf.1.ne_head (by simp)
  obtain ⟨d1, d2, -⟩ := WF.unlink (A := []) (B := rest) hwf
  have hcopy := copy_out_removed (h := del_heap h x) (x := x) hwf.1.1
    (hwf.1.2.2.1 x (by simp)) (hwf.2.1 x (by simp)).1 (hwf.2.1 x (by simp)).2 sp b hb
  refine ⟨?_, d2⟩
  unfold q_remove_head
  simp only [if_neg hh, list_empty_ok hwf.1, hnx, exec_bind_ok, beq_iff_eq, hxh, if_false,
    load_next_ok hwf.1.1 (isNode_of_head hwf.1.2.1), d1, hcopy, exec_pure]
  rfl

/-- The function `q_remove_tail` on a non-empty queue, the buffer arguments being in
order. -/
theorem q_remove_tail_ok {h : Heap} {head y : Ptr} {init : List Ptr}
    (hwf : WF h head (init ++ [y])) (sp : Option (List Nat)) (b : Nat) (hb : BufOK sp b) :
    q_remove_tail h head sp b
      = .ok (del_heap h y, y, sp.map (fun buf => buf_after (payload h y) buf b)) ∧
    WF (del_heap h y) head init := by
  have hh : head ≠ 0 := ne_null_of_node hwf.1.1 (isNode_of_head hwf.1.2.1)
  have hpv := hwf.1.prev_head
  have hnx : h.next head ≠ head := hwf.1.ne_head (hwf.1.next_head_mem (by simp))
  obtain ⟨d1, d2, -⟩ := WF.unlink (A := init) (B := []) hwf
  rw [List.append_nil] at d2
  have hcopy := copy_out_removed (h := del_heap h y) (x := y) hwf.1.1
    (hwf.1.2.2.1 y (by simp)) (hwf.2.1 y (by simp)).1 (hwf.2.1 y (by simp)).2 sp b hb
  refine ⟨?_, d2⟩
  unfold q_remove_tail
  simp only [if_neg hh, list_empty_ok hwf.1, exec_bind_ok, beq_iff_eq, hnx, if_false,
    load_prev_ok hwf.1.1 (isNode_of_head hwf.1.2.1), hpv, d1, hcopy, exec_pure]
  rfl

/-! ## Walking along the links -/

/-- Along a chain, `next` leads from the `j`-th node to the one after it, and
from the last one to the end of the chain. -/
theorem chain_next_at {h : Heap} {a b : Ptr} {ps : List Ptr} (hc : chain h a ps b) :
    ∀ j, j < ps.length → h.next (ps.getD j b) = ps.getD (j + 1) b := by
  induction ps generalizing a with
  | nil => intro j hj; simp at hj
  | cons p ps ih =>
    intro j hj
    simp only [chain] at hc
    cases j with
    | zero =>
      rw [List.getD_cons_zero, List.getD_cons_succ, chain_next_first hc.2.2]
      cases ps <;> rfl
    | succ j =>
      rw [List.getD_cons_succ, List.getD_cons_succ]
      exact ih hc.2.2 j (by simpa using hj)

theorem getD_mem_of_lt {ps : List Ptr} {j : Nat} (b : Ptr) (hj : j < ps.length) :
    ps.getD j b ∈ ps := by
  rw [List.getD_eq_getElem _ _ hj]
  exact List.getElem_mem _

theorem getD_of_le {ps : List Ptr} {j : Nat} (b : Ptr) (hj : ps.length ≤ j) :
    ps.getD j b = b := List.getD_eq_default _ _ hj

theorem Links.getD_eq_head {h : Heap} {head : Ptr} {ps : List Ptr} (hl : Links h head ps)
    (j : Nat) : ps.getD j head = head ↔ ps.length ≤ j := by
  constructor
  · intro e
    by_contra hlt
    have := getD_mem_of_lt head (not_le.1 hlt)
    rw [e] at this
    exact hl.head_not_mem this
  · exact getD_of_le head

theorem Links.next_at {h : Heap} {head : Ptr} {ps : List Ptr} (hl : Links h head ps) (j : Nat)
    (hj : j < ps.length) :
    load_next h (ps.getD j head) = .ok (ps.getD (j + 1) head) := by
  rw [load_next_ok hl.1 (hl.isNode _ (List.mem_cons_of_mem _ (getD_mem_of_lt head hj))),
    chain_next_at hl.2.2.2.2 j hj]

/-! ## `q_delete_mid` -/

/-- The loop of `q_delete_mid` started with `slow` on the element of index `k`
and `fast` on the node of index `2 * k + 1`: it stops with `slow` on the
element of index `(n - 1) / 2`, and needs `(n - 1) / 2 - k + 1` units of
fuel. -/
theorem q_delete_mid_loop_spec {h : Heap} {head : Ptr} {ps : List Ptr} (hl : Links h head ps) :
    ∀ d k, (ps.length - 1) / 2 - k = d → 2 * k + 1 ≤ ps.length → ∀ fuel,
      q_delete_mid_loop fuel h head (ps.getD (2 * k + 1) head) (ps.getD k head)
        = if d < fuel then .ok (ps.getD ((ps.length - 1) / 2) head) else .error .outOfFuel := by
  intro d
  induction d with
  | zero =>
    intro k hd hk fuel
    cases fuel with
    | zero => rfl
    | succ fuel =>
      have hk2 : (ps.length - 1) / 2 = k := by omega
      rw [hk2]
      simp only [Nat.zero_lt_succ, if_true]
      unfold q_delete_mid_loop
      by_cases h1 : ps.length ≤ 2 * k + 1
      · rw [if_pos ((hl.getD_eq_head _).2 h1)]
      · rw [if_neg (fun e => h1 ((hl.getD_eq_head _).1 e))]
        have h2 : ps.length ≤ 2 * k + 1 + 1 := by omega
        simp only [hl.next_at _ (not_le.1 h1), exec_bind_ok, (hl.getD_eq_head _).2 h2, if_true]
  | succ d ih =>
    intro k hd hk fuel
    cases fuel with
    | zero => rfl
    | succ fuel =>
      have h1 : 2 * k + 1 < ps.length := by omega
      have h2 : 2 * k + 1 + 1 < ps.length := by omega
      have h3 : k < ps.length := by omega
      have e1 : ¬ ps.getD (2 * k + 1) head = head := fun e => by
        have := (hl.getD_eq_head _).1 e; omega
      have e2 : ¬ ps.getD (2 * k + 1 + 1) head = head := fun e => by
        have := (hl.getD_eq_head _).1 e; omega
      unfold q_delete_mid_loop
      simp only [if_neg e1, hl.next_at _ h1, exec_bind_ok, if_neg e2, hl.next_at _ h2,
        hl.next_at _ h3]
      have := ih (k + 1) (by omega) (by omega) fuel
      have e3 : 2 * (k + 1) + 1 = 2 * k + 1 + 1 + 1 := by ring
      rw [e3] at this
      rw [this]
      simp only [Nat.succ_lt_succ_iff]

theorem free_ok {h : Heap} {p : Ptr} {k : Kind} (h0 : h.kind 0 = none) (hk : h.kind p = some k) :
    free h p = .ok (h.setKind p none) := by
  have hp : p ≠ 0 := by
    rintro rfl; rw [h0] at hk; cases hk
  simp [free, hp, hk]

theorem load_value_ok {h : Heap} {p : Ptr} (h0 : h.kind 0 = none)
    (hk : h.kind p = some Kind.element) : load_value h p = .ok (h.value p) := by
  have hp : p ≠ 0 := by
    rintro rfl; rw [h0] at hk; cases hk
  simp [load_value, hp, hk]

/-- Releasing an unlinked element of a well-formed queue succeeds and leaves
the queue of the other elements well-formed, each with the payload it had. -/
theorem WF.release {h : Heap} {head x : Ptr} {A B : List Ptr} (hwf : WF h head (A ++ x :: B)) :
    q_release_element (del_heap h x) x = .ok (release_heap (del_heap h x) x) ∧
    WF (release_heap (del_heap h x) x) head (A ++ B) ∧
    payloads (release_heap (del_heap h x) x) (A ++ B) = payloads h (A ++ B) := by
  obtain ⟨-, hwf', hpay⟩ := hwf.unlink
  have hxm : x ∈ A ++ x :: B := by simp
  have hxk : h.kind x = some Kind.element := hwf.1.2.2.1 x hxm
  have hvk : h.kind (h.value x) = some Kind.chars := (hwf.2.1 x hxm).1
  have hvx : x ≠ h.value x := by
    intro e; rw [← e, hxk] at hvk; cases hvk
  have hnd : (A ++ x :: B).Nodup := hwf.1.2.2.2.1
  have hndv : ((A ++ x :: B).map h.value).Nodup := hwf.2.2
  have hsub : ∀ p, p ∈ A ++ B → p ∈ A ++ x :: B := by
    intro p hp
    simp only [List.mem_append, List.mem_cons] at hp ⊢
    tauto
  have hpx : ∀ p ∈ A ++ B, p ≠ x := by
    intro p hp e
    subst e
    have := List.nodup_middle.1 hnd
    exact (List.nodup_cons.1 this).1 hp
  have hpv : ∀ p ∈ A ++ B, h.value p ≠ h.value x := by
    intro p hp e
    rw [List.map_append, List.map_cons] at hndv
    have := List.nodup_middle.1 hndv
    have h2 := (List.nodup_cons.1 this).1
    apply h2
    rw [← e, ← List.map_append]
    exact List.mem_map_of_mem _ hp
  refine ⟨?_, ⟨?_, ?_⟩, ?_⟩
  · unfold q_release_element
    rw [load_value_ok (h := del_heap h x) hwf.1.1 hxk]
    simp only [exec_bind_ok, del_heap_value]
    rw [free_ok (h := del_heap h x) hwf.1.1 hvk]
    simp only [exec_bind_ok]
    rw [free_ok (k := Kind.element)]
    · rfl
    · have : (0 : Ptr) ≠ h.value x := by
        intro e; rw [← e, hwf.1.1] at hvk; cases hvk
      simp only [setKind_kind, del_heap_kind, del_heap_value, Function.update_noteq this]
      exact hwf.1.1
    · simp only [setKind_kind, del_heap_kind, del_heap_value, Function.update_noteq hvx]
      exact hxk
  · apply hwf'.1.links_congr
    · have e1 : (0 : Ptr) ≠ h.value x := by
        intro e; rw [← e, hwf.1.1] at hvk; cases hvk
      have e2 : (0 : Ptr) ≠ x := by
        intro e; rw [← e, hwf.1.1] at hxk; cases hxk
      simp only [release_heap, setKind_kind, del_heap_kind, del_heap_value,
        Function.update_noteq e1, Function.update_noteq e2]
      exact hwf.1.1
    · intro p hp
      have e1 : p ≠ x := by
        rcases List.mem_cons.1 hp with rfl | hp
        · exact fun e => hwf.1.head_not_mem (e ▸ hxm)
        · exact hpx p hp
      have e2 : p ≠ h.value x := by
        intro e
        have hk : h.isNode p = true := hwf.1.isNode p (by
          rcases List.mem_cons.1 hp with rfl | hp
          · simp
          · exact List.mem_cons_of_mem _ (hsub p hp))
        rw [e] at hk
        simp [Heap.isNode, hvk] at hk
      simp only [release_heap, setKind_kind, del_heap_kind, del_heap_value,
        Function.update_noteq e1, Function.update_noteq e2, setKind_next, setKind_prev,
        and_self]
  · apply hwf'.2.owned_congr
    intro p hp
    have e1 : h.value p ≠ x := by
      intro e
      have := (hwf.2.1 p (hsub p hp)).1
      rw [e, hxk] at this; cases this
    have e2 := hpv p hp
    simp only [release_heap, setKind_kind, del_heap_kind, del_heap_value, setKind_value,
      setKind_bytes, del_heap_bytes, Function.update_noteq e1, Function.update_noteq e2,
      and_self]
  · rw [← hpay]
    exact payloads_congr (fun p _ => ⟨rfl, rfl⟩)

theorem release_heap_kind (h : Heap) (x : Ptr) :
    (release_heap h x).kind x = none ∧ (release_heap h x).kind (h.value x) = none := by
  constructor
  · simp [release_heap]
  · by_cases e : h.value x = x
    · simp [release_heap, e]
    · simp [release_heap, Function.update_noteq e]

theorem split_at {ps : List Ptr} {m : Nat} (b : Ptr) (hm : m < ps.length) :
    ps = ps.take m ++ ps.getD m b :: ps.drop (m + 1) := by
  rw [List.getD_eq_getElem _ _ hm, ← List.drop_eq_getElem_cons hm, List.take_append_drop]

theorem eraseIdx_split (ps : List Ptr) (m : Nat) :
    ps.eraseIdx m = ps.take m ++ ps.drop (m + 1) := List.eraseIdx_eq_take_drop_succ ps m

/-- The function `q_delete_mid` on a non-empty well-formed queue of `n` elements: with more
than `(n - 1) / 2` units of fuel it returns `true`, having unlinked and
released the element of index `(n - 1) / 2`; with less it runs out of fuel. -/
theorem q_delete_mid_spec {h : Heap} {head : Ptr} {ps : List Ptr} (hwf : WF h head ps)
    (hne : ps ≠ []) :
    ∃ h', WF h' head (ps.eraseIdx ((ps.length - 1) / 2)) ∧
      payloads h' (ps.eraseIdx ((ps.length - 1) / 2))
        = (payloads h ps).eraseIdx ((ps.length - 1) / 2) ∧
      h'.kind (ps.getD ((ps.length - 1) / 2) head) = none ∧
      h'.kind (h.value (ps.getD ((ps.length - 1) / 2) head)) = none ∧
      ∀ fuel, q_delete_mid fuel h head
        = if (ps.length - 1) / 2 < fuel then .ok (h', true) else .error .outOfFuel := by
  have hpos : 0 < ps.length := List.length_pos.2 hne
  have hm : (ps.length - 1) / 2 < ps.length := by omega
  set m := (ps.length - 1) / 2 with hmdef
  set x := ps.getD m head with hxdef
  have hsplit := split_at head hm
  rw [← hxdef] at hsplit
  have hwf2 : WF h head (ps.take m ++ x :: ps.drop (m + 1)) := by rw [← hsplit]; exact hwf
  obtain ⟨d1, -, -⟩ := hwf2.unlink
  obtain ⟨r1, r2, r3⟩ := hwf2.release
  have hh : head ≠ 0 := ne_null_of_node hwf.1.1 (isNode_of_head hwf.1.2.1)
  have hnx : h.next head ≠ head := hwf.1.ne_head (hwf.1.next_head_mem hne)
  refine ⟨release_heap (del_heap h x) x, ?_, ?_, ?_, ?_, ?_⟩
  · rw [eraseIdx_split]; exact r2
  · rw [eraseIdx_split, r3]
    simp only [payloads, List.eraseIdx_eq_take_drop_succ, List.map_append, List.map_take,
      List.map_drop]
  · exact (release_heap_kind _ _).1
  · exact (release_heap_kind (del_heap h x) x).2
  · intro fuel
    have h0 := hwf.1.next_at 0 hpos
    have hfirst : h.next head = ps.getD 0 head := by
      cases ps with
      | nil => exact absurd rfl hne
      | cons a t => exact hwf.1.next_head
    have hfast : load_next h (ps.getD 0 head) = .ok (ps.getD (2 * 0 + 1) head) := h0
    rw [hfirst] at hnx
    unfold q_delete_mid
    simp only [if_neg hh, list_empty_ok hwf.1, exec_bind_ok, beq_iff_eq, hnx, if_false,
      load_next_ok hwf.1.1 (isNode_of_head hwf.1.2.1), hfirst, hfast]
    rw [q_delete_mid_loop_spec hwf.1 m 0 (by omega) (by omega) fuel]
    by_cases hf : m < fuel
    · simp only [if_pos hf, exec_bind_ok, ← hxdef, d1, r1, exec_pure]
    · simp only [if_neg hf, exec_bind_error]

/-! ## `list_move` -/

theorem chain_next_last {h : Heap} {a b : Ptr} {A B : List Ptr} (hc : chain h a (A ++ B) b) :
    h.next ((a :: A).getLast (by simp)) = (B ++ [b]).head (by simp) := by
  rcases List.eq_nil_or_concat A with e | ⟨L, z, e⟩
  · subst e
    simp only [List.getLast_singleton]
    exact chain_next_first hc
  · have e' : A = L ++ [z] := by simpa using e
    subst e'
    have e2 : (a :: (L ++ [z])).getLast (by simp) = z := by simp
    rw [e2]
    have hc2 : chain h a (L ++ z :: B) b := by
      have : L ++ [z] ++ B = L ++ z :: B := by simp
      rw [← this]; exact hc
    exact chain_next_mid hc2

theorem head_concat_getD (B : List Ptr) (b : Ptr) : (B ++ [b]).head (by simp) = B.getD 0 b := by
  cases B <;> rfl

/-- The call `list_move(x, p)` in a well-formed queue: `x` is taken out of its place
and put right after `p`; nothing but links changes. -/
theorem WF.move {h : Heap} {head x : Ptr} {L1 L2 A B : List Ptr}
    (hwf : WF h head (L1 ++ x :: L2)) (hAB : L1 ++ L2 = A ++ B) :
    ∃ h', list_move h x ((head :: A).getLast (by simp)) = .ok h' ∧ WF h' head (A ++ x :: B) ∧
      h'.kind = h.kind ∧ h'.value = h.value ∧ h'.bytes = h.bytes := by
  obtain ⟨d1, d2, -⟩ := hwf.unlink
  rw [hAB] at d2
  have hxk : (del_heap h x).kind x = some Kind.element := hwf.1.2.2.1 x (by simp)
  have hxn : x ∉ A ++ B := by
    rw [← hAB]
    have := List.nodup_middle.1 hwf.1.2.2.2.1
    exact (List.nodup_cons.1 this).1
  obtain ⟨a1, a2⟩ := d2.1.add hxk hxn
  refine ⟨_, ?_, ⟨a2, ?_⟩, rfl, rfl, rfl⟩
  · unfold list_move
    rw [d1, exec_bind_ok, a1]
  · have hperm : (A ++ x :: B).Perm (L1 ++ x :: L2) := by
      refine List.perm_middle.trans (List.Perm.trans ?_ List.perm_middle.symm)
      rw [hAB]
    have := hwf.2.perm hperm
    exact this.owned_congr (fun p _ => ⟨rfl, rfl, rfl⟩)

/-! ## `q_swap` -/

/-- The loop of `q_swap` started on the first node of `rest`, the elements
`D` before it being done: the pairs of `rest` are exchanged, nothing but links
changes, and `rest.length / 2 + 1` units of fuel are needed. -/
theorem q_swap_loop_spec {head : Ptr} : ∀ (rest D : List Ptr) (h : Heap), WF h head (D ++ rest) →
    ∃ h', WF h' head (D ++ swap_pairs rest) ∧
      h'.kind = h.kind ∧ h'.value = h.value ∧ h'.bytes = h.bytes ∧
      ∀ fuel, q_swap_loop fuel h head (rest.getD 0 head)
        = if rest.length / 2 < fuel then .ok h' else .error .outOfFuel
  | [], D, h, hwf => by
    refine ⟨h, hwf, rfl, rfl, rfl, ?_⟩
    intro fuel
    cases fuel with
    | zero => rfl
    | succ fuel =>
      unfold q_swap_loop
      simp
  | [x], D, h, hwf => by
    refine ⟨h, hwf, rfl, rfl, rfl, ?_⟩
    intro fuel
    cases fuel with
    | zero => rfl
    | succ fuel =>
      have hx : x ≠ head := hwf.1.ne_head (by simp)
      have hn : h.next x = head := by
        rw [chain_next_mid hwf.1.2.2.2.2]; rfl
      unfold q_swap_loop
      simp only [List.getD_cons_zero, if_neg hx,
        load_next_ok hwf.1.1 (hwf.1.isNode x (by simp)), hn, exec_bind_ok, if_true]
      simp
  | x :: y :: rest, D, h, hwf => by
    have hx : x ≠ head := hwf.1.ne_head (by simp)
    have hy : y ≠ head := hwf.1.ne_head (by simp)
    have hn : h.next x = y := by
      rw [chain_next_mid hwf.1.2.2.2.2]; rfl
    obtain ⟨h2, m1, m2, k1, k2, k3⟩ := WF.move (A := D ++ [y]) (B := rest) hwf (by simp)
    have hl : (head :: (D ++ [y])).getLast (by simp) = y := by simp
    rw [hl] at m1
    have m2' : WF h2 head ((D ++ [y, x]) ++ rest) := by
      have : D ++ [y, x] ++ rest = D ++ [y] ++ x :: rest := by simp
      rw [this]; exact m2
    have hn2 : h2.next x = rest.getD 0 head := by
      rw [chain_next_mid m2.1.2.2.2.2, head_concat_getD]
    obtain ⟨h', w1, j1, j2, j3, hfuel⟩ := q_swap_loop_spec rest (D ++ [y, x]) h2 m2'
    refine ⟨h', ?_, j1.trans k1, j2.trans k2, j3.trans k3, ?_⟩
    · have : D ++ swap_pairs (x :: y :: rest) = D ++ [y, x] ++ swap_pairs rest := by
        simp [swap_pairs]
      rw [this]; exact w1
    · intro fuel
      cases fuel with
      | zero => rfl
      | succ fuel =>
        unfold q_swap_loop
        simp only [List.getD_cons_zero, if_neg hx,
          load_next_ok hwf.1.1 (hwf.1.isNode x (by simp)), hn, exec_bind_ok, if_neg hy, m1,
          load_next_ok m2.1.1 (m2.1.isNode x (by simp)), hn2, hfuel]
        have : (x :: y :: rest).length / 2 = rest.length / 2 + 1 := by
          simp only [List.length_cons]; omega
        rw [this]
        simp only [Nat.succ_lt_succ_iff]

theorem Links.next_head_getD {h : Heap} {head : Ptr} {ps : List Ptr} (hl : Links h head ps) :
    h.next head = ps.getD 0 head := by
  rw [chain_next_first hl.2.2.2.2, head_concat_getD]

/-- The function `q_swap` on a well-formed queue: the pairs are exchanged and nothing but
links changes; a non-empty queue of `n` elements needs `n / 2 + 1` units of
fuel. -/
theorem q_swap_spec {h : Heap} {head : Ptr} {ps : List Ptr} (hwf : WF h head ps) :
    ∃ h', WF h' head (swap_pairs ps) ∧
      h'.kind = h.kind ∧ h'.value = h.value ∧ h'.bytes = h.bytes ∧
      ∀ fuel, q_swap fuel h head
        = if ps = [] ∨ ps.length / 2 < fuel then .ok h' else .error .outOfFuel := by
  have hh : head ≠ 0 := ne_null_of_node hwf.1.1 (isNode_of_head hwf.1.2.1)
  obtain ⟨h', w1, k1, k2, k3, hfuel⟩ := q_swap_loop_spec ps [] h hwf
  by_cases hne : ps = []
  · subst hne
    refine ⟨h, hwf, rfl, rfl, rfl, ?_⟩
    intro fuel
    have : h.next head = head := hwf.1.2.2.2.2.1
    unfold q_swap
    simp only [if_neg hh, list_empty_ok hwf.1, this, exec_bind_ok, beq_self_eq_true, if_true,
      true_or]
  · refine ⟨h', w1, k1, k2, k3, ?_⟩
    intro fuel
    have hnx : h.next head ≠ head := hwf.1.ne_head (hwf.1.next_head_mem hne)
    rw [hwf.1.next_head_getD] at hnx
    unfold q_swap
    simp only [if_neg hh, list_empty_ok hwf.1, exec_bind_ok, beq_iff_eq, hnx, if_false,
      load_next_ok hwf.1.1 (isNode_of_head hwf.1.2.1), hwf.1.next_head_getD, hfuel, hne,
      false_or]

/-! ## `q_reverse` -/

/-- The loop of `q_reverse` with `i` on the last of the nodes `head, D`, the
elements `D` being done and `rest` being left: `rest` is reversed, nothing but
links changes, and `rest.length` units of fuel are needed. -/
theorem q_reverse_loop_spec {head : Ptr} : ∀ (n : Nat) (rest D : List Ptr) (h : Heap),
    rest.length = n + 1 → WF h head (D ++ rest) →
    ∃ h', WF h' head (D ++ rest.reverse) ∧
      h'.kind = h.kind ∧ h'.value = h.value ∧ h'.bytes = h.bytes ∧
      ∀ fuel, q_reverse_loop fuel h head ((head :: D).getLast (by simp))
        = if n < fuel then .ok h' else .error .outOfFuel := by
  intro n
  induction n with
  | zero =>
    intro rest D h hlen hwf
    obtain ⟨t, rfl⟩ := List.length_eq_one.1 hlen
    refine ⟨h, hwf, rfl, rfl, rfl, ?_⟩
    intro fuel
    cases fuel with
    | zero => rfl
    | succ fuel =>
      have hi : (head :: D).getLast (by simp) ∈ head :: (D ++ [t]) := by
        have hm := List.getLast_mem (l := head :: D) (by simp)
        simp only [List.mem_cons, List.mem_append] at hm ⊢
        tauto
      have hn : h.next ((head :: D).getLast (by simp)) = t := by
        rw [chain_next_last hwf.1.2.2.2.2]; rfl
      unfold q_reverse_loop
      simp only [load_next_ok hwf.1.1 (hwf.1.isNode _ hi), hn, exec_bind_ok,
        load_prev_ok hwf.1.1 (isNode_of_head hwf.1.2.1), hwf.1.prev_head, if_true]
      simp
  | succ n ih =>
    intro rest D h hlen hwf
    rcases List.eq_nil_or_concat rest with e | ⟨R, t, e⟩
    · subst e; simp at hlen
    · have e' : rest = R ++ [t] := by simpa using e
      subst e'
      have hRlen : R.length = n + 1 := by simpa using hlen
      obtain ⟨r, R', hR⟩ := List.exists_cons_of_ne_nil (List.ne_nil_of_length_eq_add_one hRlen)
      have hwf1 : WF h head ((D ++ R) ++ t :: []) := by
        have : D ++ R ++ [t] = D ++ (R ++ [t]) := by simp
        rw [this]; exact hwf
      have hi : (head :: D).getLast (by simp) ∈ head :: (D ++ (R ++ [t])) := by
        have hm := List.getLast_mem (l := head :: D) (by simp)
        simp only [List.mem_cons, List.mem_append] at hm ⊢
        tauto
      have hn : h.next ((head :: D).getLast (by simp)) = r := by
        rw [chain_next_last hwf.1.2.2.2.2]; subst hR; rfl
      have hpv : h.prev head = t := hwf1.1.prev_head
      have hrt : r ≠ t := by
        have hnd := hwf.1.2.2.2.1
        subst hR
        intro e
        subst e
        simp only [List.cons_append, List.nodup_append, List.nodup_cons, List.mem_append,
          List.mem_singleton] at hnd
        tauto
      obtain ⟨h2, m1, m2, k1, k2, k3⟩ := WF.move (A := D) (B := R) hwf1 (by simp)
      have m2' : WF h2 head ((D ++ [t]) ++ R) := by
        have : D ++ [t] ++ R = D ++ t :: R := by simp
        rw [this]; exact m2
      have hn2 : h2.next ((head :: D).getLast (by simp)) = t := by
        rw [chain_next_last m2.1.2.2.2.2]; rfl
      have hi2 : (head :: D).getLast (by simp) ∈ head :: (D ++ t :: R) := by
        have hm := List.getLast_mem (l := head :: D) (by simp)
        simp only [List.mem_cons, List.mem_append] at hm ⊢
        tauto
      obtain ⟨h', w1, j1, j2, j3, hfuel⟩ := ih R (D ++ [t]) h2 hRlen m2'
      have hl : (head :: (D ++ [t])).getLast (by simp) = t := by simp
      rw [hl] at hfuel
      refine ⟨h', ?_, j1.trans k1, j2.trans k2, j3.trans k3, ?_⟩
      · have : D ++ (R ++ [t]).reverse = D ++ [t] ++ R.reverse := by simp
        rw [this]; exact w1
      · intro fuel
        cases fuel with
        | zero => rfl
        | succ fuel =>
          unfold q_reverse_loop
          simp only [load_next_ok hwf.1.1 (hwf.1.isNode _ hi), hn, exec_bind_ok,
            load_prev_ok hwf.1.1 (isNode_of_head hwf.1.2.1), hpv, if_neg hrt, m1,
            load_next_ok m2.1.1 (m2.1.isNode _ hi2), hn2, hfuel]
          simp only [Nat.succ_lt_succ_iff]

/-- The function `q_reverse` on a well-formed queue: the order of the elements is reversed
and nothing but links changes; a non-empty queue of `n` elements needs `n`
units of fuel. -/
theorem q_reverse_spec {h : Heap} {head : Ptr} {ps : List Ptr} (hwf : WF h head ps) :
    ∃ h', WF h' head ps.reverse ∧
      h'.kind = h.kind ∧ h'.value = h.value ∧ h'.bytes = h.bytes ∧
      ∀ fuel, q_reverse fuel h head
        = if ps = [] ∨ ps.length - 1 < fuel then .ok h' else .error .outOfFuel := by
  have hh : head ≠ 0 := ne_null_of_node hwf.1.1 (isNode_of_head hwf.1.2.1)
  by_cases hne : ps = []
  · subst hne
    refine ⟨h, hwf, rfl, rfl, rfl, ?_⟩
    intro fuel
    have : h.next head = head := hwf.1.2.2.2.2.1
    unfold q_reverse
    simp only [if_neg hh, list_empty_ok hwf.1, this, exec_bind_ok, beq_self_eq_true, if_true,
      true_or]
  · have hpos : 0 < ps.length := List.length_pos.2 hne
    obtain ⟨h', w1, k1, k2, k3, hfuel⟩ :=
      q_reverse_loop_spec (ps.length - 1) ps [] h (by omega) hwf
    refine ⟨h', w1, k1, k2, k3, ?_⟩
    intro fuel
    have hnx : h.next head ≠ head := hwf.1.ne_head (hwf.1.next_head_mem hne)
    simp only [List.getLast_singleton] at hfuel
    unfold q_reverse
    simp only [if_neg hh, list_empty_ok hwf.1, exec_bind_ok, beq_iff_eq, hnx, if_false, hfuel,
      hne, false_or]

/-! ## `q_delete_dup` -/

/-- The function `q_delete_dup` on a non-empty well-formed queue: the first comparison is
`strcmp(NULL, ...)`. -/
theorem q_delete_dup_faults {h : Heap} {head : Ptr} {ps : List Ptr} (hwf : WF h head ps)
    (hne : ps ≠ []) (fuel : Nat) :
    q_delete_dup fuel h head
      = if fuel = 0 then .error .outOfFuel else .error .nullDeref := by
  have hh : head ≠ 0 := ne_null_of_node hwf.1.1 (isNode_of_head hwf.1.2.1)
  have hm := hwf.1.next_head_mem hne
  have hnx : h.next head ≠ head := hwf.1.ne_head hm
  have hk := hwf.1.2.2.1 _ hm
  unfold q_delete_dup
  simp only [if_neg hh, list_empty_ok hwf.1, exec_bind_ok, beq_iff_eq, hnx, if_false,
    load_next_ok hwf.1.1 (isNode_of_head hwf.1.2.1), load_next_ok hwf.1.1 (isNode_of_elem hk)]
  cases fuel with
  | zero => rfl
  | succ fuel =>
    unfold q_delete_dup_loop
    simp only [if_neg hnx, load_value_ok hwf.1.1 hk, exec_bind_ok, strcmp, load_bytes, if_true,
      exec_bind_error]
    rfl

theorem q_delete_dup_empty {h : Heap} {head : Ptr} (hwf : WF h head []) (fuel : Nat) :
    q_delete_dup fuel h head = .ok (h, false) := by
  have hh : head ≠ 0 := ne_null_of_node hwf.1.1 (isNode_of_head hwf.1.2.1)
  have : h.next head = head := hwf.1.2.2.2.2.1
  unfold q_delete_dup
  simp only [if_neg hh, list_empty_ok hwf.1, this, exec_bind_ok, beq_self_eq_true, if_true]

/-! ## Every call that returns preserves well-formedness -/

theorem to_int_bounds (n : Nat) :
    to_int n < 2 ^ 31 ∧ (0 ≤ to_int n → to_int n ≤ (n : Int)) := by
  unfold to_int
  norm_num
  omega

/-- Allocating an element and freeing it again leaves the queue as it is. -/
theorem fail_heap_WF {h : Heap} {head : Ptr} {ps : List Ptr} (hwf : WF h head ps) {e : Ptr}
    (he0 : e ≠ 0) (he : h.kind e = none) : WF (fail_heap h e) head ps := by
  obtain ⟨e1, e2, e3⟩ := hwf.not_fresh he
  have h0 : (fail_heap h e).kind 0 = none := by
    simp [fail_heap, Function.update_noteq he0.symm, hwf.1.1]
  refine ⟨hwf.1.links_congr h0 ?_, hwf.2.owned_congr ?_⟩
  · intro p hp
    have : p ≠ e := by
      rcases List.mem_cons.1 hp with rfl | hp
      · exact fun x => e1 x.symm
      · exact fun x => e2 (x ▸ hp)
    simp [fail_heap, Function.update_noteq this]
  · intro p hp
    have n1 : p ≠ e := fun x => e2 (x ▸ hp)
    have n2 : h.value p ≠ e := fun x => e3 (x ▸ List.mem_map_of_mem _ hp)
    simp [fail_heap, Function.update_noteq n1, Function.update_noteq n2]

/-- The ways an insertion can go, the allocator answering as it can: the
first allocation fails; a fault; the second allocation fails; or both succeed
and the length of the string converts to an `int` `l ≥ 0`. -/
theorem insert_with_cases (link : Heap → Ptr → Ptr → Exec Heap) {h : Heap} {head : Ptr}
    {ps : List Ptr} (hwf : WF h head ps) (s : List Nat) (a1 a2 : Alloc)
    (hal : AllocOK h a1 a2) :
    insert_with link h head s a1 a2 = .ok (h, false) ∨
    (∃ e, insert_with link h head s a1 a2 = .error e) ∨
    (a1.addr ≠ 0 ∧ h.kind a1.addr = none ∧
      insert_with link h head s a1 a2 = .ok (fail_heap h a1.addr, false)) ∨
    (∃ l : Nat, 0 ∈ s ∧ to_int (cstr s).length = (l : Int) ∧ l < 2 ^ 31 - 1 ∧
      l ≤ (cstr s).length ∧ FreshPair h a1 a2) := by
  have hh : head ≠ 0 := ne_null_of_node hwf.1.1 (isNode_of_head hwf.1.2.1)
  by_cases h1 : a1.addr = 0
  · left
    unfold insert_with
    simp only [if_neg hh, malloc_node, if_pos h1, if_true]
  have f2 : h.kind a1.addr = none := hal.1.resolve_left h1
  by_cases hs : 0 ∈ s
  swap
  · right; left
    refine ⟨Fault.outOfBounds, ?_⟩
    unfold insert_with
    simp only [if_neg hh, malloc_node, if_neg h1, strlen, if_neg hs, exec_bind_error]
  have hstrlen : strlen s = .ok (cstr s).length := by
    unfold strlen cstr
    rw [if_pos hs]
  obtain ⟨b1, b2⟩ := to_int_bounds (cstr s).length
  by_cases hov : INT_MAX < to_int (cstr s).length + 1
  · right; left
    refine ⟨Fault.intOverflow, ?_⟩
    unfold insert_with
    simp only [if_neg hh, malloc_node, if_neg h1, hstrlen, exec_bind_ok, if_pos hov]
  by_cases h3 : a2.addr = 0
  · right; right; left
    refine ⟨h1, f2, ?_⟩
    unfold insert_with
    simp only [if_neg hh, malloc_node, if_neg h1, hstrlen, exec_bind_ok, if_neg hov,
      malloc_chars, if_pos h3, store_value, setKind_kind, Function.update_same, if_true,
      load_value, setValue_kind, setValue_value, free, Function.update_same, exec_pure]
    simp [fail_heap]
  obtain ⟨f4, f5⟩ := hal.2.resolve_left h3
  have h51 : a1.addr ≠ a2.addr := fun e => f5 e.symm
  by_cases hneg : to_int (cstr s).length < 0
  · right; left
    unfold insert_with
    simp only [if_neg hh, malloc_node, if_neg h1, hstrlen, exec_bind_ok, if_neg hov,
      malloc_chars, if_neg h3, store_value, load_value, load_bytes,
      setBytes_kind, setKind_kind, Function.update_noteq h51, Function.update_same,
      if_true, setValue_value, setValue_kind, setBytes_value, setBytes_bytes,
      setValue_bytes, if_false]
    cases hres : strncpy (List.map a2.init (List.range (to_size (to_int (cstr s).length + 1)))) s
        (to_size (to_int (cstr s).length)) with
    | error e => exact ⟨e, by simp only [exec_bind_error]⟩
    | ok d =>
      refine ⟨Fault.outOfBounds, ?_⟩
      simp only [exec_bind_ok, store_byte, hneg, true_or, if_true, exec_bind_error]
  · right; right; right
    have hnn : 0 ≤ to_int (cstr s).length := not_lt.1 hneg
    refine ⟨(to_int (cstr s).length).toNat, hs, (Int.toNat_of_nonneg hnn).symm, ?_, ?_,
      ⟨h1, f2, h3, f4, f5⟩⟩
    · unfold INT_MAX at hov
      omega
    · have := b2 hnn
      omega

/-- An insertion that returns leaves a well-formed queue. -/
theorem insert_with_preserves (link : Heap → Ptr → Ptr → Exec Heap) (hp' : List Ptr → Ptr → List Ptr)
    (hlink : ∀ (h : Heap) (head : Ptr) (ps : List Ptr) (c : List Nat) (a1 a2 : Alloc),
      WF h head ps → FreshPair h a1 a2 → ∃ h', link (elem_heap h c a1.addr a2.addr) a1.addr head
        = .ok h' ∧ WF h' head (hp' ps a1.addr))
    {h : Heap} {head : Ptr} {ps : List Ptr} (hwf : WF h head ps) (s : List Nat) (a1 a2 : Alloc)
    (hal : AllocOK h a1 a2) {r : Heap × Bool} (hr : insert_with link h head s a1 a2 = .ok r) :
    ∃ ps', WF r.1 head ps' := by
  rcases insert_with_cases link hwf s a1 a2 hal with c | ⟨e, c⟩ | ⟨c1, c2, c3⟩ | ⟨l, c1, c2, c3, c4, c5⟩
  · rw [c] at hr
    cases hr
    exact ⟨ps, hwf⟩
  · rw [c] at hr
    cases hr
  · rw [c3] at hr
    cases hr
    exact ⟨ps, fail_heap_WF hwf c1 c2⟩
  · have hh : head ≠ 0 := ne_null_of_node hwf.1.1 (isNode_of_head hwf.1.2.1)
    obtain ⟨h', l1, l2⟩ := hlink h head ps (s.take l) a1 a2 hwf c5
    rw [insert_with_ok link h head s a1 a2 l hh c1 c2 c3 c4 c5, l1, exec_bind_ok] at hr
    cases hr
    exact ⟨_, l2⟩

theorem link_head_WF (h : Heap) (head : Ptr) (ps : List Ptr) (c : List Nat) (a1 a2 : Alloc)
    (hwf : WF h head ps) (hf : FreshPair h a1 a2) :
    ∃ h', list_add (elem_heap h c a1.addr a2.addr) a1.addr head = .ok h' ∧
      WF h' head (a1.addr :: ps) := by
  obtain ⟨f1, f2, f3, f4, f5⟩ := hf
  obtain ⟨hwf4, -⟩ := elem_heap_WF hwf c f1 f2 f3 f4
  obtain ⟨n1, n2, n3, n4⟩ := elem_heap_new h c f5
  obtain ⟨e1, e2, e3⟩ := hwf.not_fresh f2
  obtain ⟨v1, v2, v3⟩ := hwf.not_fresh f4
  have hval : ∀ p ∈ ps, (elem_heap h c a1.addr a2.addr).value p = h.value p := by
    intro p hp
    have : p ≠ a1.addr := fun x => e2 (x ▸ hp)
    simp [elem_heap, Function.update_noteq this]
  have hadd := Links.add (A := []) (B := ps) hwf4.1 n1 e2
  simp only [List.getLast_singleton, List.nil_append] at hadd
  refine ⟨_, hadd.1, hadd.2, ?_⟩
  apply Owned.insert hwf4.2 rfl rfl rfl (List.Perm.refl _)
  · rw [n2]; exact n3
  · rw [n2, n4]; simp
  · rw [n2]
    intro hm
    obtain ⟨p, hp, hpv⟩ := List.mem_map.1 hm
    rw [hval p hp] at hpv
    exact v3 (hpv ▸ List.mem_map_of_mem _ hp)

theorem link_tail_WF (h : Heap) (head : Ptr) (ps : List Ptr) (c : List Nat) (a1 a2 : Alloc)
    (hwf : WF h head ps) (hf : FreshPair h a1 a2) :
    ∃ h', list_add_tail (elem_heap h c a1.addr a2.addr) a1.addr head = .ok h' ∧
      WF h' head (ps ++ [a1.addr]) := by
  obtain ⟨f1, f2, f3, f4, f5⟩ := hf
  obtain ⟨hwf4, -⟩ := elem_heap_WF hwf c f1 f2 f3 f4
  obtain ⟨n1, n2, n3, n4⟩ := elem_heap_new h c f5
  obtain ⟨e1, e2, e3⟩ := hwf.not_fresh f2
  obtain ⟨v1, v2, v3⟩ := hwf.not_fresh f4
  have hval : ∀ p ∈ ps, (elem_heap h c a1.addr a2.addr).value p = h.value p := by
    intro p hp
    have : p ≠ a1.addr := fun x => e2 (x ▸ hp)
    simp [elem_heap, Function.update_noteq this]
  have hadd := Links.add_tail hwf4.1 n1 e2
  refine ⟨_, hadd.1, hadd.2, ?_⟩
  apply Owned.insert hwf4.2 rfl rfl rfl (List.perm_append_singleton _ _)
  · rw [n2]; exact n3
  · rw [n2, n4]; simp
  · rw [n2]
    intro hm
    obtain ⟨p, hp, hpv⟩ := List.mem_map.1 hm
    rw [hval p hp] at hpv
    exact v3 (hpv ▸ List.mem_map_of_mem _ hp)

/-- A removal at the head that returns leaves a well-formed queue. -/
theorem q_remove_head_preserves {h : Heap} {head : Ptr} {ps : List Ptr} (hwf : WF h head ps)
    (sp : Option (List Nat)) (b : Nat) {r : Heap × Ptr × Option (List Nat)}
    (hr : q_remove_head h head sp b = .ok r) : ∃ ps', WF r.1 head ps' := by
  have hh : head ≠ 0 := ne_null_of_node hwf.1.1 (isNode_of_head hwf.1.2.1)
  cases ps with
  | nil =>
    have : h.next head = head := hwf.1.2.2.2.2.1
    unfold q_remove_head at hr
    simp only [if_neg hh, list_empty_ok hwf.1, this, exec_bind_ok, beq_self_eq_true,
      if_true] at hr
    cases hr
    exact ⟨[], hwf⟩
  | cons x rest =>
    have hnx := hwf.1.next_head
    have hxh : x ≠ head := hwf.1.ne_head (by simp)
    obtain ⟨d1, d2, -⟩ := WF.unlink (A := []) (B := rest) hwf
    unfold q_remove_head at hr
    simp only [if_neg hh, list_empty_ok hwf.1, hnx, exec_bind_ok, beq_iff_eq, hxh, if_false,
      load_next_ok hwf.1.1 (isNode_of_head hwf.1.2.1), d1] at hr
    cases hc : copy_out (del_heap h x) x sp b with
    | error e => rw [hc] at hr; cases hr
    | ok sp' =>
      rw [hc] at hr
      cases hr
      exact ⟨rest, d2⟩

/-- A removal at the tail that returns leaves a well-formed queue. -/
theorem q_remove_tail_preserves {h : Heap} {head : Ptr} {ps : List Ptr} (hwf : WF h head ps)
    (sp : Option (List Nat)) (b : Nat) {r : Heap × Ptr × Option (List Nat)}
    (hr : q_remove_tail h head sp b = .ok r) : ∃ ps', WF r.1 head ps' := by
  have hh : head ≠ 0 := ne_null_of_node hwf.1.1 (isNode_of_head hwf.1.2.1)
  rcases List.eq_nil_or_concat ps with e | ⟨init, y, e⟩
  · subst e
    have : h.next head = head := hwf.1.2.2.2.2.1
    unfold q_remove_tail at hr
    simp only [if_neg hh, list_empty_ok hwf.1, this, exec_bind_ok, beq_self_eq_true,
      if_true] at hr
    cases hr
    exact ⟨[], hwf⟩
  · have e' : ps = init ++ [y] := by simpa using e
    subst e'
    have hpv := hwf.1.prev_head
    have hnx : h.next head ≠ head := hwf.1.ne_head (hwf.1.next_head_mem (by simp))
    obtain ⟨d1, d2, -⟩ := WF.unlink (A := init) (B := []) hwf
    rw [List.append_nil] at d2
    unfold q_remove_tail at hr
    simp only [if_neg hh, list_empty_ok hwf.1, exec_bind_ok, beq_iff_eq, hnx, if_false,
      load_prev_ok hwf.1.1 (isNode_of_head hwf.1.2.1), hpv, d1] at hr
    cases hc : copy_out (del_heap h y) y sp b with
    | error e => rw [hc] at hr; cases hr
    | ok sp' =>
      rw [hc] at hr
      cases hr
      exact ⟨init, d2⟩

theorem q_delete_mid_empty {h : Heap} {head : Ptr} (hwf : WF h head []) (fuel : Nat) :
    q_delete_mid fuel h head = .ok (h, false) := by
  have hh : head ≠ 0 := ne_null_of_node hwf.1.1 (isNode_of_head hwf.1.2.1)
  have : h.next head = head := hwf.1.2.2.2.2.1
  unfold q_delete_mid
  simp only [if_neg hh, list_empty_ok hwf.1, this, exec_bind_ok, beq_self_eq_true, if_true]

/-- Every call that returns leaves a well-formed queue. -/
theorem Op.preserves {h h' : Heap} {head : Ptr} {ps : List Ptr} (hwf : WF h head ps) (op : Op)
    (henv : op.envOK h) (hr : op.run h head = .ok h') : ∃ ps', WF h' head ps' := by
  cases op with
  | insert_head s a1 a2 =>
    simp only [Op.run] at hr
    cases hq : q_insert_head h head s a1 a2 with
    | error e => rw [hq] at hr; cases hr
    | ok r =>
      rw [hq] at hr
      cases hr
      rw [q_insert_head_eq] at hq
      exact insert_with_preserves list_add (fun ps a => a :: ps) link_head_WF hwf s a1 a2 henv hq
  | insert_tail s a1 a2 =>
    simp only [Op.run] at hr
    cases hq : q_insert_tail h head s a1 a2 with
    | error e => rw [hq] at hr; cases hr
    | ok r =>
      rw [hq] at hr
      cases hr
      rw [q_insert_tail_eq] at hq
      exact insert_with_preserves list_add_tail (fun ps a => ps ++ [a]) link_tail_WF hwf s a1 a2
        henv hq
  | remove_head sp b =>
    simp only [Op.run] at hr
    cases hq : q_remove_head h head sp b with
    | error e => rw [hq] at hr; cases hr
    | ok r =>
      rw [hq] at hr
      cases hr
      exact q_remove_head_preserves hwf sp b hq
  | remove_tail sp b =>
    simp only [Op.run] at hr
    cases hq : q_remove_tail h head sp b with
    | error e => rw [hq] at hr; cases hr
    | ok r =>
      rw [hq] at hr
      cases hr
      exact q_remove_tail_preserves hwf sp b hq
  | delete_mid fuel =>
    simp only [Op.run] at hr
    by_cases hne : ps = []
    · subst hne
      rw [q_delete_mid_empty hwf] at hr
      cases hr
      exact ⟨[], hwf⟩
    · obtain ⟨h2, w, -, -, -, hf⟩ := q_delete_mid_spec hwf hne
      rw [hf] at hr
      by_cases hc : (ps.length - 1) / 2 < fuel
      · rw [if_pos hc] at hr
        cases hr
        exact ⟨_, w⟩
      · rw [if_neg hc] at hr
        cases hr
  | delete_dup fuel =>
    simp only [Op.run] at hr
    by_cases hne : ps = []
    · subst hne
      rw [q_delete_dup_empty hwf] at hr
      cases hr
      exact ⟨[], hwf⟩
    · rw [q_delete_dup_faults hwf hne] at hr
      by_cases hc : fuel = 0
      · rw [if_pos hc] at hr; cases hr
      · rw [if_neg hc] at hr; cases hr
  | swap fuel =>
    simp only [Op.run] at hr
    obtain ⟨h2, w, -, -, -, hf⟩ := q_swap_spec hwf
    rw [hf] at hr
    by_cases hc : ps = [] ∨ ps.length / 2 < fuel
    · rw [if_pos hc] at hr
      cases hr
      exact ⟨_, w⟩
    · rw [if_neg hc] at hr
      cases hr
  | reverse fuel =>
    simp only [Op.run] at hr
    obtain ⟨h2, w, -, -, -, hf⟩ := q_reverse_spec hwf
    rw [hf] at hr
    by_cases hc : ps = [] ∨ ps.length - 1 < fuel
    · rw [if_pos hc] at hr
      cases hr
      exact ⟨_, w⟩
    · rw [if_neg hc] at hr
      cases hr
  | sort =>
    simp only [Op.run, q_sort] at hr
    cases hr
    exact ⟨ps, hwf⟩

/-- The queue that `q_new` returns is well-formed and empty. -/
theorem q_new_WF {h0 h : Heap} {a : Alloc} {q : Ptr} (h00 : h0.kind 0 = none) (hq : q ≠ 0)
    (hr : q_new h0 a = .ok (h, q)) : WF h q [] := by
  unfold q_new at hr
  by_cases ha : a.addr = 0
  · simp only [malloc_node, if_pos ha, if_true] at hr
    cases hr
    exact absurd rfl hq
  · have hnode : ((h0.setKind a.addr (some Kind.listHead)).isNode a.addr) = true := by
      simp [Heap.isNode]
    have hnode2 : (((h0.setKind a.addr (some Kind.listHead)).setNext a.addr a.addr).isNode a.addr)
        = true := by
      simp [Heap.isNode]
    simp only [malloc_node, if_neg ha, INIT_LIST_HEAD, store_next, store_prev, hnode, hnode2,
      if_true, exec_bind_ok, exec_pure] at hr
    cases hr
    refine ⟨⟨?_, ?_, ?_, List.nodup_nil, ?_⟩, ?_, ?_⟩
    · simp [Function.update_noteq (Ne.symm ha), h00]
    · simp
    · intro p hp; cases hp
    · simp [chain]
    · intro p hp; cases hp
    · simp

/-- Every reachable state holds a well-formed queue. -/
theorem Reach.wf {h : Heap} {q : Ptr} (hr : Reach h q) : ∃ ps, WF h q ps := by
  induction hr with
  | new h00 _ hq hnew => exact ⟨[], q_new_WF h00 hq hnew⟩
  | step op _ henv hrun ih =>
    obtain ⟨ps, hwf⟩ := ih
    exact Op.preserves hwf op henv hrun

/-! ## C1: the circular doubly-linked invariant -/

theorem chain_prev_next {h : Heap} {a b : Ptr} {ps : List Ptr} (hc : chain h a ps b) :
    ∀ x ∈ a :: ps, h.prev (h.next x) = x := by
  induction ps generalizing a with
  | nil =>
    intro x hx
    simp only [List.mem_singleton] at hx
    simp only [chain] at hc
    rw [hx, hc.1, hc.2]
  | cons p ps ih =>
    intro x hx
    simp only [chain] at hc
    rcases List.mem_cons.1 hx with rfl | hx
    · rw [hc.1, hc.2.1]
    · exact ih hc.2.2 x hx

theorem chain_next_prev {h : Heap} {a b : Ptr} {ps : List Ptr} (hc : chain h a ps b) :
    ∀ x ∈ ps ++ [b], h.next (h.prev x) = x := by
  induction ps generalizing a with
  | nil =>
    intro x hx
    simp only [List.nil_append, List.mem_singleton] at hx
    simp only [chain] at hc
    rw [hx, hc.2, hc.1]
  | cons p ps ih =>
    intro x hx
    simp only [chain] at hc
    rcases List.mem_cons.1 hx with rfl | hx
    · rw [hc.2.1, hc.1]
    · exact ih hc.2.2 x hx

/-- Following `next` from the sentinel of a well-linked queue, step `i + 1`
is on the element of index `i`, and the step after the last element is on the
sentinel again. -/
theorem Links.iterate_next {h : Heap} {head : Ptr} {ps : List Ptr} (hl : Links h head ps) :
    ∀ i, i ≤ ps.length → (h.next)^[i + 1] head = ps.getD i head := by
  intro i
  induction i with
  | zero =>
    intro _
    simp only [Function.iterate_succ, Function.iterate_zero, Function.comp_apply, id_eq]
    exact hl.next_head_getD
  | succ i ih =>
    intro hi
    rw [Function.iterate_succ_apply', ih (by omega)]
    exact chain_next_at hl.2.2.2.2 i (by omega)

/-- C1: starting from the queue returned by `q_new`, after any sequence of
calls of `q_insert_head`, `q_insert_tail`, `q_remove_head`, `q_remove_tail`,
`q_delete_mid`, `q_delete_dup`, `q_swap`, `q_reverse` and `q_sort` that have
returned, the queue is circular and doubly linked: there is a list `ps` of
pairwise different elements, none the sentinel, such that following `next`
from the sentinel visits exactly `ps` in order and comes back to the sentinel,
and every node `N` of the circle has `N.next.prev = N` and `N.prev.next = N`. -/
theorem circular_invariant_preserved (h : Heap) (q : Ptr) (hr : Reach h q) :
    ∃ ps : List Ptr, (q :: ps).Nodup ∧
      (∀ i (hi : i < ps.length), (h.next)^[i + 1] q = ps[i]) ∧
      (h.next)^[ps.length + 1] q = q ∧
      (∀ N ∈ q :: ps, h.prev (h.next N) = N ∧ h.next (h.prev N) = N) := by
  obtain ⟨ps, hwf⟩ := hr.wf
  refine ⟨ps, hwf.1.nodup_cons, ?_, ?_, ?_⟩
  · intro i hi
    rw [hwf.1.iterate_next i (by omega), List.getD_eq_getElem _ _ hi]
  · rw [hwf.1.iterate_next _ (Nat.le_refl _), getD_of_le _ (Nat.le_refl _)]
  · intro N hN
    refine ⟨chain_prev_next hwf.1.2.2.2.2 N hN, chain_next_prev hwf.1.2.2.2.2 N ?_⟩
    simp only [List.mem_cons, List.mem_append, List.mem_singleton] at hN ⊢
    tauto

theorem reach_heap_one : Reach heap_one 1 := by
  have h1 : Reach heap_new 1 :=
    @Reach.new heap_none heap_new (alloc_at 1) 1 rfl rfl (by decide) rfl
  have hins := (@q_insert_tail_ok heap_new 1 [] (by decide) [97, 0] (alloc_at 2) (alloc_at 3)
    (by decide) (by decide) (by decide)).1
  refine Reach.step (Op.insert_tail [97, 0] (alloc_at 2) (alloc_at 3)) h1 (by decide) ?_
  simp only [Op.run, hins]
  rfl

/-- C1 at the queue made by `q_new` and one `q_insert_tail`. -/
theorem circular_invariant_preserved_witness :
    ∃ ps : List Ptr, (1 :: ps).Nodup ∧
      (∀ i (hi : i < ps.length), (heap_one.next)^[i + 1] 1 = ps[i]) ∧
      (heap_one.next)^[ps.length + 1] 1 = 1 ∧
      (∀ N ∈ 1 :: ps, heap_one.prev (heap_one.next N) = N ∧
        heap_one.next (heap_one.prev N) = N) :=
  circular_invariant_preserved heap_one 1 reach_heap_one

/-! ## C3 and C4: removal and its copy-out -/

/-- C3, as amended: for every non-empty well-formed queue, the buffer arguments being in
order (`sp` is `NULL`, or `bufsize` is positive and within the array):
`q_remove_head` returns the first element and leaves exactly the other
elements, in order and with their payloads; `q_remove_tail` returns the last
element and leaves exactly the elements before it.  The returned element is
still allocated, and so is its array, with the bytes it had. -/
theorem remove_returns_end_element (h : Heap) (head : Ptr) (ps : List Ptr)
    (sp : Option (List Nat)) (b : Nat) (hwf : WF h head ps) (hne : ps ≠ []) (hb : BufOK sp b) :
    (∃ h' sp', q_remove_head h head sp b = .ok (h', ps.head hne, sp') ∧
      WF h' head ps.tail ∧ payloads h' ps.tail = (payloads h ps).tail ∧
      h'.kind (ps.head hne) = some Kind.element ∧
      h'.value (ps.head hne) = h.value (ps.head hne) ∧
      h'.kind (h.value (ps.head hne)) = some Kind.chars ∧
      h'.bytes (h.value (ps.head hne)) = h.bytes (h.value (ps.head hne))) ∧
    (∃ h' sp', q_remove_tail h head sp b = .ok (h', ps.getLast hne, sp') ∧
      WF h' head ps.dropLast ∧ payloads h' ps.dropLast = (payloads h ps).dropLast ∧
      h'.kind (ps.getLast hne) = some Kind.element ∧
      h'.value (ps.getLast hne) = h.value (ps.getLast hne) ∧
      h'.kind (h.value (ps.getLast hne)) = some Kind.chars ∧
      h'.bytes (h.value (ps.getLast hne)) = h.bytes (h.value (ps.getLast hne))) := by
  constructor
  · cases ps with
    | nil => exact absurd rfl hne
    | cons x rest =>
      obtain ⟨r1, r2⟩ := q_remove_head_ok hwf sp b hb
      refine ⟨_, _, r1, r2, rfl, ?_, rfl, ?_, rfl⟩
      · exact hwf.1.2.2.1 x (by simp)
      · exact (hwf.2.1 x (by simp)).1
  · rcases List.eq_nil_or_concat ps with e | ⟨init, y, e⟩
    · exact absurd e hne
    · have e' : ps = init ++ [y] := by simpa using e
      subst e'
      obtain ⟨r1, r2⟩ := q_remove_tail_ok hwf sp b hb
      have hl : (init ++ [y]).getLast hne = y := by simp
      have hd : (init ++ [y]).dropLast = init := by simp
      rw [hl, hd]
      refine ⟨_, _, r1, r2, ?_, ?_, rfl, ?_, rfl⟩
      · simp [payloads, payload]
      · exact hwf.1.2.2.1 y (by simp)
      · exact (hwf.2.1 y (by simp)).1

/-- C3 at the queue `a, b, c` with a buffer of four bytes and capacity 3. -/
theorem remove_returns_end_element_witness :
    (∃ h' sp', q_remove_head (heap_of [[97], [98], [99]]) 1 (some [7, 7, 7, 7]) 3
        = .ok (h', 2, sp') ∧
      WF h' 1 [4, 6] ∧ payloads h' [4, 6] = [[98], [99]] ∧
      h'.kind 2 = some Kind.element ∧ h'.value 2 = 3 ∧ h'.kind 3 = some Kind.chars ∧
      h'.bytes 3 = [97, 0]) ∧
    (∃ h' sp', q_remove_tail (heap_of [[97], [98], [99]]) 1 (some [7, 7, 7, 7]) 3
        = .ok (h', 6, sp') ∧
      WF h' 1 [2, 4] ∧ payloads h' [2, 4] = [[97], [98]] ∧
      h'.kind 6 = some Kind.element ∧ h'.value 6 = 7 ∧ h'.kind 7 = some Kind.chars ∧
      h'.bytes 7 = [99, 0]) := by
  have hw : WF (heap_of [[97], [98], [99]]) 1 [2, 4, 6] := by decide
  exact remove_returns_end_element (heap_of [[97], [98], [99]]) 1 [2, 4, 6] (some [7, 7, 7, 7]) 3
    hw (by decide) (by decide)

theorem buf_after_facts (p buf : List Nat) (b : Nat) (hp : ∀ x ∈ p, x ≠ 0) (h1 : 1 ≤ b)
    (h2 : b ≤ buf.length) :
    cstr (buf_after p buf b) = p.take (b - 1) ∧
    (p.take (b - 1)).length = min p.length (b - 1) ∧
    (buf_after p buf b)[min p.length (b - 1)]? = some 0 ∧
    (buf_after p buf b).length = buf.length ∧
    (buf_after p buf b).drop b = buf.drop b := by
  have hlen : (p.take (b - 1)).length = min p.length (b - 1) := by
    rw [List.length_take, Nat.min_comm]
  have hle : (p.take (b - 1)).length ≤ b - 1 := by rw [hlen]; exact Nat.min_le_right _ _
  obtain ⟨k, hk⟩ : ∃ k, b - (p.take (b - 1)).length = k + 1 := ⟨b - (p.take (b - 1)).length - 1, by omega⟩
  have hform : buf_after p buf b
      = p.take (b - 1) ++ 0 :: (List.replicate k 0 ++ buf.drop b) := by
    unfold buf_after
    rw [hk, List.replicate_succ]
    simp
  refine ⟨?_, hlen, ?_, ?_, ?_⟩
  · rw [hform]
    exact cstr_append_null _ _ (fun x hx => hp x (List.mem_of_mem_take hx))
  · rw [hform, ← hlen, List.getElem?_append_right (Nat.le_refl _), Nat.sub_self]
    simp
  · unfold buf_after
    simp only [List.length_append, List.length_replicate, List.length_drop]
    omega
  · unfold buf_after
    apply List.drop_left'
    simp only [List.length_append, List.length_replicate]
    omega

/-- C4: for every non-empty well-formed queue, every output buffer and every
capacity `b` with `1 ≤ b`, `b` bytes being available in the buffer (`b` is a
`size_t`): after `q_remove_head` (resp. `q_remove_tail`) the buffer holds, as
a terminated string, exactly the first `min(len, b - 1)` bytes of the removed
payload, a terminator is at index `min(len, b - 1) ≤ b - 1`, the buffer has the
size it had and every byte of index `b` or more is as it was. -/
theorem copy_out_bounded (h : Heap) (head : Ptr) (ps : List Ptr) (buf : List Nat) (b : Nat)
    (hwf : WF h head ps) (hne : ps ≠ []) (h1 : 1 ≤ b) (h2 : b ≤ buf.length) (h3 : b < 2 ^ 64) :
    (∃ h' buf', q_remove_head h head (some buf) b = .ok (h', ps.head hne, some buf') ∧
      cstr buf' = (payload h (ps.head hne)).take (b - 1) ∧
      (cstr buf').length = min (payload h (ps.head hne)).length (b - 1) ∧
      buf'[min (payload h (ps.head hne)).length (b - 1)]? = some 0 ∧
      min (payload h (ps.head hne)).length (b - 1) ≤ b - 1 ∧
      buf'.length = buf.length ∧ buf'.drop b = buf.drop b) ∧
    (∃ h' buf', q_remove_tail h head (some buf) b = .ok (h', ps.getLast hne, some buf') ∧
      cstr buf' = (payload h (ps.getLast hne)).take (b - 1) ∧
      (cstr buf').length = min (payload h (ps.getLast hne)).length (b - 1) ∧
      buf'[min (payload h (ps.getLast hne)).length (b - 1)]? = some 0 ∧
      min (payload h (ps.getLast hne)).length (b - 1) ≤ b - 1 ∧
      buf'.length = buf.length ∧ buf'.drop b = buf.drop b) := by
  have hb : BufOK (some buf) b := ⟨h1, h2, h3⟩
  constructor
  · cases ps with
    | nil => exact absurd rfl hne
    | cons x rest =>
      obtain ⟨r1, -⟩ := q_remove_head_ok hwf (some buf) b hb
      obtain ⟨f1, f2, f3, f4, f5⟩ := buf_after_facts (payload h x) buf b
        (cstr_ne_null _) h1 h2
      exact ⟨_, _, r1, f1, by rw [f1, f2]; rfl, f3, Nat.min_le_right _ _, f4, f5⟩
  · rcases List.eq_nil_or_concat ps with e | ⟨init, y, e⟩
    · exact absurd e hne
    · have e' : ps = init ++ [y] := by simpa using e
      subst e'
      obtain ⟨r1, -⟩ := q_remove_tail_ok hwf (some buf) b hb
      have hl : (init ++ [y]).getLast hne = y := by simp
      rw [hl]
      obtain ⟨f1, f2, f3, f4, f5⟩ := buf_after_facts (payload h y) buf b
        (cstr_ne_null _) h1 h2
      exact ⟨_, _, r1, f1, by rw [f1, f2], f3, Nat.min_le_right _ _, f4, f5⟩

/-- C4 at the queue `abcde, xy` with a buffer of six bytes and capacity 4:
`abc` is copied out at the head, `xy` at the tail. -/
theorem copy_out_bounded_witness :
    (∃ h' buf', q_remove_head (heap_of [[97, 98, 99, 100, 101], [120, 121]]) 1
        (some [7, 7, 7, 7, 7, 7]) 4 = .ok (h', 2, some buf') ∧
      cstr buf' = [97, 98, 99] ∧ (cstr buf').length = 3 ∧ buf'[3]? = some 0 ∧ 3 ≤ 3 ∧
      buf'.length = 6 ∧ buf'.drop 4 = [7, 7]) ∧
    (∃ h' buf', q_remove_tail (heap_of [[97, 98, 99, 100, 101], [120, 121]]) 1
        (some [7, 7, 7, 7, 7, 7]) 4 = .ok (h', 4, some buf') ∧
      cstr buf' = [120, 121] ∧ (cstr buf').length = 2 ∧ buf'[2]? = some 0 ∧ 2 ≤ 3 ∧
      buf'.length = 6 ∧ buf'.drop 4 = [7, 7]) := by
  have hw : WF (heap_of [[97, 98, 99, 100, 101], [120, 121]]) 1 [2, 4] := by decide
  exact copy_out_bounded (heap_of [[97, 98, 99, 100, 101], [120, 121]]) 1 [2, 4]
    [7, 7, 7, 7, 7, 7] 4 hw (by decide) (by decide) (by decide) (by norm_num)

/-! ## C5: `q_delete_mid` -/

/-- C5, the code at the failing input: on the queue `1, 2, 3, 4, 5, 6`
`q_delete_mid` returns `true` and leaves `1, 2, 4, 5, 6`; it deletes the
element of index 2, not the element of index `⌊6 / 2⌋ = 3`. -/
theorem q_delete_mid_six :
    ∃ h', q_delete_mid 3 (heap_of [[49], [50], [51], [52], [53], [54]]) 1 = .ok (h', true) ∧
      WF h' 1 [2, 4, 8, 10, 12] ∧
      payloads h' [2, 4, 8, 10, 12] = [[49], [50], [52], [53], [54]] := by
  have hw : WF (heap_of [[49], [50], [51], [52], [53], [54]]) 1 [2, 4, 6, 8, 10, 12] := by decide
  obtain ⟨h', w, p, -, -, hf⟩ := q_delete_mid_spec hw (by decide)
  exact ⟨h', by rw [hf]; rfl, w, p⟩

/-! ## C6 and C7: `q_delete_dup` -/

/-- C6, the code at the failing input: on the sorted queue `a, a, b, b, b, c`
`q_delete_dup` does not return; whatever the fuel, the run ends in the fault of
`strcmp(NULL, ...)` or out of fuel before it. -/
theorem q_delete_dup_sorted_run (fuel : Nat) :
    q_delete_dup fuel (heap_of [[97], [97], [98], [98], [98], [99]]) 1
      = if fuel = 0 then .error .outOfFuel else .error .nullDeref := by
  have hw : WF (heap_of [[97], [97], [98], [98], [98], [99]]) 1 [2, 4, 6, 8, 10, 12] := by decide
  exact q_delete_dup_faults hw (by decide) fuel

/-- C7, the code at the failing input: on the queue holding the one string
`a`, the comparison made for the first element is `strcmp(NULL, "a")`, a
fault, and so is the call of `q_delete_dup`. -/
theorem q_delete_dup_null_operand :
    strcmp (heap_of [[97]]) 0 ((heap_of [[97]]).value 2) = .error .nullDeref ∧
    q_delete_dup_loop 1 (heap_of [[97]]) 1 0 2 1 = .error .nullDeref ∧
    q_delete_dup 1 (heap_of [[97]]) 1 = .error .nullDeref := by
  refine ⟨rfl, rfl, ?_⟩
  have hw : WF (heap_of [[97]]) 1 [2] := by decide
  exact q_delete_dup_faults hw (by decide) 1

/-! ## C8: `q_swap` -/

theorem swap_pairs_length {α : Type} : ∀ l : List α, (swap_pairs l).length = l.length
  | [] => rfl
  | [_] => rfl
  | x :: y :: rest => by
    simp only [swap_pairs, List.length_cons, swap_pairs_length rest]

theorem swap_pairs_map {α β : Type} (f : α → β) : ∀ l : List α,
    swap_pairs (l.map f) = (swap_pairs l).map f
  | [] => rfl
  | [_] => rfl
  | x :: y :: rest => by
    simp only [swap_pairs, List.map_cons, swap_pairs_map f rest]

theorem swap_pairs_pair {α : Type} : ∀ (l : List α) (k : Nat), 2 * k + 1 < l.length →
    (swap_pairs l)[2 * k]? = l[2 * k + 1]? ∧ (swap_pairs l)[2 * k + 1]? = l[2 * k]?
  | [], k, hk => by simp at hk
  | [_], k, hk => by simp at hk
  | x :: y :: rest, 0, _ => by simp [swap_pairs]
  | x :: y :: rest, k + 1, hk => by
    have hk' : 2 * k + 1 < rest.length := by
      simp only [List.length_cons] at hk; omega
    have := swap_pairs_pair rest k hk'
    have e1 : 2 * (k + 1) = 2 * k + 1 + 1 := by ring
    have e2 : 2 * (k + 1) + 1 = 2 * k + 1 + 1 + 1 := by ring
    simp only [swap_pairs, e1, List.getElem?_cons_succ]
    exact this

theorem swap_pairs_odd_last {α : Type} : ∀ (l : List α), l.length % 2 = 1 →
    (swap_pairs l)[l.length - 1]? = l[l.length - 1]?
  | [], h => by simp at h
  | [_], _ => rfl
  | x :: y :: rest, h => by
    have h' : rest.length % 2 = 1 := by
      simp only [List.length_cons] at h; omega
    have hpos : 0 < rest.length := by omega
    have := swap_pairs_odd_last rest h'
    have e : (x :: y :: rest).length - 1 = (rest.length - 1) + 1 + 1 := by
      simp only [List.length_cons]; omega
    simp only [swap_pairs, e, List.getElem?_cons_succ]
    exact this

/-- C8: for every well-formed queue of `n` elements, `q_swap` (with
more than `n / 2` units of fuel) returns and the queue then holds the sequence
`qs` of the same length in which, for every `k` with `2 * k + 1 < n`, the
elements of the positions `2 * k` and `2 * k + 1` are exchanged and, `n` being
odd, the last element is in its place; the payloads follow their elements, and
the allocations, the `value` pointers and the bytes are what they were. -/
theorem q_swap_exchanges_pairs (h : Heap) (head : Ptr) (ps : List Ptr) (fuel : Nat)
    (hwf : WF h head ps) (hfuel : ps.length / 2 < fuel) :
    ∃ h' qs, q_swap fuel h head = .ok h' ∧ WF h' head qs ∧ qs = swap_pairs ps ∧
      qs.length = ps.length ∧
      (∀ k, 2 * k + 1 < ps.length → qs[2 * k]? = ps[2 * k + 1]? ∧ qs[2 * k + 1]? = ps[2 * k]?) ∧
      (ps.length % 2 = 1 → qs[ps.length - 1]? = ps[ps.length - 1]?) ∧
      payloads h' qs = swap_pairs (payloads h ps) ∧
      h'.kind = h.kind ∧ h'.value = h.value ∧ h'.bytes = h.bytes := by
  obtain ⟨h', w, k1, k2, k3, hf⟩ := q_swap_spec hwf
  refine ⟨h', swap_pairs ps, ?_, w, rfl, swap_pairs_length ps, swap_pairs_pair ps,
    swap_pairs_odd_last ps, ?_, k1, k2, k3⟩
  · rw [hf, if_pos (Or.inr hfuel)]
  · simp only [payloads, swap_pairs_map]
    apply List.map_congr_left
    intro p _
    simp only [payload, k2, k3]

/-- C8 at the queue `1, 2, 3, 4`: it becomes `2, 1, 4, 3`. -/
theorem q_swap_exchanges_pairs_witness :
    ∃ h' qs, q_swap 3 (heap_of [[49], [50], [51], [52]]) 1 = .ok h' ∧ WF h' 1 qs ∧
      qs = [4, 2, 8, 6] ∧ qs.length = 4 ∧
      (∀ k, 2 * k + 1 < 4 → qs[2 * k]? = [2, 4, 6, 8][2 * k + 1]? ∧
        qs[2 * k + 1]? = [2, 4, 6, 8][2 * k]?) ∧
      (4 % 2 = 1 → qs[4 - 1]? = [2, 4, 6, 8][4 - 1]?) ∧
      payloads h' qs = [[50], [49], [52], [51]] ∧
      h'.kind = (heap_of [[49], [50], [51], [52]]).kind ∧
      h'.value = (heap_of [[49], [50], [51], [52]]).value ∧
      h'.bytes = (heap_of [[49], [50], [51], [52]]).bytes := by
  have hw : WF (heap_of [[49], [50], [51], [52]]) 1 [2, 4, 6, 8] := by decide
  exact q_swap_exchanges_pairs (heap_of [[49], [50], [51], [52]]) 1 [2, 4, 6, 8] 3 hw
    (by decide)

/-- The example `1, 2, 3` of the specification: `q_swap` makes it `2, 1, 3`. -/
theorem q_swap_three :
    ∃ h', q_swap 2 (heap_of [[49], [50], [51]]) 1 = .ok h' ∧ WF h' 1 [4, 2, 6] ∧
      payloads h' [4, 2, 6] = [[50], [49], [51]] := by
  have hw : WF (heap_of [[49], [50], [51]]) 1 [2, 4, 6] := by decide
  obtain ⟨h', w, k1, k2, k3, hf⟩ := q_swap_spec hw
  refine ⟨h', by rw [hf]; rfl, w, ?_⟩
  simp only [payloads, List.map_cons, List.map_nil, payload, k2, k3]
  decide

/-! ## C9: `q_reverse` -/

/-- C9: for every non-empty well-formed queue of `n` elements, `q_reverse`
with `n` units of fuel or more returns, and the queue then holds the same
elements in the reverse order, the payloads with them; the allocations, the
`value` pointers and the bytes are what they were. -/
theorem q_reverse_reverses (h : Heap) (head : Ptr) (ps : List Ptr) (fuel : Nat)
    (hwf : WF h head ps) (hne : ps ≠ []) (hfuel : ps.length ≤ fuel) :
    ∃ h', q_reverse fuel h head = .ok h' ∧ WF h' head ps.reverse ∧
      payloads h' ps.reverse = (payloads h ps).reverse ∧
      h'.kind = h.kind ∧ h'.value = h.value ∧ h'.bytes = h.bytes := by
  obtain ⟨h', w, k1, k2, k3, hf⟩ := q_reverse_spec hwf
  have hpos : 0 < ps.length := List.length_pos.2 hne
  refine ⟨h', ?_, w, ?_, k1, k2, k3⟩
  · rw [hf, if_pos (Or.inr (by omega))]
  · simp only [payloads, ← List.map_reverse]
    apply List.map_congr_left
    intro p _
    simp only [payload, k2, k3]

/-- C9 at the queue `1, 2, 3, 4, 5`: it becomes `5, 4, 3, 2, 1`. -/
theorem q_reverse_reverses_witness :
    ∃ h', q_reverse 5 (heap_of [[49], [50], [51], [52], [53]]) 1 = .ok h' ∧
      WF h' 1 [10, 8, 6, 4, 2] ∧
      payloads h' [10, 8, 6, 4, 2] = [[53], [52], [51], [50], [49]] ∧
      h'.kind = (heap_of [[49], [50], [51], [52], [53]]).kind ∧
      h'.value = (heap_of [[49], [50], [51], [52], [53]]).value ∧
      h'.bytes = (heap_of [[49], [50], [51], [52], [53]]).bytes := by
  have hw : WF (heap_of [[49], [50], [51], [52], [53]]) 1 [2, 4, 6, 8, 10] := by decide
  exact q_reverse_reverses (heap_of [[49], [50], [51], [52], [53]]) 1 [2, 4, 6, 8, 10] 5 hw
    (by decide) (by decide)

/-! ## C10: `q_sort` -/

/-- C10, the code at the failing input: on the queue `b, a` `q_sort` returns
the heap it was given; the queue still holds `b, a`, which is not ascending. -/
theorem q_sort_leaves_unsorted :
    q_sort (heap_of [[98], [97]]) 1 = .ok (heap_of [[98], [97]]) ∧
    WF (heap_of [[98], [97]]) 1 [2, 4] ∧
    payloads (heap_of [[98], [97]]) [2, 4] = [[98], [97]] ∧
    strcmp (heap_of [[98], [97]]) 3 5 = .ok 1 := by
  refine ⟨rfl, by decide, by decide, rfl⟩

/-! ## C11: absent and empty queues -/

theorem q_size_empty {h : Heap} {head : Ptr} (hwf : WF h head []) (fuel : Nat) :
    q_size (fuel + 1) h head = .ok 0 := by
  have hh : head ≠ 0 := ne_null_of_node hwf.1.1 (isNode_of_head hwf.1.2.1)
  have : h.next head = head := hwf.1.2.2.2.2.1
  unfold q_size
  simp only [if_neg hh, load_next_ok hwf.1.1 (isNode_of_head hwf.1.2.1), this, exec_bind_ok]
  unfold q_size_loop
  simp only [if_true]

theorem q_remove_head_empty {h : Heap} {head : Ptr} (hwf : WF h head [])
    (sp : Option (List Nat)) (b : Nat) : q_remove_head h head sp b = .ok (h, 0, sp) := by
  have hh : head ≠ 0 := ne_null_of_node hwf.1.1 (isNode_of_head hwf.1.2.1)
  have : h.next head = head := hwf.1.2.2.2.2.1
  unfold q_remove_head
  simp only [if_neg hh, list_empty_ok hwf.1, this, exec_bind_ok, beq_self_eq_true, if_true]

theorem q_remove_tail_empty {h : Heap} {head : Ptr} (hwf : WF h head [])
    (sp : Option (List Nat)) (b : Nat) : q_remove_tail h head sp b = .ok (h, 0, sp) := by
  have hh : head ≠ 0 := ne_null_of_node hwf.1.1 (isNode_of_head hwf.1.2.1)
  have : h.next head = head := hwf.1.2.2.2.2.1
  unfold q_remove_tail
  simp only [if_neg hh, list_empty_ok hwf.1, this, exec_bind_ok, beq_self_eq_true, if_true]

/-- C11, the absent queue: with `NULL` for the queue, `q_insert_head` and
`q_insert_tail` return `false`, `q_remove_head` and `q_remove_tail` return
`NULL`, `q_size` returns 0, `q_delete_mid` and `q_delete_dup` return `false`,
and `q_swap`, `q_reverse`, `q_sort` and `q_free` return; none faults, none
changes the heap or the output buffer, whatever the other arguments are.
The empty queue: `q_remove_head` and `q_remove_tail` return `NULL`,
`q_delete_mid` and `q_delete_dup` return `false`, `q_size` returns 0, `q_swap`
and `q_reverse` return; none faults and the heap, hence the well-formed empty
queue, is as it was. -/
theorem absent_and_empty_are_noops (h : Heap) (head : Ptr) (s : List Nat) (a1 a2 : Alloc)
    (sp : Option (List Nat)) (b fuel : Nat) (hwf : WF h head []) :
    (q_insert_head h 0 s a1 a2 = .ok (h, false) ∧ q_insert_tail h 0 s a1 a2 = .ok (h, false) ∧
      q_remove_head h 0 sp b = .ok (h, 0, sp) ∧ q_remove_tail h 0 sp b = .ok (h, 0, sp) ∧
      q_size fuel h 0 = .ok 0 ∧
      q_delete_mid fuel h 0 = .ok (h, false) ∧ q_delete_dup fuel h 0 = .ok (h, false) ∧
      q_swap fuel h 0 = .ok h ∧ q_reverse fuel h 0 = .ok h ∧ q_sort h 0 = .ok h ∧
      q_free fuel h 0 = .ok h) ∧
    (q_remove_head h head sp b = .ok (h, 0, sp) ∧ q_remove_tail h head sp b = .ok (h, 0, sp) ∧
      q_delete_mid fuel h head = .ok (h, false) ∧ q_delete_dup fuel h head = .ok (h, false) ∧
      q_size (fuel + 1) h head = .ok 0 ∧
      q_swap fuel h head = .ok h ∧ q_reverse fuel h head = .ok h ∧ WF h head []) := by
  refine ⟨⟨rfl, rfl, rfl, rfl, rfl, rfl, rfl, rfl, rfl, rfl, rfl⟩, q_remove_head_empty hwf sp b,
    q_remove_tail_empty hwf sp b, q_delete_mid_empty hwf fuel, q_delete_dup_empty hwf fuel,
    q_size_empty hwf fuel, ?_, ?_, hwf⟩
  · have hh : head ≠ 0 := ne_null_of_node hwf.1.1 (isNode_of_head hwf.1.2.1)
    have : h.next head = head := hwf.1.2.2.2.2.1
    unfold q_swap
    simp only [if_neg hh, list_empty_ok hwf.1, this, exec_bind_ok, beq_self_eq_true, if_true]
  · have hh : head ≠ 0 := ne_null_of_node hwf.1.1 (isNode_of_head hwf.1.2.1)
    have : h.next head = head := hwf.1.2.2.2.2.1
    unfold q_reverse
    simp only [if_neg hh, list_empty_ok hwf.1, this, exec_bind_ok, beq_self_eq_true, if_true]

/-- C11 at the empty queue `heap_empty_queue`, with the string `a` and a buffer
of two bytes with capacity 0. -/
theorem absent_and_empty_are_noops_witness :
    (q_insert_head heap_empty_queue 0 [97, 0] (alloc_at 2) (alloc_at 3)
        = .ok (heap_empty_queue, false) ∧
      q_insert_tail heap_empty_queue 0 [97, 0] (alloc_at 2) (alloc_at 3)
        = .ok (heap_empty_queue, false) ∧
      q_remove_head heap_empty_queue 0 (some [7, 7]) 0 = .ok (heap_empty_queue, 0, some [7, 7]) ∧
      q_remove_tail heap_empty_queue 0 (some [7, 7]) 0 = .ok (heap_empty_queue, 0, some [7, 7]) ∧
      q_size 0 heap_empty_queue 0 = .ok 0 ∧
      q_delete_mid 0 heap_empty_queue 0 = .ok (heap_empty_queue, false) ∧
      q_delete_dup 0 heap_empty_queue 0 = .ok (heap_empty_queue, false) ∧
      q_swap 0 heap_empty_queue 0 = .ok heap_empty_queue ∧
      q_reverse 0 heap_empty_queue 0 = .ok heap_empty_queue ∧
      q_sort heap_empty_queue 0 = .ok heap_empty_queue ∧
      q_free 0 heap_empty_queue 0 = .ok heap_empty_queue) ∧
    (q_remove_head heap_empty_queue 1 (some [7, 7]) 0 = .ok (heap_empty_queue, 0, some [7, 7]) ∧
      q_remove_tail heap_empty_queue 1 (some [7, 7]) 0 = .ok (heap_empty_queue, 0, some [7, 7]) ∧
      q_delete_mid 0 heap_empty_queue 1 = .ok (heap_empty_queue, false) ∧
      q_delete_dup 0 heap_empty_queue 1 = .ok (heap_empty_queue, false) ∧
      q_size (0 + 1) heap_empty_queue 1 = .ok 0 ∧
      q_swap 0 heap_empty_queue 1 = .ok heap_empty_queue ∧
      q_reverse 0 heap_empty_queue 1 = .ok heap_empty_queue ∧ WF heap_empty_queue 1 []) := by
  have hw : WF heap_empty_queue 1 [] := by decide
  exact absent_and_empty_are_noops heap_empty_queue 1 [97, 0] (alloc_at 2) (alloc_at 3)
    (some [7, 7]) 0 0 hw

/-! ## C12: allocation failure -/

theorem insert_with_fail_first (link : Heap → Ptr → Ptr → Exec Heap) (h : Heap) {head : Ptr}
    (s : List Nat) {a1 : Alloc} (a2 : Alloc) (hh : head ≠ 0) (h1 : a1.addr = 0) :
    insert_with link h head s a1 a2 = .ok (h, false) := by
  unfold insert_with
  simp only [if_neg hh, malloc_node, if_pos h1, if_true]

theorem insert_with_fail_second (link : Heap → Ptr → Ptr → Exec Heap) (h : Heap) {head : Ptr}
    {s : List Nat} {a1 a2 : Alloc} (hh : head ≠ 0) (h1 : a1.addr ≠ 0) (hs : 0 ∈ s)
    (hov : ¬ INT_MAX < to_int (cstr s).length + 1) (h3 : a2.addr = 0) :
    insert_with link h head s a1 a2 = .ok (fail_heap h a1.addr, false) := by
  have hstrlen : strlen s = .ok (cstr s).length := by
    unfold strlen cstr
    rw [if_pos hs]
  unfold insert_with
  simp only [if_neg hh, malloc_node, if_neg h1, hstrlen, exec_bind_ok, if_neg hov,
    malloc_chars, if_pos h3, store_value, setKind_kind, Function.update_same, if_true,
    load_value, setValue_kind, setValue_value, free, Function.update_same, exec_pure]
  simp [fail_heap]

theorem fail_heap_fields (h : Heap) {e : Ptr} (he : h.kind e = none) :
    (fail_heap h e).kind = h.kind ∧ (fail_heap h e).next = h.next ∧
    (fail_heap h e).prev = h.prev ∧ (fail_heap h e).bytes = h.bytes := by
  refine ⟨?_, rfl, rfl, rfl⟩
  funext p
  by_cases hp : p = e
  · subst hp
    simp [fail_heap, he]
  · simp [fail_heap, Function.update_noteq hp]

/-- C12: for every well-formed queue and every string `s`, when the allocation
of the element fails, or when the element is allocated and the allocation of
its array, once reached (the size `l + 1` has been computed in `int`), fails:
`q_insert_head` and `q_insert_tail` return `false`; the queue holds the
elements it held, with the same links and payloads; what is allocated is what
was allocated before the call, so an element allocated before the second
allocation failed has been released. -/
theorem insert_atomic_on_alloc_failure (h : Heap) (head : Ptr) (ps : List Ptr) (s : List Nat)
    (a1 a2 : Alloc) (hwf : WF h head ps) (hs : 0 ∈ s)
    (hfail : a1.addr = 0 ∨ (h.kind a1.addr = none ∧ a2.addr = 0 ∧
      ¬ INT_MAX < to_int (cstr s).length + 1)) :
    ∃ h', q_insert_head h head s a1 a2 = .ok (h', false) ∧
      q_insert_tail h head s a1 a2 = .ok (h', false) ∧
      WF h' head ps ∧ payloads h' ps = payloads h ps ∧
      h'.next = h.next ∧ h'.prev = h.prev ∧ h'.kind = h.kind ∧ h'.bytes = h.bytes ∧
      (∀ p ∈ ps, h'.value p = h.value p) ∧
      (a1.addr ≠ 0 → h'.kind a1.addr = none) := by
  have hh : head ≠ 0 := ne_null_of_node hwf.1.1 (isNode_of_head hwf.1.2.1)
  by_cases h1 : a1.addr = 0
  · refine ⟨h, ?_, ?_, hwf, rfl, rfl, rfl, rfl, rfl, fun _ _ => rfl, fun e => absurd h1 e⟩
    · rw [q_insert_head_eq, insert_with_fail_first list_add h s a2 hh h1]
    · rw [q_insert_tail_eq, insert_with_fail_first list_add_tail h s a2 hh h1]
  · obtain ⟨f2, h3, hov⟩ := hfail.resolve_left h1
    obtain ⟨k1, k2, k3, k4⟩ := fail_heap_fields h f2
    have hval : ∀ p ∈ ps, (fail_heap h a1.addr).value p = h.value p := by
      intro p hp
      have : p ≠ a1.addr := fun x => (hwf.not_fresh f2).2.1 (x ▸ hp)
      simp [fail_heap, Function.update_noteq this]
    refine ⟨fail_heap h a1.addr, ?_, ?_, fail_heap_WF hwf h1 f2, ?_, k2, k3, k1, k4, hval, ?_⟩
    · rw [q_insert_head_eq, insert_with_fail_second list_add h hh h1 hs hov h3]
    · rw [q_insert_tail_eq, insert_with_fail_second list_add_tail h hh h1 hs hov h3]
    · apply payloads_congr
      intro p hp
      exact ⟨hval p hp, by rw [k4]⟩
    · intro _
      rw [k1]; exact f2

/-- C12 at the queue `a`, the string `b`, the element allocated at address 4
and the allocation of its array failing. -/
theorem insert_atomic_on_alloc_failure_witness :
    ∃ h', q_insert_head (heap_of [[97]]) 1 [98, 0] (alloc_at 4) (alloc_at 0) = .ok (h', false) ∧
      q_insert_tail (heap_of [[97]]) 1 [98, 0] (alloc_at 4) (alloc_at 0) = .ok (h', false) ∧
      WF h' 1 [2] ∧ payloads h' [2] = payloads (heap_of [[97]]) [2] ∧
      h'.next = (heap_of [[97]]).next ∧ h'.prev = (heap_of [[97]]).prev ∧
      h'.kind = (heap_of [[97]]).kind ∧ h'.bytes = (heap_of [[97]]).bytes ∧
      (∀ p ∈ [2], h'.value p = (heap_of [[97]]).value p) ∧
      ((alloc_at 4).addr ≠ 0 → h'.kind (alloc_at 4).addr = none) := by
  have hw : WF (heap_of [[97]]) 1 [2] := by decide
  have hov : ¬ INT_MAX < to_int (cstr [98, 0]).length + 1 := by
    have e : to_int (cstr [98, 0]).length = ((1 : Nat) : Int) := to_int_small (by decide)
    rw [e]
    decide
  exact insert_atomic_on_alloc_failure (heap_of [[97]]) 1 [2] [98, 0] (alloc_at 4) (alloc_at 0)
    hw (by decide) (Or.inr ⟨by decide, by decide, hov⟩)

/-! ## C16: reversing twice -/

theorem chain_next_eq {h h' : Heap} {a b : Ptr} {ps : List Ptr} (hc : chain h a ps b)
    (hc' : chain h' a ps b) : ∀ x ∈ a :: ps, h'.next x = h.next x := by
  induction ps generalizing a with
  | nil =>
    intro x hx
    simp only [List.mem_singleton] at hx
    simp only [chain] at hc hc'
    rw [hx, hc.1, hc'.1]
  | cons p ps ih =>
    intro x hx
    simp only [chain] at hc hc'
    rcases List.mem_cons.1 hx with rfl | hx
    · rw [hc.1, hc'.1]
    · exact ih hc.2.2 hc'.2.2 x hx

theorem chain_prev_eq {h h' : Heap} {a b : Ptr} {ps : List Ptr} (hc : chain h a ps b)
    (hc' : chain h' a ps b) : ∀ x ∈ ps ++ [b], h'.prev x = h.prev x := by
  induction ps generalizing a with
  | nil =>
    intro x hx
    simp only [List.nil_append, List.mem_singleton] at hx
    simp only [chain] at hc hc'
    rw [hx, hc.2, hc'.2]
  | cons p ps ih =>
    intro x hx
    simp only [chain] at hc hc'
    rcases List.mem_cons.1 hx with rfl | hx
    · rw [hc.2.1, hc'.2.1]
    · exact ih hc.2.2 hc'.2.2 x hx

/-- C16: for every well-formed queue of `n` elements, two calls of `q_reverse`
(each with `n` units of fuel or more) return and leave the queue with the
elements it had, in the order it had, each with its payload; the allocations,
the `value` pointers, the bytes and the links of the sentinel and of every
element are what they were before the two calls.  On `NULL` the call returns
and changes nothing. -/
theorem q_reverse_twice_identity (h : Heap) (head : Ptr) (ps : List Ptr) (fuel : Nat)
    (hwf : WF h head ps) (hfuel : ps.length ≤ fuel) :
    (∃ h1 h2, q_reverse fuel h head = .ok h1 ∧ q_reverse fuel h1 head = .ok h2 ∧
      WF h1 head ps.reverse ∧ WF h2 head ps ∧ payloads h2 ps = payloads h ps ∧
      h2.kind = h.kind ∧ h2.value = h.value ∧ h2.bytes = h.bytes ∧
      (∀ p ∈ head :: ps, h2.next p = h.next p ∧ h2.prev p = h.prev p)) ∧
    q_reverse fuel h 0 = .ok h := by
  refine ⟨?_, rfl⟩
  obtain ⟨h1, w1, k1, k2, k3, hf1⟩ := q_reverse_spec hwf
  obtain ⟨h2, w2, j1, j2, j3, hf2⟩ := q_reverse_spec w1
  rw [List.reverse_reverse] at w2
  have c1 : ps = [] ∨ ps.length - 1 < fuel := by
    rcases ps with _ | ⟨x, rest⟩
    · exact Or.inl rfl
    · right
      simp only [List.length_cons] at hfuel ⊢
      omega
  have c2 : ps.reverse = [] ∨ ps.reverse.length - 1 < fuel := by
    rcases c1 with e | e
    · left; rw [e]; rfl
    · right; rw [List.length_reverse]; exact e
  refine ⟨h1, h2, ?_, ?_, w1, w2, ?_, j1.trans k1, j2.trans k2, j3.trans k3, ?_⟩
  · rw [hf1, if_pos c1]
  · rw [hf2, if_pos c2]
  · apply payloads_congr
    intro p _
    rw [j2, k2, j3, k3]
    exact ⟨rfl, rfl⟩
  · intro p hp
    refine ⟨chain_next_eq hwf.1.2.2.2.2 w2.1.2.2.2.2 p hp,
      chain_prev_eq hwf.1.2.2.2.2 w2.1.2.2.2.2 p ?_⟩
    simp only [List.mem_cons, List.mem_append, List.mem_singleton] at hp ⊢
    tauto

/-- C16 at the queue `1, 2, 3, 4, 5`. -/
theorem q_reverse_twice_identity_witness :
    (∃ h1 h2, q_reverse 5 (heap_of [[49], [50], [51], [52], [53]]) 1 = .ok h1 ∧
      q_reverse 5 h1 1 = .ok h2 ∧
      WF h1 1 [10, 8, 6, 4, 2] ∧ WF h2 1 [2, 4, 6, 8, 10] ∧
      payloads h2 [2, 4, 6, 8, 10] = [[49], [50], [51], [52], [53]] ∧
      h2.kind = (heap_of [[49], [50], [51], [52], [53]]).kind ∧
      h2.value = (heap_of [[49], [50], [51], [52], [53]]).value ∧
      h2.bytes = (heap_of [[49], [50], [51], [52], [53]]).bytes ∧
      (∀ p ∈ [1, 2, 4, 6, 8, 10],
        h2.next p = (heap_of [[49], [50], [51], [52], [53]]).next p ∧
        h2.prev p = (heap_of [[49], [50], [51], [52], [53]]).prev p)) ∧
    q_reverse 5 (heap_of [[49], [50], [51], [52], [53]]) 0
      = .ok (heap_of [[49], [50], [51], [52], [53]]) := by
  have hw : WF (heap_of [[49], [50], [51], [52], [53]]) 1 [2, 4, 6, 8, 10] := by decide
  exact q_reverse_twice_identity (heap_of [[49], [50], [51], [52], [53]]) 1 [2, 4, 6, 8, 10] 5 hw
    (by decide)

/-! ## C19: the middle of `q_delete_mid` -/

/-- The run of `q_delete_mid` on a non-empty well-formed queue, with the heap
it returns: the element of index `(n - 1) / 2` unlinked and released. -/
theorem q_delete_mid_run {h : Heap} {head : Ptr} {ps : List Ptr} (hwf : WF h head ps)
    (hne : ps ≠ []) (fuel : Nat) :
    q_delete_mid_loop fuel h head (h.next (h.next head)) (h.next head)
      = (if (ps.length - 1) / 2 < fuel then .ok (ps.getD ((ps.length - 1) / 2) head)
          else .error .outOfFuel) ∧
    q_delete_mid fuel h head
      = if (ps.length - 1) / 2 < fuel then
          .ok (release_heap (del_heap h (ps.getD ((ps.length - 1) / 2) head))
            (ps.getD ((ps.length - 1) / 2) head), true)
        else .error .outOfFuel := by
  have hpos : 0 < ps.length := List.length_pos.2 hne
  have hm : (ps.length - 1) / 2 < ps.length := by omega
  set m := (ps.length - 1) / 2 with hmdef
  set x := ps.getD m head with hxdef
  have hsplit := split_at head hm
  rw [← hxdef] at hsplit
  have hwf2 : WF h head (ps.take m ++ x :: ps.drop (m + 1)) := by rw [← hsplit]; exact hwf
  obtain ⟨d1, -, -⟩ := hwf2.unlink
  obtain ⟨r1, -, -⟩ := hwf2.release
  have hh : head ≠ 0 := ne_null_of_node hwf.1.1 (isNode_of_head hwf.1.2.1)
  have hnx : h.next head ≠ head := hwf.1.ne_head (hwf.1.next_head_mem hne)
  have hfirst : h.next head = ps.getD 0 head := hwf.1.next_head_getD
  have hsecond : h.next (ps.getD 0 head) = ps.getD (2 * 0 + 1) head :=
    chain_next_at hwf.1.2.2.2.2 0 hpos
  have hfast : load_next h (ps.getD 0 head) = .ok (ps.getD (2 * 0 + 1) head) :=
    hwf.1.next_at 0 hpos
  have hloop := q_delete_mid_loop_spec hwf.1 m 0 (by omega) (by omega) fuel
  constructor
  · rw [hfirst, hsecond]
    exact hloop
  · rw [hfirst] at hnx
    unfold q_delete_mid
    simp only [if_neg hh, list_empty_ok hwf.1, exec_bind_ok, beq_iff_eq, hnx, if_false,
      load_next_ok hwf.1.1 (isNode_of_head hwf.1.2.1), hfirst, hfast]
    rw [hloop]
    by_cases hf : m < fuel
    · simp only [if_pos hf, exec_bind_ok, d1, r1, exec_pure]
    · simp only [if_neg hf, exec_bind_error]

/-- C19: for every non-empty well-formed queue of `n` elements (and more than
`(n - 1) / 2` units of fuel), the fast/slow traversal of `q_delete_mid` stops
with `slow` on the element `x` of index `⌊(n - 1) / 2⌋`; `q_delete_mid`
returns `true`, the queue then holds the other elements in their order with
their payloads, `x` and its array are released, and nothing else is: every
other allocation, and all `value` pointers and bytes, are as they were. -/
theorem q_delete_mid_lower_middle (h : Heap) (head : Ptr) (ps : List Ptr) (fuel : Nat)
    (hwf : WF h head ps) (hne : ps ≠ []) (hfuel : (ps.length - 1) / 2 < fuel) :
    q_delete_mid_loop fuel h head (h.next (h.next head)) (h.next head)
      = .ok (ps.getD ((ps.length - 1) / 2) head) ∧
    ps[(ps.length - 1) / 2]? = some (ps.getD ((ps.length - 1) / 2) head) ∧
    ∃ h', q_delete_mid fuel h head = .ok (h', true) ∧
      WF h' head (ps.eraseIdx ((ps.length - 1) / 2)) ∧
      payloads h' (ps.eraseIdx ((ps.length - 1) / 2))
        = (payloads h ps).eraseIdx ((ps.length - 1) / 2) ∧
      h'.kind (ps.getD ((ps.length - 1) / 2) head) = none ∧
      h'.kind (h.value (ps.getD ((ps.length - 1) / 2) head)) = none ∧
      (∀ q, q ≠ ps.getD ((ps.length - 1) / 2) head →
        q ≠ h.value (ps.getD ((ps.length - 1) / 2) head) → h'.kind q = h.kind q) ∧
      h'.value = h.value ∧ h'.bytes = h.bytes := by
  have hpos : 0 < ps.length := List.length_pos.2 hne
  have hm : (ps.length - 1) / 2 < ps.length := by omega
  obtain ⟨l1, l2⟩ := q_delete_mid_run hwf hne fuel
  rw [if_pos hfuel] at l1 l2
  have hsplit := split_at head hm
  have hwf2 : WF h head (ps.take ((ps.length - 1) / 2) ++
      ps.getD ((ps.length - 1) / 2) head :: ps.drop ((ps.length - 1) / 2 + 1)) := by
    rw [← hsplit]; exact hwf
  obtain ⟨-, r2, r3⟩ := hwf2.release
  refine ⟨l1, by rw [List.getD_eq_getElem _ _ hm, List.getElem?_eq_getElem hm], _, l2, ?_, ?_, (release_heap_kind _ _).1,
    (release_heap_kind (del_heap h _) _).2, ?_, rfl, rfl⟩
  · rw [eraseIdx_split]; exact r2
  · rw [eraseIdx_split, r3]
    simp only [payloads, List.eraseIdx_eq_take_drop_succ, List.map_append, List.map_take,
      List.map_drop]
  · intro q q1 q2
    simp only [release_heap, setKind_kind, del_heap_kind, del_heap_value,
      Function.update_noteq q1, Function.update_noteq q2]

/-- C19 at the queue `1, 2, 3, 4, 5, 6`: `slow` stops on the third element,
at address 6, and the value `3` is deleted. -/
theorem q_delete_mid_lower_middle_witness :
    q_delete_mid_loop 3 (heap_of [[49], [50], [51], [52], [53], [54]]) 1
        ((heap_of [[49], [50], [51], [52], [53], [54]]).next
          ((heap_of [[49], [50], [51], [52], [53], [54]]).next 1))
        ((heap_of [[49], [50], [51], [52], [53], [54]]).next 1)
      = .ok 6 ∧
    [2, 4, 6, 8, 10, 12][2]? = some 6 ∧
    ∃ h', q_delete_mid 3 (heap_of [[49], [50], [51], [52], [53], [54]]) 1 = .ok (h', true) ∧
      WF h' 1 [2, 4, 8, 10, 12] ∧
      payloads h' [2, 4, 8, 10, 12] = [[49], [50], [52], [53], [54]] ∧
      h'.kind 6 = none ∧ h'.kind 7 = none ∧
      (∀ q, q ≠ 6 → q ≠ 7 → h'.kind q = (heap_of [[49], [50], [51], [52], [53], [54]]).kind q) ∧
      h'.value = (heap_of [[49], [50], [51], [52], [53], [54]]).value ∧
      h'.bytes = (heap_of [[49], [50], [51], [52], [53], [54]]).bytes := by
  have hw : WF (heap_of [[49], [50], [51], [52], [53], [54]]) 1 [2, 4, 6, 8, 10, 12] := by decide
  exact q_delete_mid_lower_middle (heap_of [[49], [50], [51], [52], [53], [54]]) 1
    [2, 4, 6, 8, 10, 12] 3 hw (by decide) (by decide)

/-! ## The copy-out with capacity 0 -/

theorem size_sub_zero_one : size_sub 0 1 = 2 ^ 64 - 1 := by
  unfold size_sub SIZE_MOD
  norm_num

/-- The copy-out with capacity 0 into an array of fewer than `2^64 - 1` bytes:
the bound of `strncpy` is `2^64 - 1` and the copy runs over the array. -/
theorem copy_out_zero {h : Heap} {x : Ptr} (h0 : h.kind 0 = none)
    (hx : h.kind x = some Kind.element) (hv : h.kind (h.value x) = some Kind.chars)
    (buf : List Nat) (hb : buf.length < 2 ^ 64 - 1) :
    copy_out h x (some buf) 0 = .error .outOfBounds := by
  have hx0 : x ≠ 0 := by
    rintro rfl; rw [h0] at hx; cases hx
  have hv0 : h.value x ≠ 0 := by
    intro e; rw [e, h0] at hv; cases hv
  simp only [copy_out, load_value, if_neg hx0, hx, if_true, exec_bind_ok, load_bytes, if_neg hv0,
    hv, size_sub_zero_one, strncpy, if_pos hb, exec_bind_error]

theorem q_remove_head_zero {h : Heap} {head x : Ptr} {rest : List Ptr}
    (hwf : WF h head (x :: rest)) (buf : List Nat) (hb : buf.length < 2 ^ 64 - 1) :
    q_remove_head h head (some buf) 0 = .error .outOfBounds := by
  have hh : head ≠ 0 := ne_null_of_node hwf.1.1 (isNode_of_head hwf.1.2.1)
  have hnx := hwf.1.next_head
  have hxh : x ≠ head := hwf.1.ne_head (by simp)
  obtain ⟨d1, d2, -⟩ := WF.unlink (A := []) (B := rest) hwf
  have hcopy := copy_out_zero (h := del_heap h x) (x := x) hwf.1.1
    (hwf.1.2.2.1 x (by simp)) (hwf.2.1 x (by simp)).1 buf hb
  unfold q_remove_head
  simp only [if_neg hh, list_empty_ok hwf.1, hnx, exec_bind_ok, beq_iff_eq, hxh, if_false,
    load_next_ok hwf.1.1 (isNode_of_head hwf.1.2.1), d1, hcopy, exec_bind_error]

theorem q_remove_tail_zero {h : Heap} {head y : Ptr} {init : List Ptr}
    (hwf : WF h head (init ++ [y])) (buf : List Nat) (hb : buf.length < 2 ^ 64 - 1) :
    q_remove_tail h head (some buf) 0 = .error .outOfBounds := by
  have hh : head ≠ 0 := ne_null_of_node hwf.1.1 (isNode_of_head hwf.1.2.1)
  have hpv := hwf.1.prev_head
  have hnx : h.next head ≠ head := hwf.1.ne_head (hwf.1.next_head_mem (by simp))
  obtain ⟨d1, d2, -⟩ := WF.unlink (A := init) (B := []) hwf
  have hcopy := copy_out_zero (h := del_heap h y) (x := y) hwf.1.1
    (hwf.1.2.2.1 y (by simp)) (hwf.2.1 y (by simp)).1 buf hb
  unfold q_remove_tail
  simp only [if_neg hh, list_empty_ok hwf.1, exec_bind_ok, beq_iff_eq, hnx, if_false,
    load_prev_ok hwf.1.1 (isNode_of_head hwf.1.2.1), hpv, d1, hcopy, exec_bind_error]

/-- The function `q_remove_head` on a non-empty queue, whatever the buffer arguments are: the
first element is unlinked, and the copy-out is made in the heap so obtained. -/
theorem q_remove_head_run {h : Heap} {head x : Ptr} {rest : List Ptr}
    (hwf : WF h head (x :: rest)) (sp : Option (List Nat)) (b : Nat) :
    q_remove_head h head sp b = (do
      let h1 ← list_del h x
      let out ← copy_out h1 x sp b
      pure (h1, x, out)) := by
  have hh : head ≠ 0 := ne_null_of_node hwf.1.1 (isNode_of_head hwf.1.2.1)
  have hnx := hwf.1.next_head
  have hxh : x ≠ head := hwf.1.ne_head (by simp)
  unfold q_remove_head
  simp only [if_neg hh, list_empty_ok hwf.1, hnx, exec_bind_ok, beq_iff_eq, hxh, if_false,
    load_next_ok hwf.1.1 (isNode_of_head hwf.1.2.1)]

/-- The function `q_remove_tail` on a non-empty queue, whatever the buffer arguments are: the
last element is unlinked, and the copy-out is made in the heap so obtained. -/
theorem q_remove_tail_run {h : Heap} {head y : Ptr} {init : List Ptr}
    (hwf : WF h head (init ++ [y])) (sp : Option (List Nat)) (b : Nat) :
    q_remove_tail h head sp b = (do
      let h1 ← list_del h y
      let out ← copy_out h1 y sp b
      pure (h1, y, out)) := by
  have hh : head ≠ 0 := ne_null_of_node hwf.1.1 (isNode_of_head hwf.1.2.1)
  have hpv := hwf.1.prev_head
  have hnx : h.next head ≠ head := hwf.1.ne_head (hwf.1.next_head_mem (by simp))
  unfold q_remove_tail
  simp only [if_neg hh, list_empty_ok hwf.1, exec_bind_ok, beq_iff_eq, hnx, if_false,
    load_prev_ok hwf.1.1 (isNode_of_head hwf.1.2.1), hpv]

theorem strncpy_zero_capacity (buf src : List Nat) (hb : buf.length < 2 ^ 64 - 1) :
    strncpy buf src (size_sub 0 1) = .error .outOfBounds := by
  simp only [strncpy, size_sub_zero_one, if_pos hb]

/-! ## C3: the capacity is not tested -/

/-- C3 as stated fails: on the queue `a, b`, with a buffer of three bytes and
capacity 0, `q_remove_head` does not return the first element and
`q_remove_tail` does not return the last one; no call returns. -/
theorem remove_unguarded_capacity_counterexample :
    WF (heap_of [[97], [98]]) 1 [2, 4] ∧
    q_remove_head (heap_of [[97], [98]]) 1 (some [7, 7, 7]) 0 = .error .outOfBounds ∧
    q_remove_tail (heap_of [[97], [98]]) 1 (some [7, 7, 7]) 0 = .error .outOfBounds := by
  have hw : WF (heap_of [[97], [98]]) 1 [2, 4] := by decide
  exact ⟨hw, q_remove_head_zero hw [7, 7, 7] (by norm_num),
    @q_remove_tail_zero (heap_of [[97], [98]]) 1 4 [2] hw [7, 7, 7] (by norm_num)⟩

/-! ## C20: the copy-out with capacity 0 -/

/-- C20, as amended: `q_remove_head` and `q_remove_tail` do not test
`bufsize`.  On every non-empty well-formed queue a call, whatever the output
buffer and the capacity are, is `list_del` of the end element, which succeeds,
followed by the copy-out in the heap so obtained.  With a non-null output
buffer of fewer than `2^64 - 1` bytes and capacity 0, the copy length
`bufsize - 1` is `2^64 - 1`, `strncpy` called with that bound runs over the
buffer, so the copy-out faults and neither call returns the element. -/
theorem remove_capacity_zero_overruns (h : Heap) (head : Ptr) (ps : List Ptr) (buf : List Nat)
    (hwf : WF h head ps) (hne : ps ≠ []) (hb : buf.length < 2 ^ 64 - 1) :
    size_sub 0 1 = 2 ^ 64 - 1 ∧
    ((∀ sp b, q_remove_head h head sp b = (do
        let h1 ← list_del h (ps.head hne)
        let out ← copy_out h1 (ps.head hne) sp b
        pure (h1, ps.head hne, out))) ∧
      list_del h (ps.head hne) = .ok (del_heap h (ps.head hne)) ∧
      strncpy buf ((del_heap h (ps.head hne)).bytes ((del_heap h (ps.head hne)).value (ps.head hne)))
        (size_sub 0 1) = .error .outOfBounds ∧
      copy_out (del_heap h (ps.head hne)) (ps.head hne) (some buf) 0 = .error .outOfBounds ∧
      q_remove_head h head (some buf) 0 = .error .outOfBounds) ∧
    ((∀ sp b, q_remove_tail h head sp b = (do
        let h1 ← list_del h (ps.getLast hne)
        let out ← copy_out h1 (ps.getLast hne) sp b
        pure (h1, ps.getLast hne, out))) ∧
      list_del h (ps.getLast hne) = .ok (del_heap h (ps.getLast hne)) ∧
      strncpy buf
        ((del_heap h (ps.getLast hne)).bytes ((del_heap h (ps.getLast hne)).value (ps.getLast hne)))
        (size_sub 0 1) = .error .outOfBounds ∧
      copy_out (del_heap h (ps.getLast hne)) (ps.getLast hne) (some buf) 0
        = .error .outOfBounds ∧
      q_remove_tail h head (some buf) 0 = .error .outOfBounds) := by
  refine ⟨size_sub_zero_one, ?_, ?_⟩
  · cases ps with
    | nil => exact absurd rfl hne
    | cons x rest =>
      simp only [List.head_cons]
      exact ⟨fun sp b => q_remove_head_run hwf sp b, (WF.unlink (A := []) (B := rest) hwf).1,
        strncpy_zero_capacity _ _ hb,
        copy_out_zero (h := del_heap h x) (x := x) hwf.1.1 (hwf.1.2.2.1 x (by simp))
          (hwf.2.1 x (by simp)).1 buf hb,
        q_remove_head_zero hwf buf hb⟩
  · rcases List.eq_nil_or_concat ps with e | ⟨init, y, e⟩
    · exact absurd e hne
    · have e' : ps = init ++ [y] := by simpa using e
      subst e'
      have hl : (init ++ [y]).getLast hne = y := by simp
      rw [hl]
      exact ⟨fun sp b => q_remove_tail_run hwf sp b, (WF.unlink (A := init) (B := []) hwf).1,
        strncpy_zero_capacity _ _ hb,
        copy_out_zero (h := del_heap h y) (x := y) hwf.1.1 (hwf.1.2.2.1 y (by simp))
          (hwf.2.1 y (by simp)).1 buf hb,
        q_remove_tail_zero hwf buf hb⟩

/-- C20 as amended, at the queue `a, b` and a buffer of two bytes. -/
theorem remove_capacity_zero_overruns_witness :
    size_sub 0 1 = 2 ^ 64 - 1 ∧
    ((∀ sp b, q_remove_head (heap_of [[97], [98]]) 1 sp b = (do
        let h1 ← list_del (heap_of [[97], [98]]) 2
        let out ← copy_out h1 2 sp b
        pure (h1, 2, out))) ∧
      list_del (heap_of [[97], [98]]) 2 = .ok (del_heap (heap_of [[97], [98]]) 2) ∧
      strncpy [7, 7] ((del_heap (heap_of [[97], [98]]) 2).bytes
        ((del_heap (heap_of [[97], [98]]) 2).value 2)) (size_sub 0 1) = .error .outOfBounds ∧
      copy_out (del_heap (heap_of [[97], [98]]) 2) 2 (some [7, 7]) 0 = .error .outOfBounds ∧
      q_remove_head (heap_of [[97], [98]]) 1 (some [7, 7]) 0 = .error .outOfBounds) ∧
    ((∀ sp b, q_remove_tail (heap_of [[97], [98]]) 1 sp b = (do
        let h1 ← list_del (heap_of [[97], [98]]) 4
        let out ← copy_out h1 4 sp b
        pure (h1, 4, out))) ∧
      list_del (heap_of [[97], [98]]) 4 = .ok (del_heap (heap_of [[97], [98]]) 4) ∧
      strncpy [7, 7] ((del_heap (heap_of [[97], [98]]) 4).bytes
        ((del_heap (heap_of [[97], [98]]) 4).value 4)) (size_sub 0 1) = .error .outOfBounds ∧
      copy_out (del_heap (heap_of [[97], [98]]) 4) 4 (some [7, 7]) 0 = .error .outOfBounds ∧
      q_remove_tail (heap_of [[97], [98]]) 1 (some [7, 7]) 0 = .error .outOfBounds) := by
  have hw : WF (heap_of [[97], [98]]) 1 [2, 4] := by decide
  exact remove_capacity_zero_overruns (heap_of [[97], [98]]) 1 [2, 4] [7, 7] hw (by decide)
    (by norm_num)

/-- C20 as stated fails: on the queue holding the one string `a`, with a
buffer of two bytes and capacity 0, `q_remove_head` and `q_remove_tail` do not
return the element; they fault, running over the buffer. -/
theorem remove_capacity_zero_counterexample :
    q_remove_head (heap_of [[97]]) 1 (some [7, 7]) 0 = .error .outOfBounds ∧
    q_remove_tail (heap_of [[97]]) 1 (some [7, 7]) 0 = .error .outOfBounds := by
  have hw : WF (heap_of [[97]]) 1 [2] := by decide
  exact ⟨q_remove_head_zero hw [7, 7] (by norm_num),
    @q_remove_tail_zero (heap_of [[97]]) 1 2 [] hw [7, 7] (by norm_num)⟩

/-! ## `q_size` -/

theorem INT_MAX_lt_succ (l : Nat) : INT_MAX < (l : Int) + 1 ↔ 2147483647 ≤ l := by
  unfold INT_MAX
  norm_num
  omega

/-- The loop of `q_size` started on the node of index `j` with the count `l`:
it adds the number `d` of the remaining elements, or stops at the overflow of
the count after `2^31 - 1 - l` elements. -/
theorem q_size_loop_spec {h : Heap} {head : Ptr} {ps : List Ptr} (hl : Links h head ps) :
    ∀ (d j l : Nat), ps.length - j = d → j ≤ ps.length → l ≤ 2147483647 → ∀ fuel,
      q_size_loop fuel h head (ps.getD j head) (l : Int)
        = if min d (2147483647 - l) < fuel then
            (if d ≤ 2147483647 - l then .ok ((l + d : Nat) : Int) else .error .intOverflow)
          else .error .outOfFuel := by
  intro d
  induction d with
  | zero =>
    intro j l hd hj hl' fuel
    have hjn : ps.length ≤ j := by omega
    cases fuel with
    | zero => simp [q_size_loop]
    | succ fuel =>
      unfold q_size_loop
      rw [if_pos (getD_of_le head hjn)]
      simp
  | succ d ih =>
    intro j l hd hj hl' fuel
    have hjn : j < ps.length := by omega
    have hne : ps.getD j head ≠ head := fun e => by
      have := (hl.getD_eq_head j).1 e
      omega
    cases fuel with
    | zero => simp [q_size_loop]
    | succ fuel =>
      unfold q_size_loop
      rw [if_neg hne]
      by_cases hov : 2147483647 ≤ l
      · rw [if_pos ((INT_MAX_lt_succ l).2 hov)]
        have e : 2147483647 - l = 0 := by omega
        rw [e]
        simp
      · rw [if_neg (fun x => hov ((INT_MAX_lt_succ l).1 x))]
        simp only [hl.next_at j hjn, exec_bind_ok]
        have hc : ((l : Int) + 1) = ((l + 1 : Nat) : Int) := by push_cast; rfl
        rw [hc, ih (j + 1) (l + 1) (by omega) (by omega) (by omega) fuel]
        have e1 : (min d (2147483647 - (l + 1)) < fuel) ↔
            (min (d + 1) (2147483647 - l) < fuel + 1) := by
          simp only [Nat.min_def]
          split_ifs <;> omega
        have e2 : (d ≤ 2147483647 - (l + 1)) ↔ (d + 1 ≤ 2147483647 - l) := by omega
        have e3 : l + 1 + d = l + (d + 1) := by omega
        simp only [e1, e2, e3]

/-- The function `q_size` on a well-formed queue of `n` elements: `n` when
`n ≤ INT_MAX`, and otherwise the overflow of the `int` count. -/
theorem q_size_spec {h : Heap} {head : Ptr} {ps : List Ptr} (hl : Links h head ps) (fuel : Nat) :
    q_size fuel h head
      = if min ps.length 2147483647 < fuel then
          (if ps.length ≤ 2147483647 then .ok (ps.length : Int) else .error .intOverflow)
        else .error .outOfFuel := by
  have hh : head ≠ 0 := ne_null_of_node hl.1 (isNode_of_head hl.2.1)
  have hnx : h.next head = ps.getD 0 head := by
    rw [chain_next_first hl.2.2.2.2]
    cases ps <;> rfl
  have := q_size_loop_spec hl ps.length 0 0 (by omega) (by omega) (by omega) fuel
  unfold q_size
  simp only [if_neg hh, load_next_ok hl.1 (isNode_of_head hl.2.1), exec_bind_ok, hnx]
  simpa using this

theorem q_size_ok {h : Heap} {head : Ptr} {ps : List Ptr} (hl : Links h head ps)
    (hn : ps.length ≤ 2147483647) {fuel : Nat} (hfuel : ps.length < fuel) :
    q_size fuel h head = .ok (ps.length : Int) := by
  rw [q_size_spec hl, if_pos (by rw [Nat.min_eq_left hn]; exact hfuel), if_pos hn]

/-! ## The heaps `heap_of` -/

theorem heap_of_chain (vals : List (List Nat)) :
    ∀ m k, vals.length - k = m → k ≤ vals.length →
      chain (heap_of vals) (if k = 0 then 1 else 2 * k)
        ((List.range' k m).map (fun i : Nat => 2 * i + 2)) 1 := by
  intro m
  induction m with
  | zero =>
    intro k hm hk
    have e : k = vals.length := by omega
    subst e
    simp only [List.range'_zero, List.map_nil, chain, heap_of]
    by_cases h0 : vals.length = 0
    · simp [h0]
    · have h1 : 2 * vals.length ≠ 1 := by omega
      simp [h0, h1]
  | succ m ih =>
    intro k hm hk
    have hlt : k < vals.length := by omega
    have hrec := ih (k + 1) (by omega) (by omega)
    rw [if_neg (Nat.succ_ne_zero k)] at hrec
    simp only [List.range'_succ, List.map_cons, chain]
    refine ⟨?_, ?_, hrec⟩
    · by_cases h0 : k = 0
      · subst h0
        have : vals.length ≠ 0 := by omega
        simp [heap_of, this]
      · have h1 : 2 * k ≠ 1 := by omega
        have h2 : 2 * k ≠ 2 * vals.length := by omega
        simp [heap_of, h0, h1, h2]
    · by_cases h0 : k = 0
      · subst h0
        simp [heap_of]
      · have h1 : 2 * k + 2 ≠ 1 := by omega
        have h2 : 2 * k + 2 ≠ 2 := by omega
        simp [heap_of, h0, h1, h2]

/-- The heap `heap_of vals` holds at `1` a well-formed queue of the elements
`2, 4, …, 2 * vals.length`. -/
theorem heap_of_WF (vals : List (List Nat)) :
    WF (heap_of vals) 1 ((List.range vals.length).map (fun i : Nat => 2 * i + 2)) := by
  have hinj : Function.Injective (fun i : Nat => 2 * i + 2) := fun a b e => by
    simp only at e; omega
  refine ⟨⟨by simp [heap_of], by simp [heap_of], ?_, ?_, ?_⟩, ?_, ?_⟩
  · intro p hp
    obtain ⟨i, hi, e⟩ := List.mem_map.1 hp
    have e' : p = 2 * i + 2 := e.symm
    subst e'
    have hi' : i < vals.length := List.mem_range.1 hi
    have h1 : 2 * i + 2 ≠ 1 := by omega
    have h2 : 2 ≤ 2 * i + 2 ∧ 2 * i + 2 < 2 * vals.length + 2 := by omega
    have h3 : (2 * i + 2) % 2 = 0 := by omega
    simp only [heap_of, if_neg h1, if_pos h2, if_pos h3]
  · exact (List.nodup_range _).map hinj
  · have := heap_of_chain vals vals.length 0 (by omega) (by omega)
    rw [if_pos rfl] at this
    rw [List.range_eq_range']
    exact this
  · intro p hp
    obtain ⟨i, hi, e⟩ := List.mem_map.1 hp
    have e' : p = 2 * i + 2 := e.symm
    subst e'
    have hi' : i < vals.length := List.mem_range.1 hi
    have h1 : 2 * i + 2 + 1 ≠ 1 := by omega
    have h2 : 2 ≤ 2 * i + 2 + 1 ∧ 2 * i + 2 + 1 < 2 * vals.length + 2 := by omega
    have h3 : ¬ (2 * i + 2 + 1) % 2 = 0 := by omega
    constructor
    · simp only [heap_of, if_neg h1, if_pos h2, if_neg h3]
    · simp [heap_of]
  · rw [List.map_map]
    have hinj2 : Function.Injective ((heap_of vals).value ∘ fun i : Nat => 2 * i + 2) :=
      fun a b e => by
        have e' : 2 * a + 2 + 1 = 2 * b + 2 + 1 := e
        omega
    exact (List.nodup_range _).map hinj2

/-! ## C15: `q_size` -/

/-- An insertion that returns `true`, the allocator answering `NULL` or fresh
addresses, has linked the new element. -/
theorem insert_with_success (link : Heap → Ptr → Ptr → Exec Heap) (hp' : List Ptr → Ptr → List Ptr)
    (hlink : ∀ (h : Heap) (head : Ptr) (ps : List Ptr) (c : List Nat) (a1 a2 : Alloc),
      WF h head ps → FreshPair h a1 a2 → ∃ h', link (elem_heap h c a1.addr a2.addr) a1.addr head
        = .ok h' ∧ WF h' head (hp' ps a1.addr))
    {h : Heap} {head : Ptr} {ps : List Ptr} (hwf : WF h head ps) (s : List Nat) (a1 a2 : Alloc)
    (hal : AllocOK h a1 a2) {h1 : Heap} (hr : insert_with link h head s a1 a2 = .ok (h1, true)) :
    WF h1 head (hp' ps a1.addr) := by
  rcases insert_with_cases link hwf s a1 a2 hal with c | ⟨e, c⟩ | ⟨c1, c2, c3⟩ | ⟨l, c1, c2, c3, c4, c5⟩
  · rw [c] at hr
    cases hr
  · rw [c] at hr
    cases hr
  · rw [c3] at hr
    cases hr
  · have hh : head ≠ 0 := ne_null_of_node hwf.1.1 (isNode_of_head hwf.1.2.1)
    obtain ⟨h', l1, l2⟩ := hlink h head ps (s.take l) a1 a2 hwf c5
    rw [insert_with_ok link h head s a1 a2 l hh c1 c2 c3 c4 c5, l1, exec_bind_ok] at hr
    cases hr
    exact l2

/-- A call of `q_remove_head` that returns an element has unlinked the first
element. -/
theorem q_remove_head_success {h : Heap} {head : Ptr} {ps : List Ptr} (hwf : WF h head ps)
    {sp out : Option (List Nat)} {b : Nat} {h1 : Heap} {x : Ptr}
    (hr : q_remove_head h head sp b = .ok (h1, x, out)) (hx : x ≠ 0) :
    ∃ rest, ps = x :: rest ∧ h1 = del_heap h x ∧ WF h1 head rest := by
  cases ps with
  | nil =>
    rw [q_remove_head_empty hwf sp b] at hr
    cases hr
    exact absurd rfl hx
  | cons y rest =>
    obtain ⟨d1, d2, -⟩ := WF.unlink (A := []) (B := rest) hwf
    rw [q_remove_head_run hwf sp b, d1, exec_bind_ok] at hr
    cases hc : copy_out (del_heap h y) y sp b with
    | error e =>
      rw [hc, exec_bind_error] at hr
      cases hr
    | ok o =>
      rw [hc, exec_bind_ok] at hr
      cases hr
      exact ⟨rest, rfl, rfl, d2⟩

/-- A call of `q_remove_tail` that returns an element has unlinked the last
element. -/
theorem q_remove_tail_success {h : Heap} {head : Ptr} {ps : List Ptr} (hwf : WF h head ps)
    {sp out : Option (List Nat)} {b : Nat} {h1 : Heap} {x : Ptr}
    (hr : q_remove_tail h head sp b = .ok (h1, x, out)) (hx : x ≠ 0) :
    ∃ init, ps = init ++ [x] ∧ h1 = del_heap h x ∧ WF h1 head init := by
  rcases List.eq_nil_or_concat ps with e | ⟨init, y, e⟩
  · subst e
    rw [q_remove_tail_empty hwf sp b] at hr
    cases hr
    exact absurd rfl hx
  · have e' : ps = init ++ [y] := by simpa using e
    subst e'
    obtain ⟨d1, d2, -⟩ := WF.unlink (A := init) (B := []) hwf
    rw [List.append_nil] at d2
    rw [q_remove_tail_run hwf sp b, d1, exec_bind_ok] at hr
    cases hc : copy_out (del_heap h y) y sp b with
    | error e =>
      rw [hc, exec_bind_error] at hr
      cases hr
    | ok o =>
      rw [hc, exec_bind_ok] at hr
      cases hr
      exact ⟨init, rfl, rfl, d2⟩

theorem FreshPair.allocOK {h : Heap} {a1 a2 : Alloc} (hf : FreshPair h a1 a2) :
    AllocOK h a1 a2 :=
  ⟨Or.inr hf.2.1, Or.inr ⟨hf.2.2.2.1, hf.2.2.2.2⟩⟩

/-- C15, as amended: for every well-formed queue of at most `INT_MAX`
(`2^31 - 1`) elements `q_size` returns the number of elements (0 for the empty
queue).  So every successful insertion (one that returns `true`, whatever the
string, the allocator answering `NULL` or fresh addresses) into a queue of
fewer than `INT_MAX` elements raises `q_size` by exactly 1; every successful
`q_remove_head` or `q_remove_tail` (one that returns an element, whatever the
buffer arguments) and every successful `q_delete_mid` (one that returns
`true`) lowers it by exactly 1; `q_swap` and `q_reverse` return and leave it
as it is.  Such calls exist: an insertion of a string shorter than `INT_MAX`
with both allocations succeeding returns `true`, a removal from a non-empty
queue with the buffer arguments in order returns an element, and
`q_delete_mid` on a non-empty queue returns `true`. -/
theorem q_size_counts (h : Heap) (head : Ptr) (ps : List Ptr) (s : List Nat) (a1 a2 : Alloc)
    (sp : Option (List Nat)) (b fuel : Nat)
    (hwf : WF h head ps) (hlen : ps.length ≤ 2147483647) (hfuel : ps.length + 1 < fuel) :
    q_size fuel h head = .ok (ps.length : Int) ∧
    (∀ h1, ps.length < 2147483647 → AllocOK h a1 a2 →
      q_insert_head h head s a1 a2 = .ok (h1, true) →
      q_size fuel h1 head = .ok ((ps.length : Int) + 1)) ∧
    (∀ h1, ps.length < 2147483647 → AllocOK h a1 a2 →
      q_insert_tail h head s a1 a2 = .ok (h1, true) →
      q_size fuel h1 head = .ok ((ps.length : Int) + 1)) ∧
    (∀ h1 x out, q_remove_head h head sp b = .ok (h1, x, out) → x ≠ 0 →
      q_size fuel h1 head = .ok ((ps.length : Int) - 1)) ∧
    (∀ h1 x out, q_remove_tail h head sp b = .ok (h1, x, out) → x ≠ 0 →
      q_size fuel h1 head = .ok ((ps.length : Int) - 1)) ∧
    (∀ h1, q_delete_mid fuel h head = .ok (h1, true) →
      q_size fuel h1 head = .ok ((ps.length : Int) - 1)) ∧
    (∃ h1, q_swap fuel h head = .ok h1 ∧ q_size fuel h1 head = .ok (ps.length : Int)) ∧
    (∃ h1, q_reverse fuel h head = .ok h1 ∧ q_size fuel h1 head = .ok (ps.length : Int)) ∧
    (0 ∈ s → (cstr s).length < 2 ^ 31 - 1 → FreshPair h a1 a2 →
      (∃ h1, q_insert_head h head s a1 a2 = .ok (h1, true)) ∧
      (∃ h1, q_insert_tail h head s a1 a2 = .ok (h1, true))) ∧
    (ps ≠ [] → BufOK sp b →
      (∃ h1 x out, q_remove_head h head sp b = .ok (h1, x, out) ∧ x ≠ 0) ∧
      (∃ h1 x out, q_remove_tail h head sp b = .ok (h1, x, out) ∧ x ≠ 0)) ∧
    (ps ≠ [] → ∃ h1, q_delete_mid fuel h head = .ok (h1, true)) := by
  refine ⟨q_size_ok hwf.1 hlen (by omega), ?_, ?_, ?_, ?_, ?_, ?_, ?_, ?_, ?_, ?_⟩
  · intro h1 hlt hal hr
    rw [q_insert_head_eq] at hr
    have w := insert_with_success list_add (fun ps a => a :: ps) link_head_WF hwf s a1 a2 hal hr
    rw [q_size_ok w.1 (by simp only [List.length_cons]; omega)
      (by simp only [List.length_cons]; omega)]
    simp
  · intro h1 hlt hal hr
    rw [q_insert_tail_eq] at hr
    have w := insert_with_success list_add_tail (fun ps a => ps ++ [a]) link_tail_WF hwf s a1 a2
      hal hr
    rw [q_size_ok w.1 (by simp only [List.length_append, List.length_singleton]; omega)
      (by simp only [List.length_append, List.length_singleton]; omega)]
    simp
  · intro h1 x out hr hx
    obtain ⟨rest, e, -, w⟩ := q_remove_head_success hwf hr hx
    subst e
    simp only [List.length_cons] at hlen hfuel ⊢
    rw [q_size_ok w.1 (by omega) (by omega)]
    simp
  · intro h1 x out hr hx
    obtain ⟨init, e, -, w⟩ := q_remove_tail_success hwf hr hx
    subst e
    simp only [List.length_append, List.length_singleton] at hlen hfuel ⊢
    rw [q_size_ok w.1 (by omega) (by omega)]
    simp
  · intro h1 hr
    by_cases hne : ps = []
    · subst hne
      rw [q_delete_mid_empty hwf fuel] at hr
      cases hr
    · have hpos : 0 < ps.length := List.length_pos.2 hne
      obtain ⟨h2, w, -, -, -, hrun⟩ := q_delete_mid_spec hwf hne
      rw [hrun, if_pos (by omega)] at hr
      cases hr
      have hl : (ps.eraseIdx ((ps.length - 1) / 2)).length = ps.length - 1 := by
        rw [List.length_eraseIdx, if_pos (by omega)]
      rw [q_size_ok w.1 (by omega) (by omega), hl]
      congr 1
      omega
  · obtain ⟨h1, w, -, -, -, hrun⟩ := q_swap_spec hwf
    refine ⟨h1, by rw [hrun, if_pos (Or.inr (by omega))], ?_⟩
    rw [q_size_ok w.1 (by rw [swap_pairs_length]; exact hlen)
      (by rw [swap_pairs_length]; omega), swap_pairs_length]
  · obtain ⟨h1, w, -, -, -, hrun⟩ := q_reverse_spec hwf
    refine ⟨h1, by rw [hrun, if_pos (Or.inr (by omega))], ?_⟩
    rw [q_size_ok w.1 (by rw [List.length_reverse]; exact hlen)
      (by rw [List.length_reverse]; omega), List.length_reverse]
  · intro hs hslen hf
    exact ⟨⟨_, (q_insert_head_ok hwf s a1 a2 hs hslen hf).1⟩,
      ⟨_, (q_insert_tail_ok hwf s a1 a2 hs hslen hf).1⟩⟩
  · intro hne hb
    constructor
    · cases ps with
      | nil => exact absurd rfl hne
      | cons x rest =>
        exact ⟨_, _, _, (q_remove_head_ok hwf sp b hb).1,
          ne_null_of_node hwf.1.1 (isNode_of_elem (hwf.1.2.2.1 x (by simp)))⟩
    · rcases List.eq_nil_or_concat ps with e | ⟨init, y, e⟩
      · exact absurd e hne
      · have e' : ps = init ++ [y] := by simpa using e
        subst e'
        exact ⟨_, _, _, (q_remove_tail_ok hwf sp b hb).1,
          ne_null_of_node hwf.1.1 (isNode_of_elem (hwf.1.2.2.1 y (by simp)))⟩
  · intro hne
    have hpos : 0 < ps.length := List.length_pos.2 hne
    obtain ⟨h2, -, -, -, -, hrun⟩ := q_delete_mid_spec hwf hne
    exact ⟨h2, by rw [hrun, if_pos (by omega)]⟩

/-- C15 as amended, at the queue `a, b, c`, the string `d` and a buffer of two
bytes with capacity 2: each operation succeeds, and `q_size` is 3 before, 4
after an insertion, 2 after a removal or `q_delete_mid`, 3 after `q_swap` or
`q_reverse`. -/
theorem q_size_counts_witness :
    q_size 5 (heap_of [[97], [98], [99]]) 1 = .ok 3 ∧
    (∃ h1, q_insert_head (heap_of [[97], [98], [99]]) 1 [100, 0] (alloc_at 8) (alloc_at 9)
        = .ok (h1, true) ∧ q_size 5 h1 1 = .ok 4) ∧
    (∃ h1, q_insert_tail (heap_of [[97], [98], [99]]) 1 [100, 0] (alloc_at 8) (alloc_at 9)
        = .ok (h1, true) ∧ q_size 5 h1 1 = .ok 4) ∧
    (∃ h1 x out, q_remove_head (heap_of [[97], [98], [99]]) 1 (some [7, 7]) 2 = .ok (h1, x, out) ∧
      x ≠ 0 ∧ q_size 5 h1 1 = .ok 2) ∧
    (∃ h1 x out, q_remove_tail (heap_of [[97], [98], [99]]) 1 (some [7, 7]) 2 = .ok (h1, x, out) ∧
      x ≠ 0 ∧ q_size 5 h1 1 = .ok 2) ∧
    (∃ h1, q_delete_mid 5 (heap_of [[97], [98], [99]]) 1 = .ok (h1, true) ∧
      q_size 5 h1 1 = .ok 2) ∧
    (∃ h1, q_swap 5 (heap_of [[97], [98], [99]]) 1 = .ok h1 ∧ q_size 5 h1 1 = .ok 3) ∧
    (∃ h1, q_reverse 5 (heap_of [[97], [98], [99]]) 1 = .ok h1 ∧ q_size 5 h1 1 = .ok 3) := by
  have hw : WF (heap_of [[97], [98], [99]]) 1 [2, 4, 6] := by decide
  have hc : (cstr [100, 0]).length < 2 ^ 31 - 1 := by
    have : cstr [100, 0] = [100] := by decide
    rw [this]
    norm_num
  have hf : FreshPair (heap_of [[97], [98], [99]]) (alloc_at 8) (alloc_at 9) := by decide
  have hb : BufOK (some [7, 7]) 2 := by
    refine ⟨by decide, by decide, ?_⟩
    norm_num
  obtain ⟨t1, t2, t3, t4, t5, t6, t7, t8, t9, t10, t11⟩ :=
    q_size_counts (heap_of [[97], [98], [99]]) 1 [2, 4, 6] [100, 0] (alloc_at 8) (alloc_at 9)
      (some [7, 7]) 2 5 hw (by norm_num) (by norm_num)
  obtain ⟨⟨i1, hi1⟩, ⟨i2, hi2⟩⟩ := t9 (by decide) hc hf
  obtain ⟨⟨r1, x1, o1, hr1, hx1⟩, ⟨r2, x2, o2, hr2, hx2⟩⟩ := t10 (by decide) hb
  obtain ⟨m, hm⟩ := t11 (by decide)
  exact ⟨t1, ⟨i1, hi1, t2 i1 (by norm_num) hf.allocOK hi1⟩,
    ⟨i2, hi2, t3 i2 (by norm_num) hf.allocOK hi2⟩,
    ⟨r1, x1, o1, hr1, hx1, t4 r1 x1 o1 hr1 hx1⟩, ⟨r2, x2, o2, hr2, hx2, t5 r2 x2 o2 hr2 hx2⟩,
    ⟨m, hm, t6 m hm⟩, t7, t8⟩

/-- C15 as stated fails: the heap `heap_of` of `2^31` empty strings holds a
well-formed queue of `2^31` elements, and `q_size` does not return `2^31`; the
`int` count overflows at the last element. -/
theorem q_size_overflows :
    WF (heap_of (List.replicate (2 ^ 31) [])) 1
      ((List.range (2 ^ 31)).map (fun i : Nat => 2 * i + 2)) ∧
    ((List.range (2 ^ 31)).map (fun i : Nat => 2 * i + 2)).length = 2 ^ 31 ∧
    q_size (2 ^ 31) (heap_of (List.replicate (2 ^ 31) [])) 1 = .error .intOverflow ∧
    ∀ fuel, q_size fuel (heap_of (List.replicate (2 ^ 31) [])) 1 ≠ .ok (2 ^ 31) := by
  have hw := heap_of_WF (List.replicate (2 ^ 31) [])
  rw [List.length_replicate] at hw
  have hl : ((List.range (2 ^ 31)).map (fun i : Nat => 2 * i + 2)).length = 2 ^ 31 := by
    rw [List.length_map, List.length_range]
  have hs := q_size_spec hw.1
  rw [hl] at hs
  have hmin : min (2 ^ 31) 2147483647 = 2147483647 := by norm_num
  have hgt : ¬ (2 ^ 31 ≤ 2147483647) := by norm_num
  rw [hmin] at hs
  simp only [if_neg hgt] at hs
  refine ⟨hw, hl, ?_, ?_⟩
  · rw [hs, if_pos (by norm_num)]
  · intro fuel
    rw [hs]
    split_ifs <;> simp

/-! ## `q_free` -/

/-- The loop of `q_free` in a heap `g` in which the elements before the index
`j` have been released: it releases the elements from `j` on and their
arrays, and nothing else. -/
theorem q_free_loop_spec {h : Heap} {l : Ptr} {ps : List Ptr} (hwf : WF h l ps) :
    ∀ (d j : Nat) (g : Heap), ps.length - j = d → j ≤ ps.length →
      g.kind 0 = none → g.next = h.next → g.value = h.value →
      (∀ p ∈ l :: ps.drop j, g.kind p = h.kind p) →
      (∀ p ∈ ps.drop j, g.kind (h.value p) = h.kind (h.value p)) →
      ∃ h', h'.next = g.next ∧ h'.prev = g.prev ∧ h'.value = g.value ∧ h'.bytes = g.bytes ∧
        (∀ p, h'.kind p
          = if p ∈ ps.drop j ∨ p ∈ (ps.drop j).map h.value then none else g.kind p) ∧
        ∀ fuel, q_free_loop fuel g l (ps.getD j l) (h.next (ps.getD j l))
          = if d < fuel then .ok h' else .error .outOfFuel := by
  intro d
  induction d with
  | zero =>
    intro j g hd hj g0 gn gv gk gkv
    have hjn : ps.length ≤ j := by omega
    refine ⟨g, rfl, rfl, rfl, rfl, ?_, ?_⟩
    · intro p
      simp [List.drop_eq_nil_of_le hjn]
    · intro fuel
      cases fuel with
      | zero => simp [q_free_loop]
      | succ fuel =>
        unfold q_free_loop
        rw [if_pos (getD_of_le l hjn)]
        simp
  | succ d ih =>
    intro j g hd hj g0 gn gv gk gkv
    have hjn : j < ps.length := by omega
    have hdrop : ps.drop j = ps.getD j l :: ps.drop (j + 1) := by
      rw [List.getD_eq_getElem _ _ hjn]
      exact List.drop_eq_getElem_cons hjn
    have hxm : ps.getD j l ∈ ps := getD_mem_of_lt l hjn
    have hsub : ∀ p, p ∈ ps.drop (j + 1) → p ∈ ps := fun p hp => List.mem_of_mem_drop hp
    set x := ps.getD j l with hx
    have hxl : x ≠ l := hwf.1.ne_head hxm
    have hxk : h.kind x = some Kind.element := hwf.1.2.2.1 x hxm
    have hvk : h.kind (h.value x) = some Kind.chars := (hwf.2.1 x hxm).1
    have hnd : (x :: ps.drop (j + 1)).Nodup := by
      rw [← hdrop]
      exact (List.drop_sublist j ps).nodup hwf.1.2.2.2.1
    have hndv : ((x :: ps.drop (j + 1)).map h.value).Nodup := by
      rw [← hdrop]
      exact ((List.drop_sublist j ps).map h.value).nodup hwf.2.2
    have hgx : g.kind x = some Kind.element := by
      rw [gk x (by rw [hdrop]; simp), hxk]
    have hgv : g.kind (g.value x) = some Kind.chars := by
      rw [gv, gkv x (by rw [hdrop]; simp), hvk]
    have hvx : x ≠ g.value x := by
      intro e
      rw [← e, hgx] at hgv
      cases hgv
    -- the addresses that stay allocated
    have keep : ∀ p, h.kind p ≠ none → p ≠ x → p ≠ h.value x →
        (release_heap g x).kind p = g.kind p := by
      intro p _ h1 h2
      rw [← gv] at h2
      simp [release_heap, Function.update_noteq h1, Function.update_noteq h2]
    have hnode : ∀ p ∈ l :: ps.drop (j + 1), (release_heap g x).kind p = h.kind p := by
      intro p hp
      have hpn : h.isNode p = true := by
        rcases List.mem_cons.1 hp with rfl | hp
        · exact isNode_of_head hwf.1.2.1
        · exact isNode_of_elem (hwf.1.2.2.1 p (hsub p hp))
      have h1 : p ≠ x := by
        rcases List.mem_cons.1 hp with rfl | hp
        · exact fun e => hxl e.symm
        · rintro rfl
          exact (List.nodup_cons.1 hnd).1 hp
      have h2 : p ≠ h.value x := by
        rintro rfl
        simp [Heap.isNode, hvk] at hpn
      have h3 : h.kind p ≠ none := by
        intro e
        simp [Heap.isNode, e] at hpn
      rw [keep p h3 h1 h2]
      apply gk
      rcases List.mem_cons.1 hp with rfl | hp
      · simp
      · rw [hdrop]; simp [hp]
    have hval : ∀ p ∈ ps.drop (j + 1),
        (release_heap g x).kind (h.value p) = h.kind (h.value p) := by
      intro p hp
      have hpk : h.kind (h.value p) = some Kind.chars := (hwf.2.1 p (hsub p hp)).1
      have h1 : h.value p ≠ x := by
        intro e
        rw [e, hxk] at hpk
        cases hpk
      have h2 : h.value p ≠ h.value x := by
        intro e
        have := (List.nodup_cons.1 hndv).1
        rw [← e] at this
        exact this (List.mem_map_of_mem _ hp)
      rw [keep _ (by rw [hpk]; simp) h1 h2]
      exact gkv p (by rw [hdrop]; simp [hp])
    have hg0 : (release_heap g x).kind 0 = none := by
      by_cases e1 : (0 : Ptr) = x
      · rw [e1]; exact (release_heap_kind g x).1
      · by_cases e2 : (0 : Ptr) = g.value x
        · rw [e2]; exact (release_heap_kind g x).2
        · simp [release_heap, Function.update_noteq e1, Function.update_noteq e2, g0]
    obtain ⟨h', n1, n2, n3, n4, n5, hrun⟩ := ih (j + 1) (release_heap g x) (by omega) (by omega)
      hg0 gn gv hnode hval
    refine ⟨h', n1, n2, n3, n4, ?_, ?_⟩
    · intro p
      rw [n5 p, hdrop]
      by_cases c1 : p ∈ ps.drop (j + 1) ∨ p ∈ (ps.drop (j + 1)).map h.value
      · have : p ∈ x :: ps.drop (j + 1) ∨ p ∈ (x :: ps.drop (j + 1)).map h.value := by
          rcases c1 with c | c
          · exact Or.inl (List.mem_cons_of_mem _ c)
          · exact Or.inr (by rw [List.map_cons]; exact List.mem_cons_of_mem _ c)
        rw [if_pos c1, if_pos this]
      · rw [if_neg c1]
        by_cases c2 : p = x
        · rw [c2, if_pos (Or.inl (List.mem_cons_self _ _))]
          exact (release_heap_kind g x).1
        · by_cases c3 : p = h.value x
          · rw [c3, if_pos (Or.inr (by simp))]
            rw [← gv]
            exact (release_heap_kind g x).2
          · have : ¬ (p ∈ x :: ps.drop (j + 1) ∨ p ∈ (x :: ps.drop (j + 1)).map h.value) := by
              simp only [List.mem_cons, List.map_cons, not_or]
              simp only [not_or] at c1
              exact ⟨⟨c2, c1.1⟩, ⟨c3, c1.2⟩⟩
            rw [if_neg this]
            rw [← gv] at c3
            simp [release_heap, Function.update_noteq c2, Function.update_noteq c3]
    · intro fuel
      cases fuel with
      | zero => simp [q_free_loop]
      | succ fuel =>
        have hnx : h.next x = ps.getD (j + 1) l := chain_next_at hwf.1.2.2.2.2 j hjn
        have htm : h.next x ∈ l :: ps.drop (j + 1) := by
          rw [hnx]
          by_cases hj1 : j + 1 < ps.length
          · rw [List.getD_eq_getElem _ _ hj1]
            exact List.mem_cons_of_mem _ (by
              rw [List.drop_eq_getElem_cons hj1]; exact List.mem_cons_self _ _)
          · rw [getD_of_le l (by omega)]
            exact List.mem_cons_self _ _
        have htn : (release_heap g x).isNode (h.next x) = true := by
          have e := hnode _ htm
          have := hwf.1.isNode_next x (List.mem_cons_of_mem _ hxm)
          simp only [Heap.isNode, e] at this ⊢
          exact this
        have hfree2 : free (g.setKind (g.value x) none) x
            = .ok ((g.setKind (g.value x) none).setKind x none) :=
          free_ok (k := Kind.element) (by
            by_cases e2 : (0 : Ptr) = g.value x
            · rw [e2]; simp
            · simp [Function.update_noteq e2, g0]) (by
            simp [Function.update_noteq hvx, hgx])
        have hnext : (release_heap g x).next = h.next := gn
        unfold q_free_loop
        rw [if_neg hxl]
        simp only [load_value_ok g0 hgx, exec_bind_ok, free_ok g0 hgv, hfree2]
        have hr : (g.setKind (g.value x) none).setKind x none = release_heap g x := rfl
        rw [hr, load_next_ok hg0 htn]
        simp only [exec_bind_ok, hnext]
        rw [hnx, hrun fuel]
        simp

/-- The function `q_free` on a well-formed queue: the heap afterwards differs from the
one before in that the elements, their arrays and the sentinel are no longer
allocated. -/
theorem q_free_spec {h : Heap} {l : Ptr} {ps : List Ptr} (hwf : WF h l ps) :
    ∃ h', h'.next = h.next ∧ h'.prev = h.prev ∧ h'.value = h.value ∧ h'.bytes = h.bytes ∧
      (∀ p, h'.kind p = if p = l ∨ p ∈ ps ∨ p ∈ ps.map h.value then none else h.kind p) ∧
      ∀ fuel, q_free fuel h l = if ps.length < fuel then .ok h' else .error .outOfFuel := by
  have hl0 : l ≠ 0 := ne_null_of_node hwf.1.1 (isNode_of_head hwf.1.2.1)
  have hnx : h.next l = ps.getD 0 l := by
    rw [chain_next_first hwf.1.2.2.2.2]
    cases ps <;> rfl
  obtain ⟨h1, n1, n2, n3, n4, n5, hrun⟩ := q_free_loop_spec hwf ps.length 0 h (by omega)
    (by omega) hwf.1.1 rfl rfl (fun _ _ => rfl) (fun _ _ => rfl)
  rw [List.drop_zero] at n5
  obtain ⟨e1, e2, e3⟩ : l ≠ 0 ∧ l ∉ ps ∧ l ∉ ps.map h.value := by
    refine ⟨hl0, hwf.1.head_not_mem, ?_⟩
    intro hm
    obtain ⟨p, hp, hpv⟩ := List.mem_map.1 hm
    have := (hwf.2.1 p hp).1
    rw [hpv, hwf.1.2.1] at this
    cases this
  have hk1 : h1.kind l = some Kind.listHead := by
    rw [n5 l, if_neg (by simp [e2, e3]), hwf.1.2.1]
  have hk0 : h1.kind 0 = none := by
    rw [n5 0]
    split_ifs
    · rfl
    · exact hwf.1.1
  refine ⟨h1.setKind l none, n1, n2, n3, n4, ?_, ?_⟩
  · intro p
    by_cases c : p = l
    · subst c
      simp
    · simp only [setKind_kind, Function.update_noteq c, n5 p, c, false_or]
  · intro fuel
    unfold q_free
    simp only [if_neg hl0, load_next_ok hwf.1.1 (isNode_of_head hwf.1.2.1), exec_bind_ok,
      load_next_ok hwf.1.1 (hwf.1.isNode_next l (List.mem_cons_self _ _))]
    rw [hnx, hrun fuel]
    by_cases hf : ps.length < fuel
    · simp only [if_pos hf, exec_bind_ok, free_ok hk0 hk1]
    · simp only [if_neg hf, exec_bind_error]

/-! ## C18: `q_free` releases everything, once -/

/-- C18: for every well-formed queue `q_free` returns; the sentinel, the
elements and their arrays are `2 * n + 1` different allocations, each of them
live before the call and released by it, so that a further `free` of any of
them would be a fault (none was released twice, or the call would not have
returned); every other allocation and all contents are as before. -/
theorem q_free_releases_all (h : Heap) (l : Ptr) (ps : List Ptr) (fuel : Nat)
    (hwf : WF h l ps) (hfuel : ps.length < fuel) :
    ∃ h', q_free fuel h l = .ok h' ∧
      (l :: ps ++ ps.map h.value).Nodup ∧
      (∀ q ∈ l :: ps ++ ps.map h.value,
        h.kind q ≠ none ∧ h'.kind q = none ∧ free h' q = .error .badFree) ∧
      (∀ q, q ∉ l :: ps ++ ps.map h.value → h'.kind q = h.kind q) ∧
      h'.next = h.next ∧ h'.prev = h.prev ∧ h'.value = h.value ∧ h'.bytes = h.bytes := by
  obtain ⟨h', n1, n2, n3, n4, n5, hrun⟩ := q_free_spec hwf
  have hmem : ∀ q, q ∈ l :: ps ++ ps.map h.value ↔ (q = l ∨ q ∈ ps ∨ q ∈ ps.map h.value) := by
    intro q
    simp only [List.cons_append, List.mem_cons, List.mem_append]
  have hlive : ∀ q, (q = l ∨ q ∈ ps ∨ q ∈ ps.map h.value) → h.kind q ≠ none := by
    rintro q (rfl | hq | hq)
    · rw [hwf.1.2.1]; simp
    · rw [hwf.1.2.2.1 q hq]; simp
    · obtain ⟨p, hp, rfl⟩ := List.mem_map.1 hq
      rw [(hwf.2.1 p hp).1]; simp
  refine ⟨h', by rw [hrun, if_pos hfuel], ?_, ?_, ?_, n1, n2, n3, n4⟩
  · rw [List.cons_append, List.nodup_cons, List.nodup_append]
    refine ⟨?_, hwf.1.2.2.2.1, hwf.2.2, ?_⟩
    · intro hm
      rcases List.mem_append.1 hm with hm | hm
      · exact hwf.1.head_not_mem hm
      · obtain ⟨p, hp, hpv⟩ := List.mem_map.1 hm
        have := (hwf.2.1 p hp).1
        rw [hpv, hwf.1.2.1] at this
        cases this
    · intro q hq hqv
      obtain ⟨p, hp, hpv⟩ := List.mem_map.1 hqv
      have := (hwf.2.1 p hp).1
      rw [hpv, hwf.1.2.2.1 q hq] at this
      cases this
  · intro q hq
    have hq' := (hmem q).1 hq
    have hk : h'.kind q = none := by rw [n5 q, if_pos hq']
    have hq0 : q ≠ 0 := by
      rintro rfl
      exact hlive 0 hq' hwf.1.1
    refine ⟨hlive q hq', hk, ?_⟩
    simp [free, hq0, hk]
  · intro q hq
    rw [n5 q, if_neg (fun c => hq ((hmem q).2 c))]

/-- C18 at the queue `a, b`: the sentinel `1`, the elements `2` and `4` and
their arrays `3` and `5` are released. -/
theorem q_free_releases_all_witness :
    ∃ h', q_free 3 (heap_of [[97], [98]]) 1 = .ok h' ∧
      [1, 2, 4, 3, 5].Nodup ∧
      (∀ q ∈ [1, 2, 4, 3, 5],
        (heap_of [[97], [98]]).kind q ≠ none ∧ h'.kind q = none ∧
          free h' q = .error .badFree) ∧
      (∀ q, q ∉ [1, 2, 4, 3, 5] → h'.kind q = (heap_of [[97], [98]]).kind q) ∧
      h'.next = (heap_of [[97], [98]]).next ∧ h'.prev = (heap_of [[97], [98]]).prev ∧
      h'.value = (heap_of [[97], [98]]).value ∧ h'.bytes = (heap_of [[97], [98]]).bytes := by
  have hw : WF (heap_of [[97], [98]]) 1 [2, 4] := by decide
  exact q_free_releases_all (heap_of [[97], [98]]) 1 [2, 4] 3 hw (by decide)

/-! ## C17: the doc comment of `q_delete_dup` -/

/-- C17, the code at the failing input: on the sorted queue `a, a, b` the call
of `q_delete_dup` ends in the fault of `strcmp(NULL, ...)`; and its loop,
entered at the second element with the string of the first one as `cmp`,
releases the second `a` only and leaves `a, b`: one element of each run of
equal strings is kept. -/
theorem q_delete_dup_keeps_one :
    q_delete_dup 4 (heap_of [[97], [97], [98]]) 1 = .error .nullDeref ∧
    ∃ h', q_delete_dup_loop 3 (heap_of [[97], [97], [98]]) 1 3 4 6 = .ok h' ∧
      WF h' 1 [2, 6] ∧ payloads h' [2, 6] = [[97], [98]] ∧
      h'.kind 4 = none ∧ h'.kind 5 = none := by
  have hw : WF (heap_of [[97], [97], [98]]) 1 [2, 4, 6] := by decide
  refine ⟨?_, ?_⟩
  · rw [q_delete_dup_faults hw (by decide) 4]
    rfl
  · refine ⟨_, rfl, ?_, ?_, ?_, ?_⟩ <;> decide

/-! ## C13 and C14: what is inserted and what is removed -/

theorem long_string_facts :
    0 ∈ long_string ∧ to_int (cstr long_string).length = ((1 : Nat) : Int) ∧
    long_string.take 1 = [97] ∧ (cstr long_string).length = 2 ^ 32 + 1 := by
  have hc : cstr long_string = List.replicate (2 ^ 32 + 1) 97 := cstr_letters _
  have hlen : (cstr long_string).length = 2 ^ 32 + 1 := by rw [hc, List.length_replicate]
  refine ⟨List.mem_append_right _ (List.mem_singleton.2 rfl), ?_, ?_, hlen⟩
  · rw [hlen]; exact to_int_wraps
  · unfold long_string
    rw [List.replicate_succ]
    rfl

/-- A string shorter than `INT_MAX` inserted at the head and removed from the
head again: the element removed holds the string, and the queue is as
before. -/
theorem insert_head_remove_head {h : Heap} {head : Ptr} {ps : List Ptr} (hwf : WF h head ps)
    (s : List Nat) (a1 a2 : Alloc) (hs : 0 ∈ s) (hlen : (cstr s).length < 2 ^ 31 - 1)
    (hf : FreshPair h a1 a2) :
    ∃ h1 h2, q_insert_head h head s a1 a2 = .ok (h1, true) ∧
      q_remove_head h1 head none 0 = .ok (h2, a1.addr, none) ∧
      payload h2 a1.addr = cstr s ∧ WF h2 head ps ∧ payloads h2 ps = payloads h ps := by
  obtain ⟨e, w, p, -⟩ := q_insert_head_ok hwf s a1 a2 hs hlen hf
  obtain ⟨e2, w2⟩ := q_remove_head_ok w none 0 trivial
  refine ⟨_, _, e, e2, ?_, w2, ?_⟩
  · exact (List.cons.inj p).1
  · exact (List.cons.inj p).2

/-- C13, the code at the failing input: a string of `2^32 + 1` letters is
inserted at the head of the empty queue and the head is removed; the element
returned holds a string of one letter. -/
theorem round_trip_truncates :
    ∃ h1 h2, q_insert_head heap_empty_queue 1 long_string (alloc_at 2) (alloc_at 3)
        = .ok (h1, true) ∧
      q_remove_head h1 1 none 0 = .ok (h2, 2, none) ∧
      payload h2 2 = [97] ∧ (cstr long_string).length = 2 ^ 32 + 1 ∧ WF h2 1 [] := by
  obtain ⟨hs, hti, htake, hlen⟩ := long_string_facts
  obtain ⟨e, w, p, -⟩ := @q_insert_head_gen heap_empty_queue 1 []
    (by decide) long_string (alloc_at 2) (alloc_at 3) 1 hs hti (by norm_num) (by rw [hlen]; omega)
    (by decide)
  obtain ⟨e2, w2⟩ := q_remove_head_ok w none 0 trivial
  rw [htake] at p
  exact ⟨_, _, e, e2, (List.cons.inj p).1, hlen, w2⟩

/-- Three removals from the head of a queue of three elements. -/
theorem remove_head_thrice {h : Heap} {head a b c : Ptr} (hwf : WF h head [a, b, c]) :
    ∃ g1 g2 g3, q_remove_head h head none 0 = .ok (g1, a, none) ∧
      q_remove_head g1 head none 0 = .ok (g2, b, none) ∧
      q_remove_head g2 head none 0 = .ok (g3, c, none) ∧
      payload g1 a = payload h a ∧ payload g2 b = payload h b ∧ payload g3 c = payload h c ∧
      WF g3 head [] := by
  obtain ⟨r1, u1⟩ := q_remove_head_ok hwf none 0 trivial
  obtain ⟨r2, u2⟩ := q_remove_head_ok u1 none 0 trivial
  obtain ⟨r3, u3⟩ := q_remove_head_ok u2 none 0 trivial
  exact ⟨_, _, _, r1, r2, r3, rfl, rfl, rfl, u3⟩

/-- Three removals from the tail of a queue of three elements. -/
theorem remove_tail_thrice {h : Heap} {head a b c : Ptr} (hwf : WF h head [a, b, c]) :
    ∃ g1 g2 g3, q_remove_tail h head none 0 = .ok (g1, c, none) ∧
      q_remove_tail g1 head none 0 = .ok (g2, b, none) ∧
      q_remove_tail g2 head none 0 = .ok (g3, a, none) ∧
      payload g1 c = payload h c ∧ payload g2 b = payload h b ∧ payload g3 a = payload h a ∧
      WF g3 head [] := by
  obtain ⟨r1, u1⟩ := @q_remove_tail_ok _ _ c [a, b] hwf none 0 trivial
  obtain ⟨r2, u2⟩ := @q_remove_tail_ok _ _ b [a] u1 none 0 trivial
  obtain ⟨r3, u3⟩ := @q_remove_tail_ok _ _ a [] u2 none 0 trivial
  exact ⟨_, _, _, r1, r2, r3, rfl, rfl, rfl, u3⟩

/-- The strings `a`, `b`, `c` inserted at the tail of the empty queue: removed
from the head they come as `a`, `b`, `c`, removed from the tail as `c`, `b`,
`a`, and the queue is empty afterwards. -/
theorem fifo_lifo_abc :
    ∃ h1 h2 h3,
      q_insert_tail heap_empty_queue 1 [97, 0] (alloc_at 2) (alloc_at 3) = .ok (h1, true) ∧
      q_insert_tail h1 1 [98, 0] (alloc_at 4) (alloc_at 5) = .ok (h2, true) ∧
      q_insert_tail h2 1 [99, 0] (alloc_at 6) (alloc_at 7) = .ok (h3, true) ∧
      (∃ g1 g2 g3,
        q_remove_head h3 1 none 0 = .ok (g1, 2, none) ∧
        q_remove_head g1 1 none 0 = .ok (g2, 4, none) ∧
        q_remove_head g2 1 none 0 = .ok (g3, 6, none) ∧
        [payload g1 2, payload g2 4, payload g3 6] = [[97], [98], [99]] ∧ WF g3 1 []) ∧
      (∃ g1 g2 g3,
        q_remove_tail h3 1 none 0 = .ok (g1, 6, none) ∧
        q_remove_tail g1 1 none 0 = .ok (g2, 4, none) ∧
        q_remove_tail g2 1 none 0 = .ok (g3, 2, none) ∧
        [payload g1 6, payload g2 4, payload g3 2] = [[99], [98], [97]] ∧ WF g3 1 []) := by
  have hc : ∀ c : Nat, c ≠ 0 → cstr [c, 0] = [c] := by
    intro c hc
    simp [cstr, List.takeWhile, hc]
  have hlen : ∀ c : Nat, c ≠ 0 → (cstr [c, 0]).length < 2 ^ 31 - 1 := by
    intro c hc'
    rw [hc c hc']
    norm_num
  have hw0 : WF heap_empty_queue 1 [] := by decide
  obtain ⟨e1, w1, p1, -⟩ := q_insert_tail_ok hw0 [97, 0] (alloc_at 2) (alloc_at 3)
    (by decide) (hlen 97 (by decide)) (by decide)
  obtain ⟨e2, w2, p2, -⟩ := q_insert_tail_ok w1 [98, 0] (alloc_at 4) (alloc_at 5)
    (by decide) (hlen 98 (by decide)) (by decide)
  obtain ⟨e3, w3, p3, -⟩ := q_insert_tail_ok w2 [99, 0] (alloc_at 6) (alloc_at 7)
    (by decide) (hlen 99 (by decide)) (by decide)
  rw [p1] at p2
  rw [p2] at p3
  have p3' : payloads _ [2, 4, 6] = [cstr [97, 0], cstr [98, 0], cstr [99, 0]] := p3
  have q1 : payload _ 2 = [97] := ((List.cons.inj p3').1).trans (hc 97 (by decide))
  have q2 : payload _ 4 = [98] :=
    ((List.cons.inj (List.cons.inj p3').2).1).trans (hc 98 (by decide))
  have q3 : payload _ 6 = [99] :=
    ((List.cons.inj (List.cons.inj (List.cons.inj p3').2).2).1).trans (hc 99 (by decide))
  have w3' : WF _ 1 [2, 4, 6] := w3
  obtain ⟨a1, a2, a3, r1, r2, r3, s1, s2, s3, u⟩ := remove_head_thrice w3'
  obtain ⟨b1, b2, b3, t1, t2, t3, v1, v2, v3, u'⟩ := remove_tail_thrice w3'
  refine ⟨_, _, _, e1, e2, e3, ⟨a1, a2, a3, r1, r2, r3, ?_, u⟩, ⟨b1, b2, b3, t1, t2, t3, ?_, u'⟩⟩
  · rw [s1, s2, s3, q1, q2, q3]
  · rw [v1, v2, v3, q1, q2, q3]

/-- C14, the code at the failing input: the one string of `2^32 + 1` letters
is inserted at the tail of the empty queue; `q_remove_head` then returns an
element holding a string of one letter, and so does `q_remove_tail`. -/
theorem fifo_lifo_truncates :
    ∃ h1, q_insert_tail heap_empty_queue 1 long_string (alloc_at 2) (alloc_at 3)
        = .ok (h1, true) ∧
      (∃ g, q_remove_head h1 1 none 0 = .ok (g, 2, none) ∧ payload g 2 = [97] ∧ WF g 1 []) ∧
      (∃ g, q_remove_tail h1 1 none 0 = .ok (g, 2, none) ∧ payload g 2 = [97] ∧ WF g 1 []) ∧
      (cstr long_string).length = 2 ^ 32 + 1 := by
  obtain ⟨hs, hti, htake, hlen⟩ := long_string_facts
  obtain ⟨e, w, p, -⟩ := @q_insert_tail_gen heap_empty_queue 1 []
    (by decide) long_string (alloc_at 2) (alloc_at 3) 1 hs hti (by norm_num) (by rw [hlen]; omega)
    (by decide)
  rw [htake] at p
  have hp : payload _ 2 = [97] := (List.cons.inj p).1
  obtain ⟨e2, w2⟩ := @q_remove_head_ok _ _ 2 [] w none 0 trivial
  obtain ⟨e3, w3⟩ := @q_remove_tail_ok _ _ 2 [] w none 0 trivial
  exact ⟨_, e, ⟨_, e2, hp, w2⟩, ⟨_, e3, hp, w3⟩, hlen⟩

end Queue
